import Mathlib

/-!
# randomMaze.js : the incremental recursive-backtracker maze engine

A shallow embedding of the algorithmic core of `src/randomMaze.js` (grid state,
neighbour classification, random selection and one-cell-at-a-time backtracking
through the explicit stack `TRACKER`), followed by theorems about it.

Conventions of the embedding.

* The module-level constants `X`, `Y` (grid size) and `rootX`, `rootY` are parameters.
* The module-level mutable variables `CELLS`, `TRACKER`, `currentX`, `currentY`
  are the fields of `Engine`; every function that mutates them takes and returns an `Engine`.
* `Math.random()` is an explicit argument `r : ℚ` of `stepOut`. `stepOut` takes the product
  `Math.random() * length` exactly; `stepOutDouble` is the same function with the product
  rounded to the nearest double, as the source computes it. The index is a valid position
  of the list either way, and every callback in doubles is a callback of `stepOut` for some
  draw in `[0,1)` (`tickDouble_refines_tick`); which draw selects which record is stated
  of `stepOutDouble`.
* Coordinates and indices are integers (`Int`); the source computes them in doubles, which
  are exact on safe integers (absolute value below `2^53`), so on every cell of a grid.
* A JavaScript `throw` (or a `TypeError`) is `Except.error`.
* Canvas drawing (`drawingRect`, `drawingLine`, `drawingGrids`, `setupCanvas`) writes only to
  the canvas and is not modelled; `findTheWall` is, because it can throw.
* `stepOut` returns nothing in the source; the embedding returns, next to the new state, a
  `StepResult` recording which branch ran and which `moveToNext` call it made.
-/

namespace RandomMaze

/-! ## Data model -/

/-- The two strings stored in `CELLS`. -/
inductive Status
  | unvisited
  | visited
deriving DecidableEq, Repr

/-- A JavaScript array of statuses, as far as integer keys go: `items` are the elements at
keys `0 .. length-1` (`none` is a hole, read as `undefined`), `props` are the values stored
under negative integer keys (most recent first), which do not count for the length. -/
structure CellArray where
  items : List (Option Status)
  props : List (Int × Status)
deriving DecidableEq, Repr

namespace CellArray

/-- The empty array: `const CELLS = []`. -/
def empty : CellArray := ⟨[], []⟩

/-- Array method `CELLS.push(v)`. -/
def push (a : CellArray) (v : Status) : CellArray :=
  { a with items := a.items ++ [some v] }

/-- Read `CELLS[i]`; `none` is `undefined`. -/
def get (a : CellArray) (i : Int) : Option Status :=
  if i < 0 then a.props.lookup i
  else
    match a.items[i.toNat]? with
    | some v => v
    | none => none

/-- Write `CELLS[i] = v`: a negative key becomes a property, a key inside the array
overwrites the element, a key at or past the length extends the array with holes. -/
def set (a : CellArray) (i : Int) (v : Status) : CellArray :=
  if i < 0 then { a with props := (i, v) :: a.props }
  else if i.toNat < a.items.length then { a with items := a.items.set i.toNat (some v) }
  else { a with items := a.items ++ List.replicate (i.toNat - a.items.length) none ++ [some v] }

end CellArray

/-- Helper class `Stack` of the source: `items` in array order, the top is the last element. -/
structure Stack where
  items : List Int
deriving DecidableEq, Repr

namespace Stack

/-- Method `push(element)`. -/
def push (t : Stack) (element : Int) : Stack := ⟨t.items ++ [element]⟩

/-- Method `pop()`, as used by the source (the popped value is discarded there). -/
def pop (t : Stack) : Stack := ⟨t.items.dropLast⟩

/-- Method `peek()`: `items[items.length-1]`, `none` for `undefined` on the empty stack. -/
def peek (t : Stack) : Option Int := t.items.getLast?

/-- Method `isEmpty()`. -/
def isEmpty (t : Stack) : Bool := t.items.length == 0

/-- Method `size()`. -/
def size (t : Stack) : Nat := t.items.length

end Stack

/-- The mutable module state: `CELLS`, `TRACKER`, `currentX`, `currentY`. -/
structure Engine where
  CELLS : CellArray
  TRACKER : Stack
  currentX : Int
  currentY : Int
deriving DecidableEq, Repr

/-- One record of `neighborType`: coordinates and the result of `checkValidation`
(`none` is `null`). -/
structure Neighbor where
  x : Int
  y : Int
  value : Option Status
deriving DecidableEq, Repr

/-- The object `next` built by `findValidNeighbor`. -/
structure NextStep where
  visited : List Neighbor
  unvisited : List Neighbor
deriving DecidableEq, Repr

/-- What one call of `stepOut` did: the carve branch and its `moveToNext(next, false)`, the
backtrack branch with its `moveToNext(v, true)`, the backtrack branch whose loop found no
matching neighbour (the entry is popped and nothing moves), or the finish branch. -/
inductive StepResult
  | carved (fromX fromY toX toY : Int)
  | backtracked (fromX fromY toX toY : Int)
  | popped
  | finished
deriving DecidableEq, Repr

/-! ## Constants -/

/-- Constant `CELL_SIZE`. -/
def CELL_SIZE : Int := 20

/-- Constant `BORDER`. -/
def BORDER : Int := 2

/-! ## Functions of the source -/

/-- Function `setupCells`: the two nested loops push `'unvisited'` once per cell. -/
def setupCells (X Y : Nat) (CELLS : CellArray) : CellArray :=
  (List.range X).foldl
    (fun c _ => (List.range Y).foldl (fun c _ => c.push Status.unvisited) c) CELLS

/-- Function `findCellPosition`. -/
def findCellPosition (pos : Int) : Int := pos * CELL_SIZE + BORDER

/-- Function `checkValidation`: `none` is `null`. -/
def checkValidation (X Y : Nat) (CELLS : CellArray) (posX posY : Int) : Option Status :=
  let withinMaze := decide (posX ≥ 0) && decide (posX < X) && decide (posY ≥ 0) && decide (posY < Y)
  if withinMaze then
    let index := (Y : Int) * posX + posY
    let ifVisited := CELLS.get index == some Status.unvisited
    if ifVisited then some Status.unvisited
    else some Status.visited
  else none

/-- Function `neighborType`. -/
def neighborType (X Y : Nat) (CELLS : CellArray) (posX posY : Int) : List Neighbor :=
  let left : Neighbor := ⟨posX - 1, posY, checkValidation X Y CELLS (posX - 1) posY⟩
  let right : Neighbor := ⟨posX + 1, posY, checkValidation X Y CELLS (posX + 1) posY⟩
  let up : Neighbor := ⟨posX, posY - 1, checkValidation X Y CELLS posX (posY - 1)⟩
  let down : Neighbor := ⟨posX, posY + 1, checkValidation X Y CELLS posX (posY + 1)⟩
  [left, right, up, down]

/-- Function `findValidNeighbor`: the `for ... of` loop is a left fold. -/
def findValidNeighbor (X Y : Nat) (CELLS : CellArray) (posX posY : Int) : NextStep :=
  let neighbors := neighborType X Y CELLS posX posY
  neighbors.foldl
    (fun next n =>
      if n.value = some Status.visited then { next with visited := next.visited ++ [n] }
      else if n.value = some Status.unvisited then { next with unvisited := next.unvisited ++ [n] }
      else next)
    ⟨[], []⟩

/-- Function `findTheWall`; the last branch is `throw ('How did it move just now?')`.
`BORDER/2` is the integer `1`. -/
def findTheWall (curX curY nextX nextY : Int) : Except String (Int × Int × Int × Int) :=
  if curX = nextX then
    let fromX := findCellPosition curX
    let toX := fromX + CELL_SIZE - BORDER
    let fromY := findCellPosition (if curY > nextY then curY else nextY) - BORDER / 2
    .ok (fromX, fromY, toX, fromY)
  else if curY = nextY then
    let fromX := findCellPosition (if curX > nextX then curX else nextX) - BORDER / 2
    let fromY := findCellPosition curY
    let toY := fromY + CELL_SIZE - BORDER
    .ok (fromX, fromY, fromX, toY)
  else .error "How did it move just now?"

/-- Function `removeTheWall`: computes the wall (which may throw), then only draws. -/
def removeTheWall (curX curY nextX nextY : Int) (_ifBacktracking : Bool) : Except String Unit :=
  match findTheWall curX curY nextX nextY with
  | .ok _ => .ok ()
  | .error e => .error e

/-- Function `updateCurrentCell`. -/
def updateCurrentCell (Y : Nat) (posX posY : Int) (ifBacktracking : Bool) (s : Engine) : Engine :=
  if !ifBacktracking then
    { s with
      CELLS := s.CELLS.set ((Y : Int) * posX + posY) Status.visited
      TRACKER := s.TRACKER.push ((Y : Int) * posX + posY) }
  else s

/-- Function `moveToNext`. -/
def moveToNext (Y : Nat) (nextX nextY : Int) (ifBacktracking : Bool) (s : Engine) :
    Except String Engine :=
  match removeTheWall s.currentX s.currentY nextX nextY ifBacktracking with
  | .error e => .error e
  | .ok _ =>
    let s1 := { s with currentX := nextX, currentY := nextY }
    .ok (updateCurrentCell Y s1.currentX s1.currentY ifBacktracking s1)

/-- The `for (let v of visitedCells)` loop of `backTrack`, run after the pop: the first `v`
whose index equals `TRACKER.peek()` is moved to and the function returns; when the loop runs
out nothing moves. -/
def backTrackLoop (Y : Nat) (s : Engine) : List Neighbor → Except String (Engine × StepResult)
  | [] => .ok (s, StepResult.popped)
  | v :: vs =>
    if s.TRACKER.peek = some ((Y : Int) * v.x + v.y) then
      match moveToNext Y v.x v.y true s with
      | .error e => .error e
      | .ok s1 => .ok (s1, StepResult.backtracked s.currentX s.currentY v.x v.y)
    else backTrackLoop Y s vs

/-- Function `backTrack`. -/
def backTrack (Y : Nat) (visitedCells : List Neighbor) (s : Engine) :
    Except String (Engine × StepResult) :=
  let s1 := updateCurrentCell Y s.currentX s.currentY true s
  let s2 := { s1 with TRACKER := s1.TRACKER.pop }
  backTrackLoop Y s2 visitedCells

/-- Function `stepOut`, with the value `r` of `Math.random()` as an argument. Reading
`nextStep.unvisited[index]` outside the array gives `undefined`, whose field access is a
`TypeError`. The product `r * length` is taken exactly here; `stepOutDouble` rounds it to
the nearest double, as the source does. -/
def stepOut (X Y : Nat) (r : ℚ) (s : Engine) (posX posY : Int) :
    Except String (Engine × StepResult) :=
  let nextStep := findValidNeighbor X Y s.CELLS posX posY
  let ifBacktracking := nextStep.unvisited.length == 0
  if !ifBacktracking then
    let index : Int := Int.floor (r * (nextStep.unvisited.length : ℚ))
    match (if index < 0 then none else nextStep.unvisited[index.toNat]?) with
    | none => .error "TypeError"
    | some n =>
      match moveToNext Y n.x n.y ifBacktracking s with
      | .error e => .error e
      | .ok s1 => .ok (s1, StepResult.carved s.currentX s.currentY n.x n.y)
  else
    if s.TRACKER.size > 0 then backTrack Y nextStep.visited s
    else .ok (s, StepResult.finished)

/-- The timer callback of `drawingCanvas`: `stepOut(currentX, currentY)`. -/
def tick (X Y : Nat) (r : ℚ) (s : Engine) : Except String (Engine × StepResult) :=
  stepOut X Y r s s.currentX s.currentY

/-- The module state before `start`: `CELLS = []`, an empty `TRACKER`, and the current
position at the root. -/
def initial (rootX rootY : Int) : Engine :=
  ⟨CellArray.empty, ⟨[]⟩, rootX, rootY⟩

/-- Function `drawingCanvas`, up to the installation of the timer: the root update. -/
def drawingCanvas (Y : Nat) (s : Engine) : Engine :=
  updateCurrentCell Y s.currentX s.currentY false s

/-- Function `start`: `setupCells` then `drawingCanvas`. -/
def start (X Y : Nat) (rootX rootY : Int) : Engine :=
  let s := initial rootX rootY
  drawingCanvas Y { s with CELLS := setupCells X Y s.CELLS }

/-- The engine after `n` timer callbacks from the state `s0`, with the results of the
callbacks in order; `draws k` is the value of `Math.random()` available to callback number
`k` (counted from `0`). A callback that throws ends the run with that error. -/
def runFrom (X Y : Nat) (s0 : Engine) (draws : Nat → ℚ) :
    Nat → Except String (Engine × List StepResult)
  | 0 => .ok (s0, [])
  | n + 1 =>
    match runFrom X Y s0 draws n with
    | .error e => .error e
    | .ok (s, evs) =>
      match tick X Y (draws n) s with
      | .error e => .error e
      | .ok (s1, ev) => .ok (s1, evs ++ [ev])

/-- The engine after `start` and `n` timer callbacks. -/
def run (X Y : Nat) (rootX rootY : Int) (draws : Nat → ℚ) (n : Nat) :
    Except String (Engine × List StepResult) :=
  runFrom X Y (start X Y rootX rootY) draws n

/-! ## Double arithmetic

The source computes with IEEE 754 doubles. On the integers of a grid that arithmetic is
exact; the product `Math.random() * length` of `stepOut` is rounded. The definitions below
model the rounding, and `stepOutDouble` is `stepOut` with the product rounded. -/

/-- `Number.isSafeInteger`: an integer of absolute value below `2^53`. Doubles hold these
integers exactly, and a sum or product of doubles whose exact value is a safe integer is
computed exactly. -/
def safeInteger (n : Int) : Prop := -(2 : Int) ^ 53 < n ∧ n < (2 : Int) ^ 53

instance (n : Int) : Decidable (safeInteger n) := by
  unfold safeInteger; infer_instance

/-- Rounding of a rational to the nearest integer, a tie going to the even neighbour. -/
def roundNearestEven (m : ℚ) : Int :=
  let f := Int.floor m
  if m - f < 1 / 2 then f
  else if 1 / 2 < m - f then f + 1
  else if f % 2 = 0 then f
  else f + 1

/-- The exponent `e` of the binade `[2^e, 2^(e+1))` of `|q|`, not below `-1022` (the
subnormal doubles share the exponent of the smallest binade). -/
def binadeExp (q : ℚ) : Int := max (Int.log 2 |q|) (-1022)

/-- The double nearest to the rational `q`: a 53-bit significand in the binade of `q`,
rounded to nearest, ties to even (IEEE 754 binary64, without overflow to infinity: the
values rounded here stay below `4`). -/
def roundDouble (q : ℚ) : ℚ :=
  (roundNearestEven (q / (2 : ℚ) ^ (binadeExp q - 52)) : ℚ) * (2 : ℚ) ^ (binadeExp q - 52)

/-- The rational `q` is the value of a double. -/
def isDouble (q : ℚ) : Prop := roundDouble q = q

instance (q : ℚ) : Decidable (isDouble q) := by
  unfold isDouble; infer_instance

/-- Function `stepOut` with the product `Math.random() * nextStep.unvisited.length` computed
in doubles, as the source computes it: `r` is the double returned by `Math.random()`, the
length is a small integer (a double), and their product is rounded to the nearest double
before `Math.floor`. Everything else is as in `stepOut`. -/
def stepOutDouble (X Y : Nat) (r : ℚ) (s : Engine) (posX posY : Int) :
    Except String (Engine × StepResult) :=
  let nextStep := findValidNeighbor X Y s.CELLS posX posY
  let ifBacktracking := nextStep.unvisited.length == 0
  if !ifBacktracking then
    let index : Int := Int.floor (roundDouble (r * (nextStep.unvisited.length : ℚ)))
    match (if index < 0 then none else nextStep.unvisited[index.toNat]?) with
    | none => .error "TypeError"
    | some n =>
      match moveToNext Y n.x n.y ifBacktracking s with
      | .error e => .error e
      | .ok s1 => .ok (s1, StepResult.carved s.currentX s.currentY n.x n.y)
  else
    if s.TRACKER.size > 0 then backTrack Y nextStep.visited s
    else .ok (s, StepResult.finished)

/-- The timer callback with the product computed in doubles:
`stepOut(currentX, currentY)`. -/
def tickDouble (X Y : Nat) (r : ℚ) (s : Engine) : Except String (Engine × StepResult) :=
  stepOutDouble X Y r s s.currentX s.currentY

/-! ## Vocabulary of the statements -/

/-- A cell as a pair of coordinates `(x, y)`. -/
abbrev Cell := Int × Int

/-- The linear index `Y*x + y` of a cell, as computed in `checkValidation`,
`updateCurrentCell` and `backTrack`. -/
def cellIndex (Y : Nat) (p : Cell) : Int := (Y : Int) * p.1 + p.2

/-- The cell lies in `[0,X) x [0,Y)`. -/
def inMaze (X Y : Nat) (p : Cell) : Prop := 0 ≤ p.1 ∧ p.1 < X ∧ 0 ≤ p.2 ∧ p.2 < Y

instance (X Y : Nat) (p : Cell) : Decidable (inMaze X Y p) := by
  unfold inMaze; infer_instance

/-- Two cells differ by exactly one unit in exactly one axis. -/
def adjacent (p q : Cell) : Prop := (p.1 - q.1).natAbs + (p.2 - q.2).natAbs = 1

instance (p q : Cell) : Decidable (adjacent p q) := by
  unfold adjacent; infer_instance

/-- The cell is in the maze and `checkValidation` reads it as `'visited'`. -/
def isVisited (X Y : Nat) (CELLS : CellArray) (p : Cell) : Prop :=
  checkValidation X Y CELLS p.1 p.2 = some Status.visited

/-- The cell is in the maze and `checkValidation` reads it as `'unvisited'`. -/
def isUnvisited (X Y : Nat) (CELLS : CellArray) (p : Cell) : Prop :=
  checkValidation X Y CELLS p.1 p.2 = some Status.unvisited

instance (X Y : Nat) (c : CellArray) (p : Cell) : Decidable (isVisited X Y c p) := by
  unfold isVisited; infer_instance

instance (X Y : Nat) (c : CellArray) (p : Cell) : Decidable (isUnvisited X Y c p) := by
  unfold isUnvisited; infer_instance

/-- The current cell of an engine. -/
def Engine.current (s : Engine) : Cell := (s.currentX, s.currentY)

/-- The edges `(from, to)` of the carve moves of a run, in order. -/
def carves : List StepResult → List (Cell × Cell)
  | [] => []
  | StepResult.carved a b c d :: evs => ((a, b), (c, d)) :: carves evs
  | _ :: evs => carves evs

/-- Every draw lies in `[0,1)`, as `Math.random()` guarantees. -/
def ValidDraws (draws : Nat → ℚ) : Prop := ∀ k, 0 ≤ draws k ∧ draws k < 1

/-- The result is a carve move. -/
def StepResult.isCarve : StepResult → Bool
  | StepResult.carved _ _ _ _ => true
  | _ => false

/-- The result is a backtrack move. -/
def StepResult.isBacktrack : StepResult → Bool
  | StepResult.backtracked _ _ _ _ => true
  | _ => false

/-- The cells in discovery order: the root, then the targets of the carve moves. -/
def discovered (root : Cell) (evs : List StepResult) : List Cell :=
  root :: (carves evs).map Prod.snd

/-- `CELLS` has one string per cell, no hole and no stray property. -/
structure CellsWF (X Y : Nat) (c : CellArray) : Prop where
  len : c.items.length = X * Y
  props : c.props = []
  full : ∀ o ∈ c.items, o ≠ none

/-- What one successful call of `stepOut` on the current cell does to the engine, by branch. -/
def StepRel (X Y : Nat) (s : Engine) (e : StepResult) (s1 : Engine) : Prop :=
  (∃ q : Cell, isUnvisited X Y s.CELLS q ∧ adjacent s.current q ∧
      e = StepResult.carved s.currentX s.currentY q.1 q.2 ∧
      s1 = ⟨s.CELLS.set (cellIndex Y q) Status.visited, s.TRACKER.push (cellIndex Y q), q.1, q.2⟩) ∨
  (∃ q : Cell, isVisited X Y s.CELLS q ∧ adjacent s.current q ∧
      (∀ p, adjacent s.current p → ¬ isUnvisited X Y s.CELLS p) ∧ 1 < s.TRACKER.size ∧
      s.TRACKER.pop.peek = some (cellIndex Y q) ∧
      e = StepResult.backtracked s.currentX s.currentY q.1 q.2 ∧
      s1 = ⟨s.CELLS, s.TRACKER.pop, q.1, q.2⟩) ∨
  ((∀ p, adjacent s.current p → ¬ isUnvisited X Y s.CELLS p) ∧ s.TRACKER.size = 1 ∧
      e = StepResult.popped ∧ s1 = ⟨s.CELLS, ⟨[]⟩, s.currentX, s.currentY⟩) ∨
  ((∀ p, adjacent s.current p → ¬ isUnvisited X Y s.CELLS p) ∧ s.TRACKER.size = 0 ∧
      e = StepResult.finished ∧ s1 = s)

/-- Facts about the engine and the results so far that hold throughout a run: `CELLS` is
well formed, the visited cells are exactly the discovered ones, each discovered once, and
every carve edge leads from a cell discovered earlier to the cell it discovers. -/
structure Common (X Y : Nat) (root : Cell) (s : Engine) (evs : List StepResult) : Prop where
  wf : CellsWF X Y s.CELLS
  root_in : inMaze X Y root
  seen_iff : ∀ p, isVisited X Y s.CELLS p ↔ p ∈ discovered root evs
  seen_nodup : (discovered root evs).Nodup
  rank : ∀ e ∈ carves evs, ∃ l1 l2, discovered root evs = l1 ++ l2 ∧ e.1 ∈ l1 ∧ e.2 ∈ l2
  moves_adj : ∀ a b c d, (StepResult.carved a b c d ∈ evs ∨
    StepResult.backtracked a b c d ∈ evs) → adjacent (a, b) (c, d)

/-- The engine is still walking: `rpath` is the stack read top-to-bottom, as cells. -/
structure Running (X Y : Nat) (root : Cell) (s : Engine) (evs : List StepResult)
    (rpath : List Cell) : Prop where
  stack : s.TRACKER.items = (rpath.map (cellIndex Y)).reverse
  top : rpath.head? = some s.current
  bottom : rpath.getLast? = some root
  chain : rpath.Chain' (fun b a => adjacent a b ∧ (a, b) ∈ carves evs)
  on_path : ∀ p ∈ rpath, isVisited X Y s.CELLS p
  nodup : rpath.Nodup
  closed : ∀ p, isVisited X Y s.CELLS p → p ∉ rpath →
    ∀ q, adjacent p q → ¬ isUnvisited X Y s.CELLS q
  moves : ∀ e ∈ evs, e.isCarve = true ∨ e.isBacktrack = true
  count : evs.countP StepResult.isBacktrack + rpath.length = (carves evs).length + 1

/-- The root entry has been popped: every cell is visited, the stack is empty, the engine is
back at the root, and the results are the moves, one `popped`, then `k` times `finished`. -/
structure Done (X Y : Nat) (root : Cell) (s : Engine) (evs : List StepResult) (k : Nat) :
    Prop where
  stack : s.TRACKER.items = []
  at_root : s.current = root
  all : ∀ p, inMaze X Y p → isVisited X Y s.CELLS p
  shape : ∃ pre, evs = pre ++ StepResult.popped :: List.replicate k StepResult.finished ∧
    (∀ e ∈ pre, e.isCarve = true ∨ e.isBacktrack = true) ∧
    pre.countP StepResult.isBacktrack = (carves pre).length

/-- Position of a cell in a list of cells (counted from `0`). -/
def rankIn : List Cell → Cell → Nat
  | [], _ => 0
  | a :: l, p => if p = a then 0 else rankIn l p + 1

/-- The graph of carved edges: its vertices are the `X*Y` cells of the maze, and two cells
are joined when some carve move of the run went from one to the other. -/
def carvedGraph (X Y : Nat) (evs : List StepResult) : SimpleGraph {p : Cell // inMaze X Y p} :=
  SimpleGraph.fromRel (fun u v => (u.1, v.1) ∈ carves evs)

/-- The moves `(from, to)` of the backtrack moves of a run, in order. -/
def backs : List StepResult → List (Cell × Cell)
  | [] => []
  | StepResult.backtracked a b c d :: evs => ((a, b), (c, d)) :: backs evs
  | _ :: evs => backs evs

/-- The edges along a path of cells listed top first: each cell paired with the cell under
it, as `(lower, upper)`, the direction in which the edge was carved. -/
def pathEdges : List Cell → List (Cell × Cell)
  | b :: a :: rest => (a, b) :: pathEdges (a :: rest)
  | _ => []

/-! ## Arrays and the linear index -/

theorem CellArray.get_set_same (a : CellArray) (i : Int) (v : Status) :
    (a.set i v).get i = some v := by
  unfold CellArray.set CellArray.get
  by_cases h : i < 0
  · simp [h, List.lookup]
  · by_cases h2 : i.toNat < a.items.length
    · simp [h, h2]
    · simp only [h, h2, if_false]
      have h3 : a.items.length ≤ i.toNat := Nat.le_of_not_lt h2
      rw [List.getElem?_append_right (by simp; omega)]
      have h4 : i.toNat - (a.items ++ List.replicate (i.toNat - a.items.length) none).length = 0 := by
        simp; omega
      rw [h4]; rfl

theorem CellArray.get_set_ne (a : CellArray) (i j : Int) (v : Status) (hne : j ≠ i) :
    (a.set i v).get j = a.get j := by
  unfold CellArray.set CellArray.get
  by_cases h : i < 0
  · by_cases hj : j < 0
    · simp [h, hj, List.lookup, hne]
      have : (j == i) = false := by simpa using hne
      simp [this]
    · simp [h, hj]
  · by_cases hj : j < 0
    · by_cases h2 : i.toNat < a.items.length <;> simp [h, hj, h2]
    · have hij : j.toNat ≠ i.toNat := by omega
      by_cases h2 : i.toNat < a.items.length
      · simp only [h, hj, h2, if_true, if_false]
        rw [List.getElem?_set_ne (Ne.symm hij)]
      · simp only [h, hj, h2, if_false]
        have h3 : a.items.length ≤ i.toNat := Nat.le_of_not_lt h2
        by_cases h4 : j.toNat < a.items.length
        · rw [List.append_assoc, List.getElem?_append_left h4]
        · have h5 : a.items.length ≤ j.toNat := Nat.le_of_not_lt h4
          rw [List.getElem?_eq_none (l := a.items) h5]
          by_cases h6 : j.toNat < i.toNat
          · rw [List.getElem?_append_left (by simp; omega),
              List.getElem?_append_right h5]
            rw [List.getElem?_replicate]
            split <;> simp_all
          · rw [List.getElem?_eq_none]
            simp; omega

theorem cellIndex_inj {X Y : Nat} {p q : Cell} (hp : inMaze X Y p) (hq : inMaze X Y q)
    (h : cellIndex Y p = cellIndex Y q) : p = q := by
  obtain ⟨p1, p2⟩ := p
  obtain ⟨q1, q2⟩ := q
  simp only [inMaze, cellIndex] at hp hq h
  have hx : p1 = q1 := by
    rcases lt_trichotomy p1 q1 with hlt | heq | hgt
    · exfalso
      have h1 : (Y : Int) * (p1 + 1) ≤ (Y : Int) * q1 :=
        Int.mul_le_mul_of_nonneg_left (by omega) (by omega)
      rw [Int.mul_add] at h1
      omega
    · exact heq
    · exfalso
      have h1 : (Y : Int) * (q1 + 1) ≤ (Y : Int) * p1 :=
        Int.mul_le_mul_of_nonneg_left (by omega) (by omega)
      rw [Int.mul_add] at h1
      omega
  subst hx
  have hy : p2 = q2 := by omega
  rw [hy]

theorem cellIndex_nonneg {X Y : Nat} {p : Cell} (hp : inMaze X Y p) : 0 ≤ cellIndex Y p := by
  obtain ⟨p1, p2⟩ := p
  simp only [inMaze, cellIndex] at hp ⊢
  have : 0 ≤ (Y : Int) * p1 := Int.mul_nonneg (by omega) hp.1
  omega

theorem cellIndex_lt {X Y : Nat} {p : Cell} (hp : inMaze X Y p) :
    cellIndex Y p < (X : Int) * (Y : Int) := by
  obtain ⟨p1, p2⟩ := p
  simp only [inMaze, cellIndex] at hp ⊢
  have h1 : (Y : Int) * (p1 + 1) ≤ (Y : Int) * X :=
    Int.mul_le_mul_of_nonneg_left (by omega) (by omega)
  rw [Int.mul_add, Int.mul_comm (Y : Int) (X : Int)] at h1
  omega

theorem checkValidation_eq_none_iff (X Y : Nat) (c : CellArray) (x y : Int) :
    checkValidation X Y c x y = none ↔ ¬ inMaze X Y (x, y) := by
  unfold checkValidation inMaze
  by_cases h : 0 ≤ x ∧ x < X ∧ 0 ≤ y ∧ y < Y
  · obtain ⟨h1, h2, h3, h4⟩ := h
    simp [h1, h2, h3, h4]
    split <;> simp
  · have h' := h
    simp only [not_and_or] at h'
    simp only [h, not_false_eq_true, iff_true]
    rcases h' with h1 | h1 | h1 | h1 <;> simp [h1]

theorem checkValidation_of_inMaze {X Y : Nat} (c : CellArray) {x y : Int}
    (h : inMaze X Y (x, y)) :
    checkValidation X Y c x y =
      if c.get (cellIndex Y (x, y)) = some Status.unvisited then some Status.unvisited
      else some Status.visited := by
  unfold checkValidation
  obtain ⟨h1, h2, h3, h4⟩ := h
  simp [h1, h2, h3, h4, cellIndex]

theorem inMaze_of_checkValidation_eq_some {X Y : Nat} {c : CellArray} {x y : Int} {v : Status}
    (h : checkValidation X Y c x y = some v) : inMaze X Y (x, y) := by
  by_contra hn
  rw [← checkValidation_eq_none_iff X Y c] at hn
  rw [hn] at h
  exact Option.noConfusion h

theorem isVisited_inMaze {X Y : Nat} {c : CellArray} {p : Cell} (h : isVisited X Y c p) :
    inMaze X Y p := inMaze_of_checkValidation_eq_some h

theorem isUnvisited_inMaze {X Y : Nat} {c : CellArray} {p : Cell} (h : isUnvisited X Y c p) :
    inMaze X Y p := inMaze_of_checkValidation_eq_some h

theorem isVisited_or_isUnvisited {X Y : Nat} (c : CellArray) {p : Cell} (h : inMaze X Y p) :
    isVisited X Y c p ∨ isUnvisited X Y c p := by
  unfold isVisited isUnvisited
  rw [checkValidation_of_inMaze c h]
  split <;> simp

theorem not_isVisited_of_isUnvisited {X Y : Nat} {c : CellArray} {p : Cell}
    (h : isUnvisited X Y c p) : ¬ isVisited X Y c p := by
  unfold isVisited isUnvisited at *
  rw [h]; simp

/-- Marking the in-maze cell `q` leaves `checkValidation` unchanged elsewhere. -/
theorem checkValidation_set_ne {X Y : Nat} (c : CellArray) {q : Cell} (hq : inMaze X Y q)
    (p : Cell) (hne : p ≠ q) :
    checkValidation X Y (c.set (cellIndex Y q) Status.visited) p.1 p.2 =
      checkValidation X Y c p.1 p.2 := by
  by_cases hp : inMaze X Y p
  · rw [checkValidation_of_inMaze _ hp, checkValidation_of_inMaze _ hp]
    rw [CellArray.get_set_ne]
    intro h
    exact hne (cellIndex_inj hp hq h)
  · have h1 := (checkValidation_eq_none_iff X Y c p.1 p.2).2 hp
    have h2 := (checkValidation_eq_none_iff X Y
      (c.set (cellIndex Y q) Status.visited) p.1 p.2).2 hp
    rw [h1, h2]

theorem checkValidation_set_same {X Y : Nat} (c : CellArray) {q : Cell} (hq : inMaze X Y q) :
    checkValidation X Y (c.set (cellIndex Y q) Status.visited) q.1 q.2 = some Status.visited := by
  rw [checkValidation_of_inMaze _ hq, CellArray.get_set_same]
  simp

theorem isVisited_set_iff {X Y : Nat} (c : CellArray) {q : Cell} (hq : inMaze X Y q) (p : Cell) :
    isVisited X Y (c.set (cellIndex Y q) Status.visited) p ↔ p = q ∨ isVisited X Y c p := by
  unfold isVisited
  by_cases h : p = q
  · subst h
    simp [checkValidation_set_same c hq]
  · rw [checkValidation_set_ne c hq p h]
    simp [h]

theorem isUnvisited_set_iff {X Y : Nat} (c : CellArray) {q : Cell} (hq : inMaze X Y q) (p : Cell) :
    isUnvisited X Y (c.set (cellIndex Y q) Status.visited) p ↔ p ≠ q ∧ isUnvisited X Y c p := by
  unfold isUnvisited
  by_cases h : p = q
  · subst h
    simp [checkValidation_set_same c hq]
  · rw [checkValidation_set_ne c hq p h]
    simp [h]

/-! ## Neighbour classification -/

/-- The loop body of `findValidNeighbor`. -/
theorem findValidNeighbor_foldl (l : List Neighbor) (acc : NextStep) :
    l.foldl
      (fun next n =>
        if n.value = some Status.visited then { next with visited := next.visited ++ [n] }
        else if n.value = some Status.unvisited then
          { next with unvisited := next.unvisited ++ [n] }
        else next) acc =
      ⟨acc.visited ++ l.filter (fun n => decide (n.value = some Status.visited)),
       acc.unvisited ++ l.filter (fun n => decide (n.value = some Status.unvisited))⟩ := by
  induction l generalizing acc with
  | nil => simp
  | cons n l ih =>
    rw [List.foldl_cons, ih]
    by_cases h1 : n.value = some Status.visited
    · simp [h1, List.filter_cons]
    · by_cases h2 : n.value = some Status.unvisited
      · simp [h2, List.filter_cons]
      · simp [h1, h2, List.filter_cons]

theorem findValidNeighbor_visited (X Y : Nat) (c : CellArray) (x y : Int) :
    (findValidNeighbor X Y c x y).visited =
      (neighborType X Y c x y).filter (fun n => decide (n.value = some Status.visited)) := by
  unfold findValidNeighbor
  simp only [findValidNeighbor_foldl, List.nil_append]

theorem findValidNeighbor_unvisited (X Y : Nat) (c : CellArray) (x y : Int) :
    (findValidNeighbor X Y c x y).unvisited =
      (neighborType X Y c x y).filter (fun n => decide (n.value = some Status.unvisited)) := by
  unfold findValidNeighbor
  simp only [findValidNeighbor_foldl, List.nil_append]

/-- The four neighbours of a cell, in the order left, right, up, down. -/
theorem mem_neighborType {X Y : Nat} {c : CellArray} {x y : Int} {n : Neighbor} :
    n ∈ neighborType X Y c x y ↔
      n.value = checkValidation X Y c n.x n.y ∧
      ((n.x = x - 1 ∧ n.y = y) ∨ (n.x = x + 1 ∧ n.y = y) ∨
       (n.x = x ∧ n.y = y - 1) ∨ (n.x = x ∧ n.y = y + 1)) := by
  obtain ⟨nx, ny, nv⟩ := n
  simp only [neighborType, List.mem_cons, Neighbor.mk.injEq, List.mem_singleton, List.mem_nil_iff,
    or_false]
  constructor
  · rintro (⟨rfl, rfl, rfl⟩ | ⟨rfl, rfl, rfl⟩ | ⟨rfl, rfl, rfl⟩ | ⟨rfl, rfl, rfl⟩) <;> simp
  · rintro ⟨rfl, (⟨rfl, rfl⟩ | ⟨rfl, rfl⟩ | ⟨rfl, rfl⟩ | ⟨rfl, rfl⟩)⟩ <;> simp

theorem adjacent_iff (p q : Cell) :
    adjacent p q ↔ ((q.1 = p.1 - 1 ∧ q.2 = p.2) ∨ (q.1 = p.1 + 1 ∧ q.2 = p.2) ∨
       (q.1 = p.1 ∧ q.2 = p.2 - 1) ∨ (q.1 = p.1 ∧ q.2 = p.2 + 1)) := by
  unfold adjacent
  omega

theorem adjacent_symm {p q : Cell} (h : adjacent p q) : adjacent q p := by
  unfold adjacent at *
  omega

theorem adjacent_ne {p q : Cell} (h : adjacent p q) : p ≠ q := by
  intro e
  subst e
  simp [adjacent] at h

theorem mem_unvisited_iff {X Y : Nat} {c : CellArray} {x y : Int} {n : Neighbor} :
    n ∈ (findValidNeighbor X Y c x y).unvisited ↔
      n.value = some Status.unvisited ∧ isUnvisited X Y c (n.x, n.y) ∧
        adjacent (x, y) (n.x, n.y) := by
  rw [findValidNeighbor_unvisited, List.mem_filter, mem_neighborType, adjacent_iff]
  simp only [decide_eq_true_eq, isUnvisited]
  constructor
  · rintro ⟨⟨h1, h2⟩, h3⟩
    exact ⟨h3, by rw [← h1, h3], h2⟩
  · rintro ⟨h1, h2, h3⟩
    exact ⟨⟨by rw [h1, h2], h3⟩, h1⟩

theorem mem_visited_iff {X Y : Nat} {c : CellArray} {x y : Int} {n : Neighbor} :
    n ∈ (findValidNeighbor X Y c x y).visited ↔
      n.value = some Status.visited ∧ isVisited X Y c (n.x, n.y) ∧
        adjacent (x, y) (n.x, n.y) := by
  rw [findValidNeighbor_visited, List.mem_filter, mem_neighborType, adjacent_iff]
  simp only [decide_eq_true_eq, isVisited]
  constructor
  · rintro ⟨⟨h1, h2⟩, h3⟩
    exact ⟨h3, by rw [← h1, h3], h2⟩
  · rintro ⟨h1, h2, h3⟩
    exact ⟨⟨by rw [h1, h2], h3⟩, h1⟩

/-- The unvisited list is empty exactly when no adjacent cell is unvisited. -/
theorem unvisited_eq_nil_iff {X Y : Nat} {c : CellArray} {x y : Int} :
    (findValidNeighbor X Y c x y).unvisited = [] ↔
      ∀ q : Cell, adjacent (x, y) q → ¬ isUnvisited X Y c q := by
  constructor
  · intro h q hadj hq
    have : (⟨q.1, q.2, some Status.unvisited⟩ : Neighbor) ∈
        (findValidNeighbor X Y c x y).unvisited := mem_unvisited_iff.2 ⟨rfl, hq, hadj⟩
    rw [h] at this
    exact List.not_mem_nil _ this
  · intro h
    apply List.eq_nil_iff_forall_not_mem.2
    intro n hn
    have := mem_unvisited_iff.1 hn
    exact h (n.x, n.y) this.2.2 this.2.1

/-! ## The branches of `stepOut` -/

/-- The selected index `floor(r * n)` is a valid position of a list of length `n > 0`. -/
theorem floor_draw_lt {r : ℚ} (hr : 0 ≤ r ∧ r < 1) {n : Nat} (hn : 0 < n) :
    0 ≤ Int.floor (r * (n : ℚ)) ∧ (Int.floor (r * (n : ℚ))).toNat < n := by
  have hn' : (0 : ℚ) < (n : ℚ) := by exact_mod_cast hn
  have h0 : 0 ≤ Int.floor (r * (n : ℚ)) := Int.floor_nonneg.2 (mul_nonneg hr.1 hn'.le)
  have h1 : Int.floor (r * (n : ℚ)) < (n : Int) := by
    rw [Int.floor_lt]
    have : r * (n : ℚ) < 1 * (n : ℚ) := mul_lt_mul_of_pos_right hr.2 hn'
    simpa using this
  exact ⟨h0, by omega⟩

theorem findTheWall_ok_of_adjacent {a b c d : Int} (h : adjacent (a, b) (c, d)) :
    ∃ w, findTheWall a b c d = .ok w := by
  unfold findTheWall
  by_cases h1 : a = c
  · simp [h1]
  · have h2 : b = d := by
      simp only [adjacent] at h
      omega
    simp [h1, h2]

theorem moveToNext_of_adjacent (Y : Nat) (s : Engine) (q : Cell) (b : Bool)
    (h : adjacent s.current q) :
    moveToNext Y q.1 q.2 b s =
      .ok (updateCurrentCell Y q.1 q.2 b { s with currentX := q.1, currentY := q.2 }) := by
  obtain ⟨w, hw⟩ := findTheWall_ok_of_adjacent (a := s.currentX) (b := s.currentY)
    (c := q.1) (d := q.2) h
  simp [moveToNext, removeTheWall, hw]

/-- The carve branch: with a draw in `[0,1)` and a non-empty unvisited list, `stepOut` moves to
the selected record, marks it and pushes its index. -/
theorem tick_carve {X Y : Nat} {r : ℚ} (hr : 0 ≤ r ∧ r < 1) (s : Engine)
    (hU : (findValidNeighbor X Y s.CELLS s.currentX s.currentY).unvisited ≠ []) :
    ∃ n : Neighbor,
      (findValidNeighbor X Y s.CELLS s.currentX s.currentY).unvisited[
        (Int.floor (r * (((findValidNeighbor X Y s.CELLS s.currentX s.currentY).unvisited.length
          : Nat) : ℚ))).toNat]? = some n ∧
      n ∈ (findValidNeighbor X Y s.CELLS s.currentX s.currentY).unvisited ∧
      tick X Y r s = .ok
        (⟨s.CELLS.set (cellIndex Y (n.x, n.y)) Status.visited,
          s.TRACKER.push (cellIndex Y (n.x, n.y)), n.x, n.y⟩,
         StepResult.carved s.currentX s.currentY n.x n.y) := by
  set U := (findValidNeighbor X Y s.CELLS s.currentX s.currentY).unvisited with hUdef
  have hlen : 0 < U.length := List.length_pos.2 hU
  obtain ⟨h0, h1⟩ := floor_draw_lt hr hlen
  have hget : U[(Int.floor (r * ((U.length : Nat) : ℚ))).toNat]? =
      some (U[(Int.floor (r * ((U.length : Nat) : ℚ))).toNat]) := List.getElem?_eq_getElem h1
  refine ⟨U[(Int.floor (r * ((U.length : Nat) : ℚ))).toNat], hget, List.getElem_mem _, ?_⟩
  have hmem : U[(Int.floor (r * ((U.length : Nat) : ℚ))).toNat] ∈ U := List.getElem_mem _
  have hadj := (mem_unvisited_iff.1 hmem).2.2
  have hmv := moveToNext_of_adjacent Y s
    ((U[(Int.floor (r * ((U.length : Nat) : ℚ))).toNat]).x,
     (U[(Int.floor (r * ((U.length : Nat) : ℚ))).toNat]).y) false hadj
  have hne : ¬ (U.length = 0) := by omega
  have hneg : ¬ (Int.floor (r * ((U.length : Nat) : ℚ)) < 0) := by omega
  simp only [tick, stepOut, ← hUdef]
  have hb : (U.length == 0) = false := by simpa using hne
  simp only [hb, Bool.not_false, if_true, hneg, if_false, hget]
  rw [hmv]
  simp [updateCurrentCell, cellIndex]

theorem backTrackLoop_of_peek_none (Y : Nat) (s : Engine) (h : s.TRACKER.peek = none)
    (l : List Neighbor) : backTrackLoop Y s l = .ok (s, StepResult.popped) := by
  induction l with
  | nil => rfl
  | cons v vs ih => simp [backTrackLoop, h, ih]

theorem backTrackLoop_found {X Y : Nat} (s : Engine) (q : Cell) (hq : inMaze X Y q)
    (hpeek : s.TRACKER.peek = some (cellIndex Y q)) (hadj : adjacent s.current q)
    (l : List Neighbor) (hl : ∀ v ∈ l, inMaze X Y (v.x, v.y))
    (hex : ∃ v ∈ l, (v.x, v.y) = q) :
    backTrackLoop Y s l =
      .ok (⟨s.CELLS, s.TRACKER, q.1, q.2⟩,
        StepResult.backtracked s.currentX s.currentY q.1 q.2) := by
  induction l with
  | nil => simp at hex
  | cons v vs ih =>
    by_cases hv : cellIndex Y q = cellIndex Y (v.x, v.y)
    · have hvq : q = (v.x, v.y) := cellIndex_inj hq (hl v (List.mem_cons_self _ _)) hv
      have hmv := moveToNext_of_adjacent Y s q true hadj
      subst hvq
      simp only [backTrackLoop, hpeek, cellIndex, if_true]
      simp only at hmv
      rw [hmv]
      simp [updateCurrentCell]
    · have hex' : ∃ v ∈ vs, (v.x, v.y) = q := by
        obtain ⟨w, hw, hwq⟩ := hex
        rcases List.mem_cons.1 hw with rfl | hw'
        · exact absurd (by rw [hwq]) hv
        · exact ⟨w, hw', hwq⟩
      have hv' : ¬ (some (cellIndex Y q) = some ((Y : Int) * v.x + v.y)) := by
        intro h
        exact hv (by simpa [cellIndex] using h)
      simp only [backTrackLoop, hpeek, hv', if_false]
      exact ih (fun w hw => hl w (List.mem_cons_of_mem _ hw)) hex'

/-- The backtrack branch when the entry under the top is the index of a visited adjacent
cell `q`: one entry is popped and the engine moves to `q`. -/
theorem tick_backtrack {X Y : Nat} (r : ℚ) (s : Engine) (q : Cell)
    (hU : (findValidNeighbor X Y s.CELLS s.currentX s.currentY).unvisited = [])
    (hsize : 0 < s.TRACKER.size)
    (hpeek : s.TRACKER.pop.peek = some (cellIndex Y q))
    (hq : isVisited X Y s.CELLS q) (hadj : adjacent s.current q) :
    tick X Y r s = .ok (⟨s.CELLS, s.TRACKER.pop, q.1, q.2⟩,
      StepResult.backtracked s.currentX s.currentY q.1 q.2) := by
  simp only [tick, stepOut, hU, List.length_nil, beq_self_eq_true, Bool.not_true, hsize,
    if_true, backTrack, updateCurrentCell]
  simp only [Bool.false_eq_true, if_false]
  have := backTrackLoop_found (X := X) (Y := Y)
    ({ s with TRACKER := s.TRACKER.pop }) q (isVisited_inMaze hq) hpeek hadj
    (findValidNeighbor X Y s.CELLS s.currentX s.currentY).visited
    (fun v hv => isVisited_inMaze (mem_visited_iff.1 hv).2.1)
    ⟨⟨q.1, q.2, some Status.visited⟩, mem_visited_iff.2 ⟨rfl, hq, hadj⟩, rfl⟩
  exact this

/-- The backtrack branch on a stack of exactly one entry: the entry is popped, nothing
moves and finish is not reported. -/
theorem tick_pop_last {X Y : Nat} (r : ℚ) (s : Engine)
    (hU : (findValidNeighbor X Y s.CELLS s.currentX s.currentY).unvisited = [])
    (hsize : s.TRACKER.size = 1) :
    tick X Y r s = .ok (⟨s.CELLS, ⟨[]⟩, s.currentX, s.currentY⟩, StepResult.popped) := by
  have hpos : 0 < s.TRACKER.size := by omega
  have hpop : s.TRACKER.pop = ⟨[]⟩ := by
    unfold Stack.pop
    unfold Stack.size at hsize
    congr
    match h : s.TRACKER.items, hsize with
    | [a], _ => rfl
  simp only [tick, stepOut, hU, List.length_nil, beq_self_eq_true, Bool.not_true, hpos,
    if_true, backTrack, updateCurrentCell]
  simp only [Bool.false_eq_true, if_false, hpop]
  exact backTrackLoop_of_peek_none Y ⟨s.CELLS, ⟨[]⟩, s.currentX, s.currentY⟩ rfl _

/-- The finish branch: no unvisited neighbour and an empty stack. -/
theorem tick_finish {X Y : Nat} (r : ℚ) (s : Engine)
    (hU : (findValidNeighbor X Y s.CELLS s.currentX s.currentY).unvisited = [])
    (hsize : s.TRACKER.size = 0) :
    tick X Y r s = .ok (s, StepResult.finished) := by
  simp [tick, stepOut, hU, hsize]

/-! ## The state after `start` -/

theorem foldl_push_eq (l : List Nat) (c : CellArray) (v : Status) :
    l.foldl (fun c _ => c.push v) c = ⟨c.items ++ List.replicate l.length (some v), c.props⟩ := by
  induction l generalizing c with
  | nil => simp
  | cons a l ih =>
    rw [List.foldl_cons, ih]
    simp [CellArray.push, List.replicate_succ]

theorem setupCells_eq (X Y : Nat) (c : CellArray) :
    setupCells X Y c = ⟨c.items ++ List.replicate (X * Y) (some Status.unvisited), c.props⟩ := by
  unfold setupCells
  have key : ∀ (l : List Nat) (c : CellArray),
      l.foldl (fun c _ => (List.range Y).foldl (fun c _ => c.push Status.unvisited) c) c =
        ⟨c.items ++ List.replicate (l.length * Y) (some Status.unvisited), c.props⟩ := by
    intro l
    induction l with
    | nil => intro c; simp
    | cons a l ih =>
      intro c
      rw [List.foldl_cons, ih, foldl_push_eq]
      simp only [List.length_range, List.length_cons, List.append_assoc, CellArray.mk.injEq,
        List.append_cancel_left_eq, and_true]
      rw [← List.replicate_add]
      congr 1
      rw [Nat.succ_mul]
      omega
  rw [key]
  simp

/-- The array right after `setupCells` on the empty array. -/
theorem setupCells_empty (X Y : Nat) :
    setupCells X Y CellArray.empty = ⟨List.replicate (X * Y) (some Status.unvisited), []⟩ := by
  rw [setupCells_eq]
  simp [CellArray.empty]

theorem isUnvisited_replicate {X Y : Nat} {p : Cell} (hp : inMaze X Y p) :
    isUnvisited X Y ⟨List.replicate (X * Y) (some Status.unvisited), []⟩ p := by
  unfold isUnvisited
  rw [checkValidation_of_inMaze _ hp]
  have h0 := cellIndex_nonneg hp
  have h1 := cellIndex_lt hp
  have h2 : (cellIndex Y p).toNat < X * Y := by
    have : ((X * Y : Nat) : Int) = (X : Int) * (Y : Int) := by push_cast; rfl
    omega
  have h3 : ¬ cellIndex Y p < 0 := by omega
  simp [CellArray.get, h3, List.getElem?_replicate, h2]

theorem CellsWF_set {X Y : Nat} {c : CellArray} (h : CellsWF X Y c) {p : Cell}
    (hp : inMaze X Y p) (v : Status) : CellsWF X Y (c.set (cellIndex Y p) v) := by
  have h0 := cellIndex_nonneg hp
  have h1 := cellIndex_lt hp
  have h2 : (cellIndex Y p).toNat < c.items.length := by
    rw [h.len]
    have : ((X * Y : Nat) : Int) = (X : Int) * (Y : Int) := by push_cast; rfl
    omega
  have h3 : ¬ cellIndex Y p < 0 := by omega
  unfold CellArray.set
  simp only [h3, h2, if_true, if_false]
  refine ⟨by simpa using h.len, h.props, ?_⟩
  intro o ho
  rcases List.mem_or_eq_of_mem_set ho with h4 | h4
  · exact h.full o h4
  · rw [h4]; simp

theorem start_eq (X Y : Nat) (rootX rootY : Int) :
    start X Y rootX rootY =
      ⟨(⟨List.replicate (X * Y) (some Status.unvisited), []⟩ : CellArray).set
          (cellIndex Y (rootX, rootY)) Status.visited,
        ⟨[cellIndex Y (rootX, rootY)]⟩, rootX, rootY⟩ := by
  simp [start, drawingCanvas, initial, updateCurrentCell, setupCells_empty, Stack.push, cellIndex]

theorem CellsWF_replicate (X Y : Nat) :
    CellsWF X Y ⟨List.replicate (X * Y) (some Status.unvisited), []⟩ := by
  refine ⟨by simp, rfl, ?_⟩
  intro o ho
  rw [List.eq_of_mem_replicate ho]
  simp

theorem isVisited_start_iff {X Y : Nat} {root : Cell} (hroot : inMaze X Y root) (p : Cell) :
    isVisited X Y (start X Y root.1 root.2).CELLS p ↔ p = root := by
  rw [start_eq]
  simp only
  rw [isVisited_set_iff _ hroot]
  constructor
  · rintro (h | h)
    · exact h
    · exfalso
      exact not_isVisited_of_isUnvisited (isUnvisited_replicate (isVisited_inMaze h)) h
  · intro h; exact Or.inl h

theorem carves_append (l1 l2 : List StepResult) : carves (l1 ++ l2) = carves l1 ++ carves l2 := by
  induction l1 with
  | nil => rfl
  | cons e l ih => cases e <;> simp [carves, ih]

theorem mem_carves_iff {evs : List StepResult} {e : Cell × Cell} :
    e ∈ carves evs ↔ StepResult.carved e.1.1 e.1.2 e.2.1 e.2.2 ∈ evs := by
  obtain ⟨⟨a, b⟩, ⟨c, d⟩⟩ := e
  induction evs with
  | nil => simp [carves]
  | cons x l ih =>
    cases x <;> simp [carves, ih, and_assoc]

theorem carves_length (evs : List StepResult) :
    (carves evs).length = evs.countP StepResult.isCarve := by
  induction evs with
  | nil => rfl
  | cons x l ih => cases x <;> simp [carves, ih, StepResult.isCarve, List.countP_cons]

theorem start_common {X Y : Nat} {root : Cell} (hroot : inMaze X Y root) :
    Common X Y root (start X Y root.1 root.2) [] := by
  refine ⟨?_, hroot, ?_, ?_, ?_, ?_⟩
  · rw [start_eq]
    exact CellsWF_set (CellsWF_replicate X Y) hroot _
  · intro p
    rw [isVisited_start_iff hroot]
    simp [discovered, carves]
  · simp [discovered, carves]
  · simp [carves]
  · simp

theorem start_running {X Y : Nat} {root : Cell} (hroot : inMaze X Y root) :
    Running X Y root (start X Y root.1 root.2) [] [root] := by
  refine ⟨?_, ?_, rfl, ?_, ?_, ?_, ?_, ?_, ?_⟩
  · rw [start_eq]; simp
  · rw [start_eq]; simp [Engine.current]
  · simp
  · intro p hp
    rw [isVisited_start_iff hroot]
    simpa using hp
  · simp
  · intro p hp hnp
    rw [isVisited_start_iff hroot] at hp
    simp [hp] at hnp
  · simp
  · simp [carves]

/-! ## The invariant of a run -/

/-- The grid is connected: a set of cells that contains an in-maze cell and is closed under
stepping to adjacent in-maze cells contains every in-maze cell. -/
theorem grid_connected {X Y : Nat} {root : Cell} (hroot : inMaze X Y root) (S : Cell → Prop)
    (h0 : S root) (hstep : ∀ p q, S p → adjacent p q → inMaze X Y q → S q) :
    ∀ p, inMaze X Y p → S p := by
  have key : ∀ n : Nat, ∀ p : Cell, inMaze X Y p →
      (p.1 - root.1).natAbs + (p.2 - root.2).natAbs = n → S p := by
    intro n
    induction n with
    | zero =>
      intro p _ hd
      have : p = root := by
        obtain ⟨p1, p2⟩ := p
        obtain ⟨r1, r2⟩ := root
        simp only at hd
        have h1 : p1 = r1 := by omega
        have h2 : p2 = r2 := by omega
        rw [h1, h2]
      rw [this]; exact h0
    | succ n ih =>
      intro p hp hd
      obtain ⟨p1, p2⟩ := p
      obtain ⟨r1, r2⟩ := root
      simp only [inMaze] at hp hroot hd
      by_cases hx : p1 = r1
      · by_cases hlt : p2 < r2
        · exact hstep (p1, p2 + 1) (p1, p2)
            (ih (p1, p2 + 1) (by simp only [inMaze]; omega) (by simp only; omega))
            (by simp only [adjacent]; omega) (by simp only [inMaze]; omega)
        · exact hstep (p1, p2 - 1) (p1, p2)
            (ih (p1, p2 - 1) (by simp only [inMaze]; omega) (by simp only; omega))
            (by simp only [adjacent]; omega) (by simp only [inMaze]; omega)
      · by_cases hlt : p1 < r1
        · exact hstep (p1 + 1, p2) (p1, p2)
            (ih (p1 + 1, p2) (by simp only [inMaze]; omega) (by simp only; omega))
            (by simp only [adjacent]; omega) (by simp only [inMaze]; omega)
        · exact hstep (p1 - 1, p2) (p1, p2)
            (ih (p1 - 1, p2) (by simp only [inMaze]; omega) (by simp only; omega))
            (by simp only [adjacent]; omega) (by simp only [inMaze]; omega)
  intro p hp
  exact key _ p hp rfl

theorem discovered_append_carved (root : Cell) (evs : List StepResult) (a b c d : Int) :
    discovered root (evs ++ [StepResult.carved a b c d]) = discovered root evs ++ [(c, d)] := by
  simp [discovered, carves_append, carves]

theorem carves_append_not_carve (evs : List StepResult) {e : StepResult}
    (h : e.isCarve = false) : carves (evs ++ [e]) = carves evs := by
  rw [carves_append]
  cases e <;> simp_all [carves, StepResult.isCarve]

theorem discovered_append_not_carve (root : Cell) (evs : List StepResult) {e : StepResult}
    (h : e.isCarve = false) : discovered root (evs ++ [e]) = discovered root evs := by
  simp [discovered, carves_append_not_carve evs h]

/-- A result that is not a carve changes neither `CELLS` nor the discovery order, so the
facts of `Common` carry over. -/
theorem common_of_not_carve {X Y : Nat} {root : Cell} {s s1 : Engine} {evs : List StepResult}
    (hc : Common X Y root s evs) {e : StepResult} (he : e.isCarve = false)
    (hcells : s1.CELLS = s.CELLS)
    (hadj : ∀ a b c d, e = StepResult.backtracked a b c d → adjacent (a, b) (c, d)) :
    Common X Y root s1 (evs ++ [e]) := by
  refine ⟨by rw [hcells]; exact hc.wf, hc.root_in, ?_, ?_, ?_, ?_⟩
  · intro p
    rw [hcells, discovered_append_not_carve root evs he]
    exact hc.seen_iff p
  · rw [discovered_append_not_carve root evs he]
    exact hc.seen_nodup
  · rw [discovered_append_not_carve root evs he, carves_append_not_carve evs he]
    exact hc.rank
  · intro a b c d h
    rcases h with h | h
    · rcases List.mem_append.1 h with h | h
      · exact hc.moves_adj a b c d (Or.inl h)
      · rw [List.mem_singleton] at h
        rw [← h] at he
        simp [StepResult.isCarve] at he
    · rcases List.mem_append.1 h with h | h
      · exact hc.moves_adj a b c d (Or.inr h)
      · rw [List.mem_singleton] at h
        exact hadj a b c d h.symm

/-- The carve branch preserves `Common`. -/
theorem common_carve {X Y : Nat} {root : Cell} {s : Engine} {evs : List StepResult}
    (hc : Common X Y root s evs) {q : Cell} (hq : isUnvisited X Y s.CELLS q)
    (hcur : isVisited X Y s.CELLS s.current) (hadj : adjacent s.current q) :
    Common X Y root
      ⟨s.CELLS.set (cellIndex Y q) Status.visited, s.TRACKER.push (cellIndex Y q), q.1, q.2⟩
      (evs ++ [StepResult.carved s.currentX s.currentY q.1 q.2]) := by
  have hqin := isUnvisited_inMaze hq
  have hqD : q ∉ discovered root evs := fun h =>
    not_isVisited_of_isUnvisited hq ((hc.seen_iff q).2 h)
  have hcurD : s.current ∈ discovered root evs := (hc.seen_iff _).1 hcur
  refine ⟨CellsWF_set hc.wf hqin _, hc.root_in, ?_, ?_, ?_, ?_⟩
  · intro p
    rw [discovered_append_carved]
    simp only
    rw [isVisited_set_iff _ hqin, hc.seen_iff p, List.mem_append, List.mem_singleton]
    exact or_comm
  · rw [discovered_append_carved]
    refine List.Nodup.append hc.seen_nodup (List.nodup_singleton _) ?_
    refine List.disjoint_right.2 ?_
    intro a ha
    rw [List.mem_singleton] at ha
    subst ha
    exact hqD
  · intro e he
    rw [discovered_append_carved]
    rw [carves_append] at he
    rcases List.mem_append.1 he with he | he
    · obtain ⟨l1, l2, hD, h1, h2⟩ := hc.rank e he
      exact ⟨l1, l2 ++ [(q.1, q.2)], by rw [hD, List.append_assoc], h1,
        List.mem_append_left _ h2⟩
    · simp only [carves, List.mem_singleton] at he
      subst he
      exact ⟨discovered root evs, [(q.1, q.2)], rfl, hcurD, List.mem_singleton_self _⟩
  · intro a b c d h
    rcases h with h | h
    · rcases List.mem_append.1 h with h | h
      · exact hc.moves_adj a b c d (Or.inl h)
      · simp only [List.mem_singleton, StepResult.carved.injEq] at h
        obtain ⟨rfl, rfl, rfl, rfl⟩ := h
        exact hadj
    · rcases List.mem_append.1 h with h | h
      · exact hc.moves_adj a b c d (Or.inr h)
      · simp at h

/-- The carve branch preserves `Running`, with the new cell on top of the path. -/
theorem running_carve {X Y : Nat} {root : Cell} {s : Engine} {evs : List StepResult}
    {rpath : List Cell} (hrun : Running X Y root s evs rpath) {q : Cell}
    (hq : isUnvisited X Y s.CELLS q) (hadj : adjacent s.current q) :
    Running X Y root
      ⟨s.CELLS.set (cellIndex Y q) Status.visited, s.TRACKER.push (cellIndex Y q), q.1, q.2⟩
      (evs ++ [StepResult.carved s.currentX s.currentY q.1 q.2]) (q :: rpath) := by
  have hqin := isUnvisited_inMaze hq
  have hqp : q ∉ rpath := fun h => not_isVisited_of_isUnvisited hq (hrun.on_path q h)
  obtain ⟨cur, rest, hrp⟩ : ∃ cur rest, rpath = cur :: rest := by
    cases hr : rpath with
    | nil => have := hrun.top; rw [hr] at this; simp at this
    | cons a l => exact ⟨a, l, rfl⟩
  have hcur : cur = s.current := by
    have := hrun.top
    rw [hrp] at this
    simpa using this
  refine ⟨?_, rfl, ?_, ?_, ?_, ?_, ?_, ?_, ?_⟩
  · simp [Stack.push, hrun.stack]
  · rw [hrp, List.getLast?_cons_cons, ← hrp]
    exact hrun.bottom
  · rw [hrp, List.chain'_cons]
    refine ⟨⟨by rw [hcur]; exact hadj, ?_⟩, ?_⟩
    · rw [carves_append, hcur]
      simp [carves, Engine.current]
    · rw [← hrp]
      refine hrun.chain.imp ?_
      intro a b hab
      exact ⟨hab.1, by rw [carves_append]; exact List.mem_append_left _ hab.2⟩
  · intro p hp
    simp only
    rw [isVisited_set_iff _ hqin]
    rcases List.mem_cons.1 hp with h | h
    · exact Or.inl h
    · exact Or.inr (hrun.on_path p h)
  · exact List.nodup_cons.2 ⟨hqp, hrun.nodup⟩
  · intro p hp hnp w hw
    simp only at hp ⊢
    rw [isVisited_set_iff _ hqin] at hp
    rw [isUnvisited_set_iff _ hqin]
    rw [List.mem_cons, not_or] at hnp
    rcases hp with hp | hp
    · exact absurd hp hnp.1
    · intro h
      exact hrun.closed p hp hnp.2 w hw h.2
  · intro e he
    rcases List.mem_append.1 he with he | he
    · exact hrun.moves e he
    · rw [List.mem_singleton] at he
      subst he
      exact Or.inl rfl
  · rw [carves_append, List.countP_append]
    have := hrun.count
    simp [carves, StepResult.isBacktrack, List.countP_cons]
    omega

/-- The backtrack branch preserves `Running`, with the top cell removed from the path. -/
theorem running_backtrack {X Y : Nat} {root : Cell} {s : Engine} {evs : List StepResult}
    {cur prev : Cell} {rest : List Cell} (hrun : Running X Y root s evs (cur :: prev :: rest))
    (hU : ∀ p, adjacent s.current p → ¬ isUnvisited X Y s.CELLS p) :
    Running X Y root ⟨s.CELLS, s.TRACKER.pop, prev.1, prev.2⟩
      (evs ++ [StepResult.backtracked s.currentX s.currentY prev.1 prev.2]) (prev :: rest) := by
  have hcur : cur = s.current := by
    have := hrun.top
    simpa using this
  have hnd := List.nodup_cons.1 hrun.nodup
  have hnc : carves (evs ++ [StepResult.backtracked s.currentX s.currentY prev.1 prev.2]) =
      carves evs := carves_append_not_carve evs rfl
  refine ⟨?_, rfl, ?_, ?_, ?_, hnd.2, ?_, ?_, ?_⟩
  · simp [Stack.pop, hrun.stack]
  · have := hrun.bottom
    rw [List.getLast?_cons_cons] at this
    exact this
  · rw [hnc]
    exact (List.chain'_cons.1 hrun.chain).2
  · intro p hp
    exact hrun.on_path p (List.mem_cons_of_mem _ hp)
  · intro p hp hnp w hw
    simp only at hp ⊢
    by_cases hpc : p = cur
    · subst hpc
      rw [hcur] at hw
      exact hU w hw
    · exact hrun.closed p hp (by
        rw [List.mem_cons, not_or]
        exact ⟨hpc, hnp⟩) w hw
  · intro e he
    rcases List.mem_append.1 he with he | he
    · exact hrun.moves e he
    · rw [List.mem_singleton] at he
      subst he
      exact Or.inr rfl
  · rw [hnc, List.countP_append]
    have := hrun.count
    simp [StepResult.isBacktrack, List.countP_cons] at this ⊢
    omega

theorem run_succ (X Y : Nat) (rootX rootY : Int) (draws : Nat → ℚ) (n : Nat) :
    run X Y rootX rootY draws (n + 1) =
      match run X Y rootX rootY draws n with
      | .error e => .error e
      | .ok (s, evs) =>
        match tick X Y (draws n) s with
        | .error e => .error e
        | .ok (s1, ev) => .ok (s1, evs ++ [ev]) := rfl

/-- One timer callback from a walking engine: it succeeds, does what `StepRel` says, and
leaves the engine walking or done. -/
theorem running_step {X Y : Nat} {root : Cell} {s : Engine} {evs : List StepResult}
    {rpath : List Cell} {r : ℚ} (hr : 0 ≤ r ∧ r < 1)
    (hc : Common X Y root s evs) (hrun : Running X Y root s evs rpath) :
    ∃ s1 e, tick X Y r s = .ok (s1, e) ∧ StepRel X Y s e s1 ∧
      Common X Y root s1 (evs ++ [e]) ∧
      ((∃ rpath1, Running X Y root s1 (evs ++ [e]) rpath1) ∨
        Done X Y root s1 (evs ++ [e]) 0) := by
  obtain ⟨cur, rest, hrp⟩ : ∃ cur rest, rpath = cur :: rest := by
    cases hr : rpath with
    | nil => have := hrun.top; rw [hr] at this; simp at this
    | cons a l => exact ⟨a, l, rfl⟩
  have hcur : cur = s.current := by
    have := hrun.top
    rw [hrp] at this
    simpa using this
  have hcurv : isVisited X Y s.CELLS s.current := by
    rw [← hcur]
    exact hrun.on_path cur (by rw [hrp]; exact List.mem_cons_self _ _)
  by_cases hU : (findValidNeighbor X Y s.CELLS s.currentX s.currentY).unvisited = []
  · have hU' : ∀ p, adjacent s.current p → ¬ isUnvisited X Y s.CELLS p :=
      unvisited_eq_nil_iff.1 hU
    cases hrest : rest with
    | nil =>
      rw [hrest] at hrp
      have hroot : s.current = root := by
        have := hrun.bottom
        rw [hrp] at this
        simp only [List.getLast?_singleton, Option.some.injEq] at this
        rw [← hcur, this]
      have hsize : s.TRACKER.size = 1 := by
        simp [Stack.size, hrun.stack, hrp]
      refine ⟨_, _, tick_pop_last r s hU hsize, Or.inr (Or.inr (Or.inl ⟨hU', hsize, rfl, rfl⟩)),
        common_of_not_carve hc rfl rfl (by intro a b c d h; cases h), Or.inr ?_⟩
      refine ⟨rfl, hroot, ?_, ⟨evs, rfl, hrun.moves, ?_⟩⟩
      · apply grid_connected hc.root_in (fun p => isVisited X Y s.CELLS p)
        · rw [← hroot]; exact hcurv
        · intro p q hp hadj hq
          rcases isVisited_or_isUnvisited s.CELLS hq with h | h
          · exact h
          · exfalso
            by_cases hpc : p = s.current
            · rw [hpc] at hadj
              exact hU' q hadj h
            · exact hrun.closed p hp (by
                rw [hrp, List.mem_singleton, hcur]; exact hpc) q hadj h
      · have := hrun.count
        rw [hrp] at this
        simpa using this
    | cons prev rest1 =>
      rw [hrest] at hrp
      rw [hrp] at hrun
      have hch := (List.chain'_cons.1 hrun.chain).1
      have hadj : adjacent s.current prev := by
        rw [← hcur]; exact adjacent_symm hch.1
      have hprev : isVisited X Y s.CELLS prev :=
        hrun.on_path prev (List.mem_cons_of_mem _ (List.mem_cons_self _ _))
      have hsize : 1 < s.TRACKER.size := by
        simp [Stack.size, hrun.stack]
      have hpeek : s.TRACKER.pop.peek = some (cellIndex Y prev) := by
        simp [Stack.pop, Stack.peek, hrun.stack]
      refine ⟨_, _, tick_backtrack r s prev hU (by omega) hpeek hprev hadj,
        Or.inr (Or.inl ⟨prev, hprev, hadj, hU', hsize, hpeek, rfl, rfl⟩),
        common_of_not_carve hc rfl rfl ?_, Or.inl ⟨_, running_backtrack hrun hU'⟩⟩
      intro a b c d h
      simp only [StepResult.backtracked.injEq] at h
      obtain ⟨rfl, rfl, rfl, rfl⟩ := h
      exact hadj
  · obtain ⟨n, _, hn, htick⟩ := tick_carve (X := X) (Y := Y) hr s hU
    obtain ⟨_, hq, hadj⟩ := mem_unvisited_iff.1 hn
    exact ⟨_, _, htick, Or.inl ⟨(n.x, n.y), hq, hadj, rfl, rfl⟩,
      common_carve hc hq hcurv hadj, Or.inl ⟨_, running_carve hrun hq hadj⟩⟩

/-- One timer callback from a done engine reports finish and changes nothing. -/
theorem done_step {X Y : Nat} {root : Cell} {s : Engine} {evs : List StepResult} {k : Nat}
    (r : ℚ) (hc : Common X Y root s evs) (hd : Done X Y root s evs k) :
    tick X Y r s = .ok (s, StepResult.finished) ∧ StepRel X Y s StepResult.finished s ∧
      Common X Y root s (evs ++ [StepResult.finished]) ∧
      Done X Y root s (evs ++ [StepResult.finished]) (k + 1) := by
  have hU' : ∀ p, adjacent s.current p → ¬ isUnvisited X Y s.CELLS p := by
    intro p _ hp
    exact not_isVisited_of_isUnvisited hp (hd.all p (isUnvisited_inMaze hp))
  have hU : (findValidNeighbor X Y s.CELLS s.currentX s.currentY).unvisited = [] :=
    unvisited_eq_nil_iff.2 hU'
  have hsize : s.TRACKER.size = 0 := by simp [Stack.size, hd.stack]
  refine ⟨tick_finish r s hU hsize, Or.inr (Or.inr (Or.inr ⟨hU', hsize, rfl, rfl⟩)),
    common_of_not_carve hc rfl rfl (by intro a b c d h; cases h), ⟨hd.stack, hd.at_root, hd.all, ?_⟩⟩
  obtain ⟨pre, hpre, h1, h2⟩ := hd.shape
  refine ⟨pre, ?_, h1, h2⟩
  rw [hpre, List.replicate_succ', List.append_assoc, List.cons_append]

/-- The phase of the engine: walking along some path, or done. -/
theorem run_invariant {X Y : Nat} {root : Cell} (hroot : inMaze X Y root) {draws : Nat → ℚ}
    (hd : ValidDraws draws) (n : Nat) :
    ∃ s evs, run X Y root.1 root.2 draws n = .ok (s, evs) ∧ evs.length = n ∧
      Common X Y root s evs ∧
      ((∃ rpath, Running X Y root s evs rpath) ∨ ∃ k, Done X Y root s evs k) := by
  induction n with
  | zero =>
    exact ⟨_, _, rfl, rfl, start_common hroot, Or.inl ⟨_, start_running hroot⟩⟩
  | succ n ih =>
    obtain ⟨s, evs, hrun, hlen, hc, hph⟩ := ih
    rcases hph with ⟨rpath, hr⟩ | ⟨k, hk⟩
    · obtain ⟨s1, e, ht, _, hc1, hph1⟩ := running_step (hd n) hc hr
      refine ⟨s1, evs ++ [e], by simp [run_succ, hrun, ht], by simp [hlen], hc1, ?_⟩
      rcases hph1 with h | h
      · exact Or.inl h
      · exact Or.inr ⟨0, h⟩
    · obtain ⟨ht, _, hc1, hk1⟩ := done_step (draws n) hc hk
      exact ⟨s, evs ++ [StepResult.finished], by simp [run_succ, hrun, ht], by simp [hlen], hc1,
        Or.inr ⟨k + 1, hk1⟩⟩

/-- Every callback of a run succeeds and is described by `StepRel`. -/
theorem run_step {X Y : Nat} {root : Cell} (hroot : inMaze X Y root) {draws : Nat → ℚ}
    (hd : ValidDraws draws) (n : Nat) :
    ∃ s evs s1 e, run X Y root.1 root.2 draws n = .ok (s, evs) ∧
      tick X Y (draws n) s = .ok (s1, e) ∧
      run X Y root.1 root.2 draws (n + 1) = .ok (s1, evs ++ [e]) ∧
      StepRel X Y s e s1 ∧ Common X Y root s evs ∧
      ((∃ rpath, Running X Y root s evs rpath) ∨ ∃ k, Done X Y root s evs k) := by
  obtain ⟨s, evs, hrun, _, hc, hph⟩ := run_invariant hroot hd n
  rcases hph with ⟨rpath, hr⟩ | ⟨k, hk⟩
  · obtain ⟨s1, e, ht, hrel, _, _⟩ := running_step (hd n) hc hr
    exact ⟨s, evs, s1, e, hrun, ht, by simp [run_succ, hrun, ht], hrel, hc, Or.inl ⟨rpath, hr⟩⟩
  · obtain ⟨ht, hrel, _, _⟩ := done_step (draws n) hc hk
    exact ⟨s, evs, s, _, hrun, ht, by simp [run_succ, hrun, ht], hrel, hc, Or.inr ⟨k, hk⟩⟩

/-! ## Finish and the length of a run -/

theorem backTrackLoop_ne_finished (Y : Nat) (s s1 : Engine) (l : List Neighbor) :
    backTrackLoop Y s l ≠ .ok (s1, StepResult.finished) := by
  induction l with
  | nil => simp [backTrackLoop]
  | cons v vs ih =>
    unfold backTrackLoop
    split
    · split <;> simp
    · exact ih

/-- The finish branch is the only way for `stepOut` to report finish, and it changes
nothing. -/
theorem tick_eq_finished_iff {X Y : Nat} {r : ℚ} {s s1 : Engine} :
    tick X Y r s = .ok (s1, StepResult.finished) ↔
      (findValidNeighbor X Y s.CELLS s.currentX s.currentY).unvisited = [] ∧
        s.TRACKER.size = 0 ∧ s1 = s := by
  constructor
  · intro h
    by_cases hU : (findValidNeighbor X Y s.CELLS s.currentX s.currentY).unvisited = []
    · by_cases hs : s.TRACKER.size = 0
      · rw [tick_finish r s hU hs] at h
        simp only [Except.ok.injEq, Prod.mk.injEq, and_true] at h
        exact ⟨hU, hs, h.symm⟩
      · exfalso
        have hpos : s.TRACKER.size > 0 := Nat.pos_of_ne_zero hs
        simp only [tick, stepOut, hU, List.length_nil, beq_self_eq_true, Bool.not_true, hpos,
          if_true, backTrack] at h
        simp only [Bool.false_eq_true, if_false] at h
        exact backTrackLoop_ne_finished _ _ _ _ h
    · exfalso
      have hb : ((findValidNeighbor X Y s.CELLS s.currentX s.currentY).unvisited.length == 0)
          = false := by
        simpa using hU
      simp only [tick, stepOut, hb, Bool.not_false, if_true] at h
      split at h
      · simp at h
      · split at h <;> simp at h
  · rintro ⟨hU, hs, rfl⟩
    exact tick_finish r s1 hU hs

theorem runFrom_succ (X Y : Nat) (s0 : Engine) (draws : Nat → ℚ) (n : Nat) :
    runFrom X Y s0 draws (n + 1) =
      match runFrom X Y s0 draws n with
      | .error e => .error e
      | .ok (s, evs) =>
        match tick X Y (draws n) s with
        | .error e => .error e
        | .ok (s1, ev) => .ok (s1, evs ++ [ev]) := rfl

/-- The cells of the maze as a finite set. -/
theorem card_maze (X Y : Nat) :
    ((Finset.Ico (0 : Int) X) ×ˢ (Finset.Ico (0 : Int) Y)).card = X * Y := by
  simp [Finset.card_product]

theorem mem_maze_iff (X Y : Nat) (p : Cell) :
    p ∈ (Finset.Ico (0 : Int) X) ×ˢ (Finset.Ico (0 : Int) Y) ↔ inMaze X Y p := by
  simp [inMaze, Finset.mem_product, and_assoc]

theorem length_le_of_nodup_inMaze {X Y : Nat} {l : List Cell} (hnd : l.Nodup)
    (hin : ∀ p ∈ l, inMaze X Y p) : l.length ≤ X * Y := by
  rw [← List.toFinset_card_of_nodup hnd, ← card_maze X Y]
  apply Finset.card_le_card
  intro p hp
  rw [mem_maze_iff]
  exact hin p (List.mem_toFinset.1 hp)

theorem length_eq_of_nodup_all {X Y : Nat} {l : List Cell} (hnd : l.Nodup)
    (hin : ∀ p, p ∈ l ↔ inMaze X Y p) : l.length = X * Y := by
  rw [← List.toFinset_card_of_nodup hnd, ← card_maze X Y]
  congr 1
  ext p
  rw [mem_maze_iff, List.mem_toFinset]
  exact hin p

/-- When every result is a carve or a backtrack, the two counts add up to the length. -/
theorem length_eq_of_moves {evs : List StepResult}
    (h : ∀ e ∈ evs, e.isCarve = true ∨ e.isBacktrack = true) :
    evs.length = (carves evs).length + evs.countP StepResult.isBacktrack := by
  induction evs with
  | nil => rfl
  | cons e l ih =>
    have ih' := ih (fun x hx => h x (List.mem_cons_of_mem _ hx))
    have he := h e (List.mem_cons_self _ _)
    cases e <;> simp_all [carves, StepResult.isCarve, StepResult.isBacktrack, List.countP_cons]
    all_goals omega

theorem not_finished_mem_of_moves {evs : List StepResult}
    (h : ∀ e ∈ evs, e.isCarve = true ∨ e.isBacktrack = true) :
    StepResult.finished ∉ evs ∧ StepResult.popped ∉ evs := by
  constructor <;> intro hm <;> have := h _ hm <;> simp [StepResult.isCarve, StepResult.isBacktrack] at this

theorem common_discovered_inMaze {X Y : Nat} {root : Cell} {s : Engine}
    {evs : List StepResult} (hc : Common X Y root s evs) :
    ∀ p ∈ discovered root evs, inMaze X Y p :=
  fun p hp => isVisited_inMaze ((hc.seen_iff p).2 hp)

theorem discovered_length (root : Cell) (evs : List StepResult) :
    (discovered root evs).length = (carves evs).length + 1 := by
  simp [discovered]

/-- While the engine walks, at most `2*X*Y - 2` callbacks have run. -/
theorem running_length_le {X Y : Nat} {root : Cell} {s : Engine} {evs : List StepResult}
    {rpath : List Cell} (hc : Common X Y root s evs) (hrun : Running X Y root s evs rpath) :
    evs.length + 2 ≤ 2 * (X * Y) := by
  have h1 := length_eq_of_moves hrun.moves
  have h2 := hrun.count
  have h3 := length_le_of_nodup_inMaze hc.seen_nodup (common_discovered_inMaze hc)
  rw [discovered_length] at h3
  have h4 : 0 < rpath.length := by
    cases hr : rpath with
    | nil => have := hrun.top; rw [hr] at this; simp at this
    | cons a l => simp
  omega

theorem carves_replicate_finished (k : Nat) :
    carves (List.replicate k StepResult.finished) = [] := by
  induction k with
  | zero => rfl
  | succ k ih => simp [List.replicate_succ, carves, ih]

/-- Once the engine is done, all `X*Y` cells are discovered: `X*Y - 1` carve moves. -/
theorem done_carves_length {X Y : Nat} {root : Cell} {s : Engine} {evs : List StepResult}
    {k : Nat} (hc : Common X Y root s evs) (hd : Done X Y root s evs k) :
    (carves evs).length + 1 = X * Y := by
  rw [← discovered_length root evs]
  apply length_eq_of_nodup_all hc.seen_nodup
  intro p
  rw [← hc.seen_iff p]
  exact ⟨isVisited_inMaze, hd.all p⟩

/-- Once the engine is done, `2*X*Y - 1 + k` callbacks have run. -/
theorem done_length_eq {X Y : Nat} {root : Cell} {s : Engine} {evs : List StepResult}
    {k : Nat} (hc : Common X Y root s evs) (hd : Done X Y root s evs k) :
    evs.length + 1 = 2 * (X * Y) + k := by
  have h0 := done_carves_length hc hd
  obtain ⟨pre, hpre, hmoves, hcount⟩ := hd.shape
  have h1 := length_eq_of_moves hmoves
  have h2 : carves evs = carves pre := by
    rw [hpre, carves_append]
    simp [carves, carves_replicate_finished]
  rw [h2] at h0
  rw [hpre]
  simp only [List.length_append, List.length_cons, List.length_replicate]
  omega

/-- The phase of a run as a function of the number of callbacks. -/
theorem run_phase {X Y : Nat} {root : Cell} (hroot : inMaze X Y root) {draws : Nat → ℚ}
    (hd : ValidDraws draws) (n : Nat) :
    ∃ s evs, run X Y root.1 root.2 draws n = .ok (s, evs) ∧ evs.length = n ∧
      Common X Y root s evs ∧
      ((n + 2 ≤ 2 * (X * Y) ∧ ∃ rpath, Running X Y root s evs rpath) ∨
       (2 * (X * Y) ≤ n + 1 ∧ Done X Y root s evs (n + 1 - 2 * (X * Y)))) := by
  obtain ⟨s, evs, hrun, hlen, hc, hph⟩ := run_invariant hroot hd n
  refine ⟨s, evs, hrun, hlen, hc, ?_⟩
  rcases hph with ⟨rpath, hr⟩ | ⟨k, hk⟩
  · have := running_length_le hc hr
    exact Or.inl ⟨by omega, rpath, hr⟩
  · have := done_length_eq hc hk
    have hk' : n + 1 - 2 * (X * Y) = k := by omega
    exact Or.inr ⟨by omega, by rw [hk']; exact hk⟩

theorem done_finished_mem_iff {X Y : Nat} {root : Cell} {s : Engine} {evs : List StepResult}
    {k : Nat} (hd : Done X Y root s evs k) : StepResult.finished ∈ evs ↔ 0 < k := by
  obtain ⟨pre, hpre, hmoves, _⟩ := hd.shape
  have hn := (not_finished_mem_of_moves hmoves).1
  rw [hpre]
  constructor
  · intro h
    rcases List.mem_append.1 h with h | h
    · exact absurd h hn
    · rcases List.mem_cons.1 h with h | h
      · cases h
      · by_contra hk
        have : k = 0 := by omega
        subst this
        simp at h
  · intro hk
    apply List.mem_append_right
    apply List.mem_cons_of_mem
    exact List.mem_replicate.2 ⟨by omega, rfl⟩

theorem run_succ_of {X Y : Nat} {rootX rootY : Int} {draws : Nat → ℚ} {n : Nat}
    {s s1 : Engine} {evs : List StepResult} {e : StepResult}
    (h : run X Y rootX rootY draws n = .ok (s, evs))
    (ht : tick X Y (draws n) s = .ok (s1, e)) :
    run X Y rootX rootY draws (n + 1) = .ok (s1, evs ++ [e]) := by
  simp [run_succ, h, ht]

theorem isUnvisited_iff {X Y : Nat} {c : CellArray} {p : Cell} :
    isUnvisited X Y c p ↔ inMaze X Y p ∧ c.get (cellIndex Y p) = some Status.unvisited := by
  constructor
  · intro h
    have hp := isUnvisited_inMaze h
    refine ⟨hp, ?_⟩
    unfold isUnvisited at h
    rw [checkValidation_of_inMaze c hp] at h
    by_contra hn
    simp [hn] at h
  · rintro ⟨hp, h⟩
    unfold isUnvisited
    rw [checkValidation_of_inMaze c hp]
    simp [h]

/-- In a well-formed array a cell read as visited holds the string `'visited'`. -/
theorem get_of_isVisited {X Y : Nat} {c : CellArray} (hwf : CellsWF X Y c) {p : Cell}
    (h : isVisited X Y c p) : c.get (cellIndex Y p) = some Status.visited := by
  have hp := isVisited_inMaze h
  unfold isVisited at h
  rw [checkValidation_of_inMaze c hp] at h
  have h0 := cellIndex_nonneg hp
  have h1 := cellIndex_lt hp
  have h2 : (cellIndex Y p).toNat < c.items.length := by
    rw [hwf.len]
    have : ((X * Y : Nat) : Int) = (X : Int) * (Y : Int) := by push_cast; rfl
    omega
  have h3 : ¬ cellIndex Y p < 0 := by omega
  have hget : c.get (cellIndex Y p) = c.items[(cellIndex Y p).toNat] := by
    simp [CellArray.get, h3, List.getElem?_eq_getElem h2]
  have hne : c.items[(cellIndex Y p).toNat] ≠ none := hwf.full _ (List.getElem_mem _)
  rw [hget] at h ⊢
  cases hv : c.items[(cellIndex Y p).toNat] with
  | none => exact absurd hv hne
  | some v =>
    cases v with
    | unvisited => rw [hv] at h; simp at h
    | visited => rfl

/-- Every position of `CELLS` is the index of a cell of the maze. -/
theorem exists_cell_of_index {X Y : Nat} {i : Nat} (hi : i < X * Y) :
    ∃ p : Cell, inMaze X Y p ∧ cellIndex Y p = (i : Int) := by
  have hY : 0 < Y := by
    rcases Nat.eq_zero_or_pos Y with h | h
    · subst h; simp at hi
    · exact h
  refine ⟨(((i / Y : Nat) : Int), ((i % Y : Nat) : Int)), ?_, ?_⟩
  · have h1 : i / Y < X := Nat.div_lt_of_lt_mul (by rw [Nat.mul_comm]; exact hi)
    have h2 : i % Y < Y := Nat.mod_lt _ hY
    have h1' : ((i / Y : Nat) : Int) < (X : Int) := by exact_mod_cast h1
    have h2' : ((i % Y : Nat) : Int) < (Y : Int) := by exact_mod_cast h2
    exact ⟨Int.ofNat_nonneg _, h1', Int.ofNat_nonneg _, h2'⟩
  · simp only [cellIndex]
    have := Nat.div_add_mod i Y
    exact_mod_cast this

theorem items_eq_replicate_of_all {X Y : Nat} {c : CellArray} (hwf : CellsWF X Y c)
    (hall : ∀ p, inMaze X Y p → isVisited X Y c p) :
    c.items = List.replicate (X * Y) (some Status.visited) := by
  rw [List.eq_replicate_iff]
  refine ⟨hwf.len, ?_⟩
  intro b hb
  obtain ⟨i, hi, rfl⟩ := List.getElem_of_mem hb
  obtain ⟨p, hp, hpi⟩ := exists_cell_of_index (X := X) (Y := Y) (by rw [← hwf.len]; exact hi)
  have := get_of_isVisited hwf (hall p hp)
  rw [hpi] at this
  simpa [CellArray.get, List.getElem?_eq_getElem hi] using this

/-! ## The graph of carved edges -/

/-- A walk between two different vertices has a last edge. -/
theorem walk_last_edge {V : Type} {G : SimpleGraph V} {u m : V} (p : G.Walk u m)
    (hne : u ≠ m) : ∃ w, G.Adj w m ∧ w ∈ p.support ∧ s(w, m) ∈ p.edges := by
  induction p with
  | nil => exact absurd rfl hne
  | @cons a x b h p ih =>
    by_cases hx : x = b
    · subst hx
      exact ⟨a, h, by simp, by simp⟩
    · obtain ⟨w, hw1, hw2, hw3⟩ := ih hx
      exact ⟨w, hw1, by simp [hw2], by simp [hw3]⟩

/-- A graph with a rank on its vertices in which adjacent vertices have different ranks and
every vertex has at most one neighbour of smaller rank has no cycle. -/
theorem isAcyclic_of_rank {V : Type} (G : SimpleGraph V) (rank : V → Nat)
    (h1 : ∀ u v, G.Adj u v → rank u ≠ rank v)
    (h2 : ∀ v u w, G.Adj v u → G.Adj v w → rank u < rank v → rank w < rank v → u = w) :
    G.IsAcyclic := by
  classical
  intro v c hc
  have hne : c.support.toFinset.Nonempty := ⟨v, by simp⟩
  obtain ⟨m, hm, hmax⟩ := Finset.exists_max_image c.support.toFinset rank hne
  rw [List.mem_toFinset] at hm
  have hmax' : ∀ x ∈ (c.rotate hm).support, rank x ≤ rank m := by
    intro x hx
    apply hmax x
    rw [List.mem_toFinset]
    rw [SimpleGraph.Walk.rotate, SimpleGraph.Walk.mem_support_append_iff] at hx
    rcases hx with hx | hx
    · exact SimpleGraph.Walk.support_dropUntil_subset _ _ hx
    · exact SimpleGraph.Walk.support_takeUntil_subset _ _ hx
  have hc' := hc.rotate hm
  generalize c.rotate hm = c' at hmax' hc'
  cases c' with
  | nil => exact hc'.not_of_nil
  | @cons _ u _ h p =>
    rw [SimpleGraph.Walk.cons_isCycle_iff] at hc'
    obtain ⟨w, hw1, hw2, hw3⟩ := walk_last_edge p (G.ne_of_adj h).symm
    have hu : rank u < rank m := by
      have := hmax' u (by simp)
      have := h1 m u h
      omega
    have hw : rank w < rank m := by
      have := hmax' w (by simp [hw2])
      have := h1 w m hw1
      omega
    have huw : u = w := h2 m u w h hw1.symm hu hw
    apply hc'.2
    have h3 : s(m, u) = s(w, m) := by rw [huw, Sym2.eq_swap]
    rw [h3]
    exact hw3

theorem rankIn_lt_of_split {D l1 l2 : List Cell} (hnd : D.Nodup) (hD : D = l1 ++ l2)
    {a b : Cell} (ha : a ∈ l1) (hb : b ∈ l2) : rankIn D a < rankIn D b := by
  induction l1 generalizing D with
  | nil => simp at ha
  | cons x l ih =>
    subst hD
    rw [List.cons_append, List.nodup_cons] at hnd
    have hbx : b ≠ x := by
      intro h
      subst h
      exact hnd.1 (List.mem_append_right _ hb)
    rw [List.cons_append]
    simp only [rankIn, hbx, if_false]
    by_cases hax : a = x
    · simp [hax]
    · simp only [hax, if_false]
      have ha' : a ∈ l := by
        rcases List.mem_cons.1 ha with h | h
        · exact absurd h hax
        · exact h
      have := ih hnd.2 rfl ha'
      omega

theorem common_rank_lt {X Y : Nat} {root : Cell} {s : Engine} {evs : List StepResult}
    (hc : Common X Y root s evs) {e : Cell × Cell} (he : e ∈ carves evs) :
    rankIn (discovered root evs) e.1 < rankIn (discovered root evs) e.2 := by
  obtain ⟨l1, l2, hD, h1, h2⟩ := hc.rank e he
  exact rankIn_lt_of_split hc.seen_nodup hD h1 h2

theorem common_carve_mem {X Y : Nat} {root : Cell} {s : Engine} {evs : List StepResult}
    (hc : Common X Y root s evs) {e : Cell × Cell} (he : e ∈ carves evs) :
    e.1 ∈ discovered root evs ∧ e.2 ∈ discovered root evs := by
  obtain ⟨l1, l2, hD, h1, h2⟩ := hc.rank e he
  rw [hD]
  exact ⟨List.mem_append_left _ h1, List.mem_append_right _ h2⟩

/-- Two carve moves into the same cell are the same move. -/
theorem common_carve_target_inj {X Y : Nat} {root : Cell} {s : Engine}
    {evs : List StepResult} (hc : Common X Y root s evs) {e1 e2 : Cell × Cell}
    (h1 : e1 ∈ carves evs) (h2 : e2 ∈ carves evs) (h : e1.2 = e2.2) : e1 = e2 := by
  have hnd : ((carves evs).map Prod.snd).Nodup := (List.nodup_cons.1 hc.seen_nodup).2
  exact List.inj_on_of_nodup_map hnd h1 h2 h

theorem carvedGraph_adj_iff {X Y : Nat} {evs : List StepResult}
    {u v : {p : Cell // inMaze X Y p}} :
    (carvedGraph X Y evs).Adj u v ↔
      u ≠ v ∧ ((u.1, v.1) ∈ carves evs ∨ (v.1, u.1) ∈ carves evs) := by
  simp [carvedGraph, SimpleGraph.fromRel_adj]

/-- The carved edges never close a cycle. -/
theorem carvedGraph_isAcyclic {X Y : Nat} {root : Cell} {s : Engine} {evs : List StepResult}
    (hc : Common X Y root s evs) : (carvedGraph X Y evs).IsAcyclic := by
  apply isAcyclic_of_rank _ (fun v => rankIn (discovered root evs) v.1)
  · intro u v h
    rw [carvedGraph_adj_iff] at h
    rcases h.2 with h | h
    · have := common_rank_lt hc h
      simp only at this ⊢
      omega
    · have := common_rank_lt hc h
      simp only at this ⊢
      omega
  · intro v u w hu hw hru hrw
    rw [carvedGraph_adj_iff] at hu hw
    have hu' : (u.1, v.1) ∈ carves evs := by
      rcases hu.2 with h | h
      · have := common_rank_lt hc h
        simp only at this hru
        omega
      · exact h
    have hw' : (w.1, v.1) ∈ carves evs := by
      rcases hw.2 with h | h
      · have := common_rank_lt hc h
        simp only at this hrw
        omega
      · exact h
    have := common_carve_target_inj hc hu' hw' rfl
    simp only [Prod.mk.injEq, and_true] at this
    exact Subtype.ext this

/-- Every discovered cell is joined to the root by carved edges. -/
theorem carvedGraph_reachable {X Y : Nat} {root : Cell} {s : Engine} {evs : List StepResult}
    (hc : Common X Y root s evs) (v : {p : Cell // inMaze X Y p})
    (hv : v.1 ∈ discovered root evs) :
    (carvedGraph X Y evs).Reachable ⟨root, hc.root_in⟩ v := by
  have key : ∀ n : Nat, ∀ v : {p : Cell // inMaze X Y p}, v.1 ∈ discovered root evs →
      rankIn (discovered root evs) v.1 = n →
      (carvedGraph X Y evs).Reachable ⟨root, hc.root_in⟩ v := by
    intro n
    induction n using Nat.strong_induction_on with
    | _ n ih =>
      intro v hv hn
      by_cases hroot : v.1 = root
      · have : v = ⟨root, hc.root_in⟩ := Subtype.ext hroot
        rw [this]
      · have hv' : v.1 ∈ (carves evs).map Prod.snd := by
          rcases List.mem_cons.1 hv with h | h
          · exact absurd h hroot
          · exact h
        obtain ⟨e, he, hev⟩ := List.mem_map.1 hv'
        have hlt := common_rank_lt hc he
        have hmem := (common_carve_mem hc he).1
        have hin : inMaze X Y e.1 := common_discovered_inMaze hc e.1 hmem
        rw [hev, hn] at hlt
        have hr := ih _ hlt ⟨e.1, hin⟩ hmem rfl
        refine hr.trans (SimpleGraph.Adj.reachable ?_)
        rw [carvedGraph_adj_iff]
        refine ⟨?_, Or.inl ?_⟩
        · intro h
          have h' : e.1 = v.1 := congrArg Subtype.val h
          rw [h'] at hlt
          omega
        · simp only
          rw [← hev]
          exact he
  exact key _ v hv rfl

/-- The maze has `X*Y` cells. -/
theorem card_cells (X Y : Nat) : Nat.card {p : Cell // inMaze X Y p} = X * Y := by
  haveI : Fintype {p : Cell // inMaze X Y p} :=
    Fintype.subtype ((Finset.Ico (0 : Int) X) ×ˢ (Finset.Ico (0 : Int) Y)) (mem_maze_iff X Y)
  rw [Nat.card_eq_fintype_card, Fintype.card_of_subtype _ (mem_maze_iff X Y), card_maze]

/-- Once the engine is done the carved edges form a spanning tree of the maze. -/
theorem carvedGraph_isTree {X Y : Nat} {root : Cell} {s : Engine} {evs : List StepResult}
    {k : Nat} (hc : Common X Y root s evs) (hd : Done X Y root s evs k) :
    (carvedGraph X Y evs).IsTree := by
  have hr : ∀ v : {p : Cell // inMaze X Y p},
      (carvedGraph X Y evs).Reachable ⟨root, hc.root_in⟩ v :=
    fun v => carvedGraph_reachable hc v ((hc.seen_iff v.1).1 (hd.all v.1 v.2))
  haveI : Nonempty {p : Cell // inMaze X Y p} := ⟨⟨root, hc.root_in⟩⟩
  exact ⟨⟨fun u v => (hr u).symm.trans (hr v)⟩, carvedGraph_isAcyclic hc⟩

/-- A tree on the cells of the maze has `X*Y - 1` edges. -/
theorem ncard_edgeSet_of_isTree {X Y : Nat} {G : SimpleGraph {p : Cell // inMaze X Y p}}
    (hG : G.IsTree) : G.edgeSet.ncard = X * Y - 1 := by
  classical
  haveI : Fintype {p : Cell // inMaze X Y p} :=
    Fintype.subtype ((Finset.Ico (0 : Int) X) ×ˢ (Finset.Ico (0 : Int) Y)) (mem_maze_iff X Y)
  haveI : Fintype G.edgeSet := Fintype.ofFinite _
  have h1 := hG.card_edgeFinset
  have h2 : Fintype.card {p : Cell // inMaze X Y p} = X * Y := by
    rw [Fintype.card_of_subtype _ (mem_maze_iff X Y), card_maze]
  rw [h2] at h1
  rw [Set.ncard_eq_toFinset_card', ← SimpleGraph.edgeFinset]
  omega

/-- No two carve moves open the same wall. -/
theorem carves_edges_nodup {X Y : Nat} {root : Cell} {s : Engine} {evs : List StepResult}
    (hc : Common X Y root s evs) :
    ((carves evs).map (fun e => s(e.1, e.2))).Nodup := by
  have hnd : (carves evs).Nodup := List.Nodup.of_map _ (List.nodup_cons.1 hc.seen_nodup).2
  apply List.Nodup.map_on _ hnd
  intro e1 h1 e2 h2 h
  rw [Sym2.eq_iff] at h
  rcases h with ⟨ha, hb⟩ | ⟨ha, hb⟩
  · exact Prod.ext ha hb
  · exfalso
    have r1 := common_rank_lt hc h1
    have r2 := common_rank_lt hc h2
    rw [ha, hb] at r1
    omega

theorem carves_in_adjacent {X Y : Nat} {root : Cell} {s : Engine} {evs : List StepResult}
    (hc : Common X Y root s evs) {e : Cell × Cell} (he : e ∈ carves evs) :
    inMaze X Y e.1 ∧ inMaze X Y e.2 ∧ adjacent e.1 e.2 := by
  have hm := common_carve_mem hc he
  exact ⟨common_discovered_inMaze hc _ hm.1, common_discovered_inMaze hc _ hm.2,
    hc.moves_adj _ _ _ _ (Or.inl (mem_carves_iff.1 he))⟩

/-! ## Further lemmas on the operations -/

/-- Reading a key inside the array returns the stored element. -/
theorem get_eq_getElem {c : CellArray} {i : Int} (h0 : 0 ≤ i) (h1 : i.toNat < c.items.length) :
    c.get i = c.items[i.toNat] := by
  have h3 : ¬ i < 0 := by omega
  simp [CellArray.get, h3, List.getElem?_eq_getElem h1]

/-- Among the visited neighbours of a cell exactly one record has the index of a given
visited adjacent cell. -/
theorem countP_visited_match {X Y : Nat} {c : CellArray} {x y : Int} {q : Cell}
    (hq : isVisited X Y c q) (hadj : adjacent (x, y) q) :
    (findValidNeighbor X Y c x y).visited.countP
      (fun v => decide (some (cellIndex Y q) = some ((Y : Int) * v.x + v.y))) = 1 := by
  have hqin := isVisited_inMaze hq
  rw [findValidNeighbor_visited, List.countP_filter]
  have hcongr : ∀ n ∈ neighborType X Y c x y,
      ((decide (some (cellIndex Y q) = some ((Y : Int) * n.x + n.y)) &&
        decide (n.value = some Status.visited)) = true ↔
      (decide ((n.x, n.y) = q)) = true) := by
    intro n hn
    have hval := (mem_neighborType.1 hn).1
    simp only [Bool.and_eq_true, decide_eq_true_eq, Option.some.injEq]
    constructor
    · rintro ⟨h1, h2⟩
      rw [hval] at h2
      exact (cellIndex_inj hqin (inMaze_of_checkValidation_eq_some h2) h1).symm
    · intro h
      rw [hval]
      subst h
      exact ⟨rfl, hq⟩
  rw [List.countP_congr hcongr]
  obtain ⟨q1, q2⟩ := q
  rw [adjacent_iff] at hadj
  simp only [neighborType, List.countP_cons, List.countP_nil, Prod.mk.injEq, decide_eq_true_eq]
  simp only at hadj
  rcases hadj with ⟨h1, h2⟩ | ⟨h1, h2⟩ | ⟨h1, h2⟩ | ⟨h1, h2⟩ <;> subst h1 <;> subst h2 <;>
    simp <;> omega

/-- The records of the unvisited list have pairwise different coordinates, and there are at
most four of them. -/
theorem unvisited_coords_nodup (X Y : Nat) (c : CellArray) (x y : Int) :
    ((findValidNeighbor X Y c x y).unvisited.map (fun n => (n.x, n.y))).Nodup ∧
    (findValidNeighbor X Y c x y).unvisited.length ≤ 4 := by
  rw [findValidNeighbor_unvisited]
  constructor
  · refine List.Nodup.sublist ((List.filter_sublist _).map _) ?_
    simp only [neighborType, List.map_cons, List.map_nil, List.nodup_cons, List.mem_cons,
      Prod.mk.injEq, List.mem_singleton, List.not_mem_nil, not_false_eq_true,
      List.nodup_nil, and_true, not_or]
    omega
  · exact le_trans (List.length_filter_le _ _) (le_of_eq rfl)

/-- The index `floor(r * n)` is `k` exactly when `r` lies in `[k/n, (k+1)/n)`. -/
theorem floor_draw_eq_iff (r : ℚ) {n : Nat} (hn : 0 < n) (k : Nat) :
    Int.floor (r * (n : ℚ)) = (k : Int) ↔ (k : ℚ) / (n : ℚ) ≤ r ∧ r < ((k : ℚ) + 1) / (n : ℚ) := by
  have hn' : (0 : ℚ) < (n : ℚ) := by exact_mod_cast hn
  rw [Int.floor_eq_iff, div_le_iff₀ hn', lt_div_iff₀ hn']
  simp

theorem backs_append (l1 l2 : List StepResult) : backs (l1 ++ l2) = backs l1 ++ backs l2 := by
  induction l1 with
  | nil => rfl
  | cons e l ih => cases e <;> simp [backs, ih]

theorem backs_length (evs : List StepResult) :
    (backs evs).length = evs.countP StepResult.isBacktrack := by
  induction evs with
  | nil => rfl
  | cons x l ih => cases x <;> simp [backs, ih, StepResult.isBacktrack, List.countP_cons]

theorem backs_replicate_finished (k : Nat) :
    backs (List.replicate k StepResult.finished) = [] := by
  induction k with
  | zero => rfl
  | succ k ih => simp [List.replicate_succ, backs, ih]

/-- One timer callback from a walking engine, with the path after the callback spelled
out: a carve puts the new cell on top, a backtrack removes the top cell, and the pop of the
last entry happens on the path that is the root alone. -/
theorem running_step_cases {X Y : Nat} {root : Cell} {s : Engine} {evs : List StepResult}
    {rpath : List Cell} {r : ℚ} (hr : 0 ≤ r ∧ r < 1)
    (hc : Common X Y root s evs) (hrun : Running X Y root s evs rpath) :
    (∃ q : Cell, ∃ s1,
        tick X Y r s = .ok (s1, StepResult.carved s.currentX s.currentY q.1 q.2) ∧
        Common X Y root s1 (evs ++ [StepResult.carved s.currentX s.currentY q.1 q.2]) ∧
        Running X Y root s1 (evs ++ [StepResult.carved s.currentX s.currentY q.1 q.2])
          (q :: rpath) ∧
        ∃ rest, rpath = s.current :: rest) ∨
    (∃ prev rest s1, rpath = s.current :: prev :: rest ∧
        tick X Y r s = .ok (s1, StepResult.backtracked s.currentX s.currentY prev.1 prev.2) ∧
        Common X Y root s1 (evs ++ [StepResult.backtracked s.currentX s.currentY prev.1 prev.2]) ∧
        Running X Y root s1
          (evs ++ [StepResult.backtracked s.currentX s.currentY prev.1 prev.2])
          (prev :: rest)) ∨
    (∃ s1, rpath = [s.current] ∧ tick X Y r s = .ok (s1, StepResult.popped) ∧
        Common X Y root s1 (evs ++ [StepResult.popped]) ∧
        Done X Y root s1 (evs ++ [StepResult.popped]) 0) := by
  obtain ⟨cur, rest, hrp⟩ : ∃ cur rest, rpath = cur :: rest := by
    cases hr : rpath with
    | nil => have := hrun.top; rw [hr] at this; simp at this
    | cons a l => exact ⟨a, l, rfl⟩
  have hcur : cur = s.current := by
    have := hrun.top
    rw [hrp] at this
    simpa using this
  subst hcur
  have hcurv : isVisited X Y s.CELLS s.current :=
    hrun.on_path _ (by rw [hrp]; exact List.mem_cons_self _ _)
  by_cases hU : (findValidNeighbor X Y s.CELLS s.currentX s.currentY).unvisited = []
  · have hU' : ∀ p, adjacent s.current p → ¬ isUnvisited X Y s.CELLS p :=
      unvisited_eq_nil_iff.1 hU
    cases hrest : rest with
    | nil =>
      rw [hrest] at hrp
      obtain ⟨s1, e, ht, hrel, hc1, hph⟩ := running_step (r := r) hr hc hrun
      have hsize : s.TRACKER.size = 1 := by
        simp [Stack.size, hrun.stack, hrp]
      have ht' := tick_pop_last (X := X) (Y := Y) r s hU hsize
      rw [ht'] at ht
      simp only [Except.ok.injEq, Prod.mk.injEq] at ht
      obtain ⟨hs1, he⟩ := ht
      subst he
      rcases hph with ⟨rp, hrp1⟩ | hdone
      · exfalso
        have := hrp1.moves StepResult.popped (List.mem_append_right _ (List.mem_singleton_self _))
        simp [StepResult.isCarve, StepResult.isBacktrack] at this
      · exact Or.inr (Or.inr ⟨s1, hrp, by rw [ht', hs1], hc1, hdone⟩)
    | cons prev rest1 =>
      rw [hrest] at hrp
      rw [hrp] at hrun
      have hch := (List.chain'_cons.1 hrun.chain).1
      have hadj : adjacent s.current prev := adjacent_symm hch.1
      have hprev : isVisited X Y s.CELLS prev :=
        hrun.on_path prev (List.mem_cons_of_mem _ (List.mem_cons_self _ _))
      have hsize : 1 < s.TRACKER.size := by
        simp [Stack.size, hrun.stack]
      have hpeek : s.TRACKER.pop.peek = some (cellIndex Y prev) := by
        simp [Stack.pop, Stack.peek, hrun.stack]
      refine Or.inr (Or.inl ⟨prev, rest1, _, hrp,
        tick_backtrack r s prev hU (by omega) hpeek hprev hadj,
        common_of_not_carve hc rfl rfl ?_, running_backtrack hrun hU'⟩)
      intro a b c d h
      simp only [StepResult.backtracked.injEq] at h
      obtain ⟨rfl, rfl, rfl, rfl⟩ := h
      exact hadj
  · obtain ⟨n, _, hn, htick⟩ := tick_carve (X := X) (Y := Y) hr s hU
    obtain ⟨_, hq, hadj⟩ := mem_unvisited_iff.1 hn
    exact Or.inl ⟨(n.x, n.y), _, htick, common_carve hc hq hcurv hadj,
      running_carve hrun hq hadj, rest, hrp⟩

theorem pathEdges_cons_cons (b a : Cell) (rest : List Cell) :
    pathEdges (b :: a :: rest) = (a, b) :: pathEdges (a :: rest) := rfl

/-- Every carved edge is either still on the path or has been walked back: the carve
moves are, up to order, the reversed backtrack moves together with the edges of the
path. -/
theorem run_traversal {X Y : Nat} {root : Cell} (hroot : inMaze X Y root) {draws : Nat → ℚ}
    (hd : ValidDraws draws) (n : Nat) :
    ∃ s evs, run X Y root.1 root.2 draws n = .ok (s, evs) ∧ evs.length = n ∧
      Common X Y root s evs ∧
      ((∃ rpath, Running X Y root s evs rpath ∧
          (carves evs).Perm ((backs evs).map Prod.swap ++ pathEdges rpath)) ∨
       (∃ k, Done X Y root s evs k ∧ (carves evs).Perm ((backs evs).map Prod.swap))) := by
  induction n with
  | zero =>
    exact ⟨_, _, rfl, rfl, start_common hroot,
      Or.inl ⟨_, start_running hroot, by simp [carves, backs, pathEdges]⟩⟩
  | succ n ih =>
    obtain ⟨s, evs, hrun, hlen, hc, hph⟩ := ih
    rcases hph with ⟨rpath, hr, hperm⟩ | ⟨k, hk, hperm⟩
    · rcases running_step_cases (hd n) hc hr with
        ⟨q, s1, ht, hc1, hr1, rest, hrp⟩ | ⟨prev, rest, s1, hrp, ht, hc1, hr1⟩ |
        ⟨s1, hrp, ht, hc1, hd1⟩
      · refine ⟨s1, _, run_succ_of hrun ht, by simp [hlen], hc1, Or.inl ⟨_, hr1, ?_⟩⟩
        rw [carves_append, backs_append, hrp, pathEdges_cons_cons]
        simp only [carves, backs, List.append_nil]
        rw [hrp] at hperm
        refine (List.perm_append_singleton _ _).trans ?_
        refine List.Perm.trans ?_ List.perm_middle.symm
        exact List.Perm.cons _ hperm
      · refine ⟨s1, _, run_succ_of hrun ht, by simp [hlen], hc1, Or.inl ⟨_, hr1, ?_⟩⟩
        rw [carves_append, backs_append]
        simp only [carves, backs, List.append_nil, List.map_append, List.map_cons,
          List.map_nil, Prod.swap_prod_mk, List.append_assoc, List.singleton_append]
        rw [hrp, pathEdges_cons_cons] at hperm
        exact hperm
      · refine ⟨s1, _, run_succ_of hrun ht, by simp [hlen], hc1, Or.inr ⟨0, hd1, ?_⟩⟩
        rw [carves_append, backs_append]
        simp only [carves, backs, List.append_nil]
        rw [hrp] at hperm
        simpa [pathEdges] using hperm
    · obtain ⟨ht, _, hc1, hk1⟩ := done_step (draws n) hc hk
      refine ⟨s, _, run_succ_of hrun ht, by simp [hlen], hc1, Or.inr ⟨k + 1, hk1, ?_⟩⟩
      rw [carves_append, backs_append]
      simpa [carves, backs] using hperm

/-! ## The product of `stepOut` in doubles -/

theorem roundNearestEven_ge_floor (m : ℚ) : Int.floor m ≤ roundNearestEven m := by
  unfold roundNearestEven
  simp only
  split_ifs <;> omega

theorem roundNearestEven_le_floor_succ (m : ℚ) : roundNearestEven m ≤ Int.floor m + 1 := by
  unfold roundNearestEven
  simp only
  split_ifs <;> omega

theorem roundNearestEven_intCast (z : Int) : roundNearestEven (z : ℚ) = z := by
  unfold roundNearestEven
  simp

theorem roundNearestEven_le_add_half (m : ℚ) : (roundNearestEven m : ℚ) ≤ m + 1 / 2 := by
  have hf := Int.floor_le m
  unfold roundNearestEven
  simp only
  split_ifs with h1 h2 h3
  · linarith
  · push_cast; linarith
  · linarith
  · push_cast
    have : m - (Int.floor m : ℚ) = 1 / 2 := le_antisymm (not_lt.1 h2) (not_lt.1 h1)
    linarith

theorem int_le_roundNearestEven {z : Int} {m : ℚ} (h : (z : ℚ) ≤ m) :
    z ≤ roundNearestEven m :=
  le_trans (Int.le_floor.2 h) (roundNearestEven_ge_floor m)

theorem roundNearestEven_le_int {z : Int} {m : ℚ} (h : m ≤ (z : ℚ)) :
    roundNearestEven m ≤ z := by
  rcases eq_or_lt_of_le h with h1 | h1
  · rw [h1, roundNearestEven_intCast]
  · have : Int.floor m < z := Int.floor_lt.2 h1
    have := roundNearestEven_le_floor_succ m
    omega

/-- The exponent of a positive rational below `2^k`. -/
theorem binadeExp_le {q : ℚ} (hq : 0 < q) {k : Int} (hk : -1021 ≤ k) (hlt : q < (2 : ℚ) ^ k) :
    binadeExp q ≤ k - 1 := by
  unfold binadeExp
  rw [abs_of_pos hq]
  have h : Int.log 2 q < k := by
    have := (Int.lt_zpow_iff_log_lt (R := ℚ) (b := 2) (by norm_num) (x := k) hq).1
      (by exact_mod_cast hlt)
    exact this
  have := max_le (a := Int.log 2 q) (b := -1022) (c := k - 1) (by omega) (by omega)
  exact this

theorem binadeExp_eq {q : ℚ} (hq : 0 < q) {e : Int} (he : -1022 ≤ e) (h1 : (2 : ℚ) ^ e ≤ q)
    (h2 : q < (2 : ℚ) ^ (e + 1)) : binadeExp q = e := by
  unfold binadeExp
  rw [abs_of_pos hq]
  have ha : e ≤ Int.log 2 q :=
    (Int.zpow_le_iff_le_log (R := ℚ) (b := 2) (by norm_num) (x := e) hq).1
      (by exact_mod_cast h1)
  have hb : Int.log 2 q < e + 1 :=
    (Int.lt_zpow_iff_log_lt (R := ℚ) (b := 2) (by norm_num) (x := e + 1) hq).1
      (by exact_mod_cast h2)
  have : Int.log 2 q = e := by omega
  rw [this]
  exact max_eq_left he

theorem ulp_pos (q : ℚ) : (0 : ℚ) < (2 : ℚ) ^ (binadeExp q - 52) :=
  zpow_pos (by norm_num) _

theorem roundDouble_zero : roundDouble 0 = 0 := by
  unfold roundDouble
  simp [roundNearestEven_intCast, roundNearestEven]

theorem roundDouble_nonneg {q : ℚ} (hq : 0 ≤ q) : 0 ≤ roundDouble q := by
  unfold roundDouble
  apply mul_nonneg _ (ulp_pos q).le
  have h : ((0 : Int) : ℚ) ≤ q / (2 : ℚ) ^ (binadeExp q - 52) := by
    simpa using div_nonneg hq (ulp_pos q).le
  exact_mod_cast int_le_roundNearestEven h

/-- Rounding moves a positive rational below `2^k` up by at most half the spacing of the
doubles below `2^k`. -/
theorem roundDouble_le_add {q : ℚ} (hq : 0 < q) {k : Int} (hk : -1021 ≤ k)
    (hlt : q < (2 : ℚ) ^ k) : roundDouble q ≤ q + (2 : ℚ) ^ (k - 54) := by
  have hE := binadeExp_le hq hk hlt
  have hu := ulp_pos q
  have h1 := roundNearestEven_le_add_half (q / (2 : ℚ) ^ (binadeExp q - 52))
  have h2 : roundDouble q ≤ q + (2 : ℚ) ^ (binadeExp q - 52) / 2 := by
    unfold roundDouble
    have := mul_le_mul_of_nonneg_right h1 hu.le
    rw [add_mul, div_mul_cancel₀ _ hu.ne'] at this
    linarith
  have h3 : (2 : ℚ) ^ (binadeExp q - 52) ≤ (2 : ℚ) ^ (k - 53) :=
    zpow_le_zpow_right₀ (by norm_num) (by omega)
  have h4 : (2 : ℚ) ^ (k - 53) = (2 : ℚ) ^ (k - 54) * 2 := by
    have : k - 53 = (k - 54) + 1 := by omega
    rw [this, zpow_add_one₀ (by norm_num)]
  linarith

/-- In a binade of exponent at most `52` every integer is a multiple of the spacing. -/
theorem int_div_ulp {E : Int} (hE : E ≤ 52) (z : Int) :
    (z : ℚ) / (2 : ℚ) ^ (E - 52) = ((z * 2 ^ (52 - E).toNat : Int) : ℚ) := by
  have h2 : (2 : ℚ) ≠ 0 := by norm_num
  have : (2 : ℚ) ^ (E - 52) = ((2 : ℚ) ^ ((52 - E).toNat))⁻¹ := by
    rw [← zpow_natCast, ← zpow_neg]
    congr 1
    omega
  rw [this]
  push_cast
  field_simp

/-- Rounding does not cross an integer from above. -/
theorem int_le_roundDouble {q : ℚ} (hq : 0 < q) (hlt : q < (2 : ℚ) ^ (53 : Int)) {z : Int}
    (h : (z : ℚ) ≤ q) : (z : ℚ) ≤ roundDouble q := by
  have hE : binadeExp q ≤ 52 := by
    have := binadeExp_le hq (k := 53) (by norm_num) hlt
    omega
  have hu := ulp_pos q
  have h1 : (z : ℚ) / (2 : ℚ) ^ (binadeExp q - 52) ≤ q / (2 : ℚ) ^ (binadeExp q - 52) :=
    div_le_div_of_nonneg_right h hu.le
  rw [int_div_ulp hE z] at h1
  have h2 := int_le_roundNearestEven h1
  have h3 : ((z * 2 ^ (52 - binadeExp q).toNat : Int) : ℚ) ≤
      (roundNearestEven (q / (2 : ℚ) ^ (binadeExp q - 52)) : ℚ) := by exact_mod_cast h2
  rw [← int_div_ulp hE z] at h3
  unfold roundDouble
  have := mul_le_mul_of_nonneg_right h3 hu.le
  rwa [div_mul_cancel₀ _ hu.ne'] at this

/-- Rounding does not cross an integer from below. -/
theorem roundDouble_le_int {q : ℚ} (hq : 0 < q) (hlt : q < (2 : ℚ) ^ (53 : Int)) {z : Int}
    (h : q ≤ (z : ℚ)) : roundDouble q ≤ (z : ℚ) := by
  have hE : binadeExp q ≤ 52 := by
    have := binadeExp_le hq (k := 53) (by norm_num) hlt
    omega
  have hu := ulp_pos q
  have h1 : q / (2 : ℚ) ^ (binadeExp q - 52) ≤ (z : ℚ) / (2 : ℚ) ^ (binadeExp q - 52) :=
    div_le_div_of_nonneg_right h hu.le
  rw [int_div_ulp hE z] at h1
  have h2 := roundNearestEven_le_int h1
  have h3 : (roundNearestEven (q / (2 : ℚ) ^ (binadeExp q - 52)) : ℚ) ≤
      ((z * 2 ^ (52 - binadeExp q).toNat : Int) : ℚ) := by exact_mod_cast h2
  rw [← int_div_ulp hE z] at h3
  unfold roundDouble
  have := mul_le_mul_of_nonneg_right h3 hu.le
  rwa [div_mul_cancel₀ _ hu.ne'] at this

/-- The largest double below `1` is `1 - 2^-53`. -/
theorem isDouble_le_pred_one {r : ℚ} (hd : isDouble r) (h1 : r < 1) :
    r ≤ 1 - (2 : ℚ) ^ (-53 : Int) := by
  have hc : (2 : ℚ) ^ (-53 : Int) = 1 / 9007199254740992 := by norm_num [zpow_neg]
  by_cases hhalf : r < 1 / 2
  · rw [hc]; linarith
  · have hr : 0 < r := by linarith
    have hE : binadeExp r = -1 :=
      binadeExp_eq hr (by norm_num) (by norm_num [zpow_neg]; linarith) (by norm_num; exact h1)
    unfold isDouble roundDouble at hd
    rw [hE] at hd
    have hu : (2 : ℚ) ^ ((-1 : Int) - 52) = 1 / 9007199254740992 := by norm_num [zpow_neg]
    rw [hu] at hd
    set j := roundNearestEven (r / (1 / 9007199254740992)) with hj
    have hlt : (j : ℚ) < 9007199254740992 := by
      rw [← hd] at h1
      linarith
    have hlt' : j < 9007199254740992 := by exact_mod_cast hlt
    have hle : (j : ℚ) ≤ 9007199254740991 := by
      have : j ≤ 9007199254740991 := by omega
      exact_mod_cast this
    rw [hc, ← hd]
    linarith

theorem log_mul_two_pow {r : ℚ} (hr : 0 < r) (i : Nat) :
    Int.log 2 (r * (2 : ℚ) ^ i) = Int.log 2 r + i := by
  have h2 : (0 : ℚ) < 2 := by norm_num
  have hp : (0 : ℚ) < (2 : ℚ) ^ i := pow_pos h2 i
  have hx : 0 < r * (2 : ℚ) ^ i := mul_pos hr hp
  have h1 : ((2 : Nat) : ℚ) ^ Int.log 2 r ≤ r := Int.zpow_log_le_self (by norm_num) hr
  have h3 : r < ((2 : Nat) : ℚ) ^ (Int.log 2 r + 1) := Int.lt_zpow_succ_log_self (by norm_num) r
  have ha : Int.log 2 r + i ≤ Int.log 2 (r * (2 : ℚ) ^ i) := by
    apply (Int.zpow_le_iff_le_log (R := ℚ) (b := 2) (by norm_num) hx).1
    rw [zpow_add₀ (by norm_num), zpow_natCast]
    push_cast at h1 ⊢
    exact mul_le_mul_of_nonneg_right h1 hp.le
  have hb : Int.log 2 (r * (2 : ℚ) ^ i) < Int.log 2 r + i + 1 := by
    apply (Int.lt_zpow_iff_log_lt (R := ℚ) (b := 2) (by norm_num) hx).1
    have : Int.log 2 r + (i : Int) + 1 = (Int.log 2 r + 1) + (i : Int) := by omega
    rw [this, zpow_add₀ (by norm_num), zpow_natCast]
    push_cast at h3 ⊢
    exact mul_lt_mul_of_pos_right h3 hp
  omega

/-- A double times a power of two is a double: the product is exact. -/
theorem roundDouble_mul_two_pow {r : ℚ} (hd : isDouble r) (h0 : 0 ≤ r) (i : Nat) :
    roundDouble (r * (2 : ℚ) ^ i) = r * (2 : ℚ) ^ i := by
  rcases eq_or_lt_of_le h0 with h | hr
  · rw [← h, zero_mul, roundDouble_zero]
  · have h2 : (2 : ℚ) ≠ 0 := by norm_num
    have hp : (0 : ℚ) < (2 : ℚ) ^ i := pow_pos (by norm_num) i
    have hx : 0 < r * (2 : ℚ) ^ i := mul_pos hr hp
    have hEx : binadeExp (r * (2 : ℚ) ^ i) = max (Int.log 2 r + i) (-1022) := by
      unfold binadeExp
      rw [abs_of_pos hx, log_mul_two_pow hr i]
    have hEr : binadeExp r = max (Int.log 2 r) (-1022) := by
      unfold binadeExp
      rw [abs_of_pos hr]
    have hd1 : 0 ≤ (i : Int) - (binadeExp (r * (2 : ℚ) ^ i) - binadeExp r) := by
      rw [hEx, hEr]
      rcases max_cases (Int.log 2 r + i) (-1022) with ⟨a, _⟩ | ⟨a, _⟩ <;>
        rcases max_cases (Int.log 2 r) (-1022) with ⟨b, _⟩ | ⟨b, _⟩ <;> omega
    have hrj : (roundNearestEven (r / (2 : ℚ) ^ (binadeExp r - 52)) : ℚ) *
        (2 : ℚ) ^ (binadeExp r - 52) = r := hd
    set j := roundNearestEven (r / (2 : ℚ) ^ (binadeExp r - 52)) with hj
    set E := binadeExp r with hE
    set E1 := binadeExp (r * (2 : ℚ) ^ i) with hE1
    have key : (2 : ℚ) ^ (E - 52) * (2 : ℚ) ^ (i : Int) =
        (2 : ℚ) ^ ((i : Int) - (E1 - E)) * (2 : ℚ) ^ (E1 - 52) := by
      rw [← zpow_add₀ h2, ← zpow_add₀ h2]
      congr 1
      omega
    have hx2 : r * (2 : ℚ) ^ i = (j : ℚ) * (2 : ℚ) ^ ((i : Int) - (E1 - E)) *
        (2 : ℚ) ^ (E1 - 52) := by
      rw [← hrj, ← zpow_natCast, mul_assoc, key, mul_assoc]
    have hint : (j : ℚ) * (2 : ℚ) ^ ((i : Int) - (E1 - E)) =
        ((j * 2 ^ ((i : Int) - (E1 - E)).toNat : Int) : ℚ) := by
      push_cast
      rw [← zpow_natCast, Int.toNat_of_nonneg hd1]
    have hdiv : r * (2 : ℚ) ^ i / (2 : ℚ) ^ (E1 - 52) =
        ((j * 2 ^ ((i : Int) - (E1 - E)).toNat : Int) : ℚ) := by
      rw [hx2, mul_div_assoc, div_self (zpow_ne_zero _ h2), mul_one, hint]
    show (roundNearestEven (r * (2 : ℚ) ^ i / (2 : ℚ) ^ (E1 - 52)) : ℚ) *
        (2 : ℚ) ^ (E1 - 52) = r * (2 : ℚ) ^ i
    rw [hdiv, roundNearestEven_intCast, ← hint, ← hx2]

/-- For a length other than `3` the product of a double in `[0,1)` with the length is
exact. -/
theorem roundDouble_mul_length {r : ℚ} (hd : isDouble r) (h0 : 0 ≤ r) {n : Nat}
    (hn : n = 1 ∨ n = 2 ∨ n = 4) : roundDouble (r * (n : ℚ)) = r * (n : ℚ) := by
  rcases hn with rfl | rfl | rfl
  · simpa using roundDouble_mul_two_pow hd h0 0
  · simpa using roundDouble_mul_two_pow hd h0 1
  · have := roundDouble_mul_two_pow hd h0 2
    norm_num at this ⊢
    exact this

/-- The index `floor(r * n)` computed in doubles is a valid position of a list of length
`n` in `1..4`, for every double `r` in `[0,1)`. -/
theorem double_index_lt {r : ℚ} (hd : isDouble r) (hr : 0 ≤ r ∧ r < 1) {n : Nat}
    (h1 : 1 ≤ n) (h4 : n ≤ 4) :
    0 ≤ Int.floor (roundDouble (r * (n : ℚ))) ∧
      (Int.floor (roundDouble (r * (n : ℚ)))).toNat < n := by
  have hn0 : (0 : ℚ) < (n : ℚ) := by exact_mod_cast h1
  have hnn : 0 ≤ Int.floor (roundDouble (r * (n : ℚ))) :=
    Int.floor_nonneg.2 (roundDouble_nonneg (mul_nonneg hr.1 hn0.le))
  refine ⟨hnn, ?_⟩
  have hlt : Int.floor (roundDouble (r * (n : ℚ))) < (n : Int) := by
    rw [Int.floor_lt]
    rcases eq_or_lt_of_le hr.1 with h | hpos
    · rw [← h, zero_mul, roundDouble_zero]
      exact_mod_cast hn0
    · have hx : 0 < r * (n : ℚ) := mul_pos hpos hn0
      have hpred := isDouble_le_pred_one hd hr.2
      have hc : (2 : ℚ) ^ (-53 : Int) = 1 / 9007199254740992 := by norm_num [zpow_neg]
      rw [hc] at hpred
      interval_cases n
      · have := roundDouble_le_add hx (k := 0) (by norm_num) (by norm_num; linarith)
        norm_num [zpow_neg] at this ⊢
        linarith
      · have := roundDouble_le_add hx (k := 1) (by norm_num) (by norm_num; linarith)
        norm_num [zpow_neg] at this ⊢
        linarith
      · have := roundDouble_le_add hx (k := 2) (by norm_num) (by norm_num; linarith)
        norm_num [zpow_neg] at this ⊢
        linarith
      · have := roundDouble_le_add hx (k := 2) (by norm_num) (by norm_num; linarith)
        norm_num [zpow_neg] at this ⊢
        linarith
  omega

/-- The index computed in doubles is the exact index `floor(r * n)`, or the next one when
the exact product is at most `2^-52` below that integer. -/
theorem double_index_near {r : ℚ} (hr : 0 ≤ r ∧ r < 1) {n : Nat} (h1 : 1 ≤ n) (h4 : n ≤ 4) :
    Int.floor (roundDouble (r * (n : ℚ))) = Int.floor (r * (n : ℚ)) ∨
    (Int.floor (roundDouble (r * (n : ℚ))) = Int.floor (r * (n : ℚ)) + 1 ∧
      ((Int.floor (r * (n : ℚ)) + 1 : Int) : ℚ) - (2 : ℚ) ^ (-52 : Int) ≤ r * (n : ℚ)) := by
  have hn0 : (0 : ℚ) < (n : ℚ) := by exact_mod_cast h1
  rcases eq_or_lt_of_le hr.1 with h | hpos
  · left
    rw [← h, zero_mul, roundDouble_zero]
  · have hx : 0 < r * (n : ℚ) := mul_pos hpos hn0
    have hn4 : (n : ℚ) ≤ 4 := by exact_mod_cast h4
    have hx4 : r * (n : ℚ) < 4 := by nlinarith [hr.2]
    have hx53 : r * (n : ℚ) < (2 : ℚ) ^ (53 : Int) := by
      have : (4 : ℚ) ≤ (2 : ℚ) ^ (53 : Int) := by norm_num
      linarith
    have hlo : ((Int.floor (r * (n : ℚ)) : Int) : ℚ) ≤ roundDouble (r * (n : ℚ)) :=
      int_le_roundDouble hx hx53 (Int.floor_le _)
    have hhi : roundDouble (r * (n : ℚ)) ≤ ((Int.floor (r * (n : ℚ)) + 1 : Int) : ℚ) :=
      roundDouble_le_int hx hx53 (by push_cast; exact (Int.lt_floor_add_one _).le)
    have hA : Int.floor (r * (n : ℚ)) ≤ Int.floor (roundDouble (r * (n : ℚ))) :=
      Int.le_floor.2 hlo
    have hB : Int.floor (roundDouble (r * (n : ℚ))) ≤ Int.floor (r * (n : ℚ)) + 1 := by
      have : Int.floor (roundDouble (r * (n : ℚ))) ≤
          Int.floor (((Int.floor (r * (n : ℚ)) + 1 : Int) : ℚ)) := Int.floor_mono hhi
      rwa [Int.floor_intCast] at this
    by_cases hcase : Int.floor (roundDouble (r * (n : ℚ))) = Int.floor (r * (n : ℚ))
    · exact Or.inl hcase
    · right
      have heq : Int.floor (roundDouble (r * (n : ℚ))) = Int.floor (r * (n : ℚ)) + 1 := by
        omega
      refine ⟨heq, ?_⟩
      have h5 : ((Int.floor (r * (n : ℚ)) + 1 : Int) : ℚ) ≤ roundDouble (r * (n : ℚ)) := by
        rw [← heq]
        exact Int.floor_le _
      have h6 := roundDouble_le_add hx (k := 2) (by norm_num) (by norm_num; exact hx4)
      have h7 : (2 : ℚ) ^ ((2 : Int) - 54) = (2 : ℚ) ^ (-52 : Int) := by norm_num
      rw [h7] at h6
      linarith

/-- The carve branch in doubles, once the index is known: `stepOut` moves to the record at
that index, marks it and pushes its index. -/
theorem tickDouble_carve_at {X Y : Nat} (r : ℚ) (s : Engine) {k : Nat} {n : Neighbor}
    (hidx : Int.floor (roundDouble (r *
      (((findValidNeighbor X Y s.CELLS s.currentX s.currentY).unvisited.length : Nat) : ℚ))) =
      (k : Int))
    (hk : (findValidNeighbor X Y s.CELLS s.currentX s.currentY).unvisited[k]? = some n) :
    tickDouble X Y r s = .ok
      (⟨s.CELLS.set (cellIndex Y (n.x, n.y)) Status.visited,
        s.TRACKER.push (cellIndex Y (n.x, n.y)), n.x, n.y⟩,
       StepResult.carved s.currentX s.currentY n.x n.y) := by
  set U := (findValidNeighbor X Y s.CELLS s.currentX s.currentY).unvisited with hUdef
  have hmem : n ∈ U := List.getElem?_mem hk
  have hne : U ≠ [] := List.ne_nil_of_mem hmem
  have hadj := (mem_unvisited_iff.1 hmem).2.2
  have hmv := moveToNext_of_adjacent Y s (n.x, n.y) false hadj
  have hb : (U.length == 0) = false := by
    simpa using hne
  have hneg : ¬ ((k : Int) < 0) := by omega
  simp only [tickDouble, stepOutDouble, ← hUdef]
  simp only [hb, Bool.not_false, if_true, hidx, hneg, if_false, Int.toNat_ofNat, hk]
  rw [hmv]
  simp [updateCurrentCell, cellIndex]

/-- The carve branch in doubles: with a double draw in `[0,1)` and a non-empty unvisited
list, the index is in range and `stepOut` moves to the record at that index. -/
theorem tickDouble_carve {X Y : Nat} {r : ℚ} (hd : isDouble r) (hr : 0 ≤ r ∧ r < 1)
    (s : Engine)
    (hU : (findValidNeighbor X Y s.CELLS s.currentX s.currentY).unvisited ≠ []) :
    ∃ n : Neighbor,
      (findValidNeighbor X Y s.CELLS s.currentX s.currentY).unvisited[
        (Int.floor (roundDouble (r * (((findValidNeighbor X Y s.CELLS s.currentX
          s.currentY).unvisited.length : Nat) : ℚ)))).toNat]? = some n ∧
      tickDouble X Y r s = .ok
        (⟨s.CELLS.set (cellIndex Y (n.x, n.y)) Status.visited,
          s.TRACKER.push (cellIndex Y (n.x, n.y)), n.x, n.y⟩,
         StepResult.carved s.currentX s.currentY n.x n.y) := by
  set U := (findValidNeighbor X Y s.CELLS s.currentX s.currentY).unvisited with hUdef
  have hlen : 0 < U.length := List.length_pos.2 hU
  have hle : U.length ≤ 4 := by
    have := (unvisited_coords_nodup X Y s.CELLS s.currentX s.currentY).2
    rwa [← hUdef] at this
  obtain ⟨h0, h1⟩ := double_index_lt hd hr (n := U.length) hlen hle
  have hget := List.getElem?_eq_getElem h1
  refine ⟨_, hget, ?_⟩
  exact tickDouble_carve_at r s (k := (Int.floor (roundDouble (r * ((U.length : Nat) : ℚ)))).toNat)
    (by rw [Int.toNat_of_nonneg h0]) hget

/-- Outside the carve branch the draw is not used: the two step functions agree. -/
theorem tickDouble_of_nil {X Y : Nat} (r r1 : ℚ) (s : Engine)
    (hU : (findValidNeighbor X Y s.CELLS s.currentX s.currentY).unvisited = []) :
    tickDouble X Y r s = tick X Y r1 s := by
  simp [tickDouble, stepOutDouble, tick, stepOut, hU]

/-- Every callback computed in doubles is a callback of `stepOut` with the product taken
exactly, for a suitable draw in `[0,1)`: the facts proved of `tick` for all draws in
`[0,1)` hold of the callback in doubles. -/
theorem tickDouble_refines_tick {X Y : Nat} {r : ℚ} (hd : isDouble r) (hr : 0 ≤ r ∧ r < 1)
    (s : Engine) : ∃ r1 : ℚ, (0 ≤ r1 ∧ r1 < 1) ∧ tickDouble X Y r s = tick X Y r1 s := by
  by_cases hU : (findValidNeighbor X Y s.CELLS s.currentX s.currentY).unvisited = []
  · exact ⟨0, by norm_num, tickDouble_of_nil r 0 s hU⟩
  · set U := (findValidNeighbor X Y s.CELLS s.currentX s.currentY).unvisited with hUdef
    have hlen : 0 < U.length := List.length_pos.2 hU
    have hle : U.length ≤ 4 := by
      have := (unvisited_coords_nodup X Y s.CELLS s.currentX s.currentY).2
      rwa [← hUdef] at this
    obtain ⟨h0, h1⟩ := double_index_lt hd hr (n := U.length) hlen hle
    obtain ⟨n, hn, ht⟩ := tickDouble_carve (X := X) (Y := Y) hd hr s hU
    rw [← hUdef] at hn
    set k := (Int.floor (roundDouble (r * ((U.length : Nat) : ℚ)))).toNat with hk
    have hlen' : (0 : ℚ) < (U.length : ℚ) := by exact_mod_cast hlen
    have hkq : (k : ℚ) + 1 ≤ (U.length : ℚ) := by exact_mod_cast h1
    have hr1 : 0 ≤ ((k : ℚ) + 1 / 2) / (U.length : ℚ) ∧
        ((k : ℚ) + 1 / 2) / (U.length : ℚ) < 1 := by
      constructor
      · positivity
      · rw [div_lt_one hlen']
        linarith
    refine ⟨((k : ℚ) + 1 / 2) / (U.length : ℚ), hr1, ?_⟩
    obtain ⟨m, hm, _, ht1⟩ := tick_carve (X := X) (Y := Y) hr1 s hU
    rw [← hUdef] at hm
    have hfl : Int.floor (((k : ℚ) + 1 / 2) / (U.length : ℚ) * ((U.length : Nat) : ℚ)) =
        (k : Int) := by
      rw [div_mul_cancel₀ _ hlen'.ne', Int.floor_eq_iff]
      push_cast
      constructor <;> linarith
    rw [hfl, Int.toNat_ofNat, hn] at hm
    rw [ht, ht1, Option.some.inj hm]

/-- A significand of 53 bits in a binade of the normal range is the value of a double. -/
theorem isDouble_of_significand {j e : Int} (h1 : (2 : Int) ^ 52 ≤ j) (h2 : j < (2 : Int) ^ 53)
    (he : -1022 ≤ e) : isDouble ((j : ℚ) * (2 : ℚ) ^ (e - 52)) := by
  have h2' : (2 : ℚ) ≠ 0 := by norm_num
  have hu : (0 : ℚ) < (2 : ℚ) ^ (e - 52) := zpow_pos (by norm_num) _
  have hj1 : ((2 : ℚ) ^ (52 : Int)) ≤ (j : ℚ) := by
    have : (((2 : Int) ^ 52 : Int) : ℚ) ≤ (j : ℚ) := by exact_mod_cast h1
    norm_num at this ⊢
    exact this
  have hj2 : (j : ℚ) < ((2 : ℚ) ^ (53 : Int)) := by
    have : (j : ℚ) < (((2 : Int) ^ 53 : Int) : ℚ) := by exact_mod_cast h2
    norm_num at this ⊢
    exact this
  have hq : 0 < (j : ℚ) * (2 : ℚ) ^ (e - 52) :=
    mul_pos (lt_of_lt_of_le (by norm_num) hj1) hu
  have hE : binadeExp ((j : ℚ) * (2 : ℚ) ^ (e - 52)) = e := by
    apply binadeExp_eq hq he
    · have : (2 : ℚ) ^ e = (2 : ℚ) ^ (52 : Int) * (2 : ℚ) ^ (e - 52) := by
        rw [← zpow_add₀ h2']
        congr 1
        omega
      rw [this]
      exact mul_le_mul_of_nonneg_right hj1 hu.le
    · have : (2 : ℚ) ^ (e + 1) = (2 : ℚ) ^ (53 : Int) * (2 : ℚ) ^ (e - 52) := by
        rw [← zpow_add₀ h2']
        congr 1
        omega
      rw [this]
      exact mul_lt_mul_of_pos_right hj2 hu
  unfold isDouble roundDouble
  rw [hE, mul_div_assoc, div_self hu.ne', mul_one, roundNearestEven_intCast]

/-- The draw `6004799503160661 / 2^53` (the double `0.6666666666666666`) is a double, and
its product with `3`, exactly `2 - 2^-53`, is rounded to `2`. -/
theorem roundDouble_two_thirds :
    isDouble ((6004799503160661 : ℚ) / 9007199254740992) ∧
    roundDouble ((6004799503160661 : ℚ) / 9007199254740992 * ((3 : Nat) : ℚ)) = 2 := by
  constructor
  · have h := isDouble_of_significand (j := 6004799503160661) (e := -1) (by norm_num)
      (by norm_num) (by norm_num)
    have hv : ((6004799503160661 : Int) : ℚ) * (2 : ℚ) ^ ((-1 : Int) - 52) =
        (6004799503160661 : ℚ) / 9007199254740992 := by norm_num [zpow_neg]
    rwa [hv] at h
  · have hx : (6004799503160661 : ℚ) / 9007199254740992 * ((3 : Nat) : ℚ) =
        18014398509481983 / 9007199254740992 := by norm_num
    rw [hx]
    have hE : binadeExp ((18014398509481983 : ℚ) / 9007199254740992) = 0 :=
      binadeExp_eq (by norm_num) (by norm_num) (by norm_num) (by norm_num)
    have hu : (2 : ℚ) ^ ((0 : Int) - 52) = 1 / 4503599627370496 := by norm_num [zpow_neg]
    have hdiv : (18014398509481983 : ℚ) / 9007199254740992 / (1 / 4503599627370496) =
        18014398509481983 / 2 := by norm_num
    have hf : Int.floor ((18014398509481983 : ℚ) / 2) = 9007199254740991 := by
      rw [Int.floor_eq_iff]
      constructor <;> norm_num
    have hrne : roundNearestEven ((18014398509481983 : ℚ) / 2) = 9007199254740992 := by
      unfold roundNearestEven
      simp only [hf]
      norm_num
    unfold roundDouble
    rw [hE, hu, hdiv, hrne]
    norm_num

/-! ## Properties of a run -/

theorem validDraws_zero : ValidDraws (fun _ => 0) := by
  intro k
  constructor <;> norm_num

/-- C1: in a run from `start` (grid at least 1x1, root in the maze, draws in `[0,1)`) every
call of `stepOut` succeeds and finish is reported from call number `2*X*Y` on; once it has
been reported, the graph on the `X*Y` cells of the maze whose edges are the carve moves
`{from, to}` is a tree (connected and without cycle), it has exactly `X*Y - 1` edges, the
run made exactly `X*Y - 1` carve moves, no two of them between the same pair of cells, and
each of them joins two adjacent cells of the maze. -/
theorem carved_spanning_tree (X Y : Nat) (root : Cell) (draws : Nat → ℚ) (_hX : 1 ≤ X)
    (_hY : 1 ≤ Y) (hroot : inMaze X Y root) (hd : ValidDraws draws) (n : Nat) :
    ∃ s evs, run X Y root.1 root.2 draws n = .ok (s, evs) ∧
      (StepResult.finished ∈ evs ↔ 2 * (X * Y) ≤ n) ∧
      (StepResult.finished ∈ evs →
        (carvedGraph X Y evs).IsTree ∧
        (carvedGraph X Y evs).Connected ∧ (carvedGraph X Y evs).IsAcyclic ∧
        Nat.card {p : Cell // inMaze X Y p} = X * Y ∧
        (carvedGraph X Y evs).edgeSet.ncard = X * Y - 1 ∧
        (carves evs).length = X * Y - 1 ∧
        ((carves evs).map (fun e => s(e.1, e.2))).Nodup ∧
        ∀ e ∈ carves evs, inMaze X Y e.1 ∧ inMaze X Y e.2 ∧ adjacent e.1 e.2) := by
  obtain ⟨s, evs, hrun, _, hc, hph⟩ := run_phase hroot hd n
  refine ⟨s, evs, hrun, ?_⟩
  rcases hph with ⟨hn, rpath, hr⟩ | ⟨hn, hk⟩
  · have hnot := (not_finished_mem_of_moves hr.moves).1
    exact ⟨⟨fun h => absurd h hnot, fun h => by omega⟩, fun h => absurd h hnot⟩
  · have hT := carvedGraph_isTree hc hk
    refine ⟨?_, fun _ => ⟨hT, hT.isConnected, hT.IsAcyclic, card_cells X Y,
      ncard_edgeSet_of_isTree hT, ?_, carves_edges_nodup hc,
      fun e he => carves_in_adjacent hc he⟩⟩
    · rw [done_finished_mem_iff hk]
      omega
    · have := done_carves_length hc hk
      omega

/-- Instance of `carved_spanning_tree` on a small grid, with its hypotheses discharged. -/
theorem carved_spanning_tree_witness :
    inMaze 2 1 ((0, 0) : Cell) ∧ ValidDraws (fun _ => 0) ∧
    ∃ s evs, run 2 1 0 0 (fun _ => 0) 4 = .ok (s, evs) ∧
      (StepResult.finished ∈ evs ↔ 2 * (2 * 1) ≤ 4) ∧
      (StepResult.finished ∈ evs →
        (carvedGraph 2 1 evs).IsTree ∧
        (carvedGraph 2 1 evs).Connected ∧ (carvedGraph 2 1 evs).IsAcyclic ∧
        Nat.card {p : Cell // inMaze 2 1 p} = 2 * 1 ∧
        (carvedGraph 2 1 evs).edgeSet.ncard = 2 * 1 - 1 ∧
        (carves evs).length = 2 * 1 - 1 ∧
        ((carves evs).map (fun e => s(e.1, e.2))).Nodup ∧
        ∀ e ∈ carves evs, inMaze 2 1 e.1 ∧ inMaze 2 1 e.2 ∧ adjacent e.1 e.2) :=
  ⟨by decide, validDraws_zero,
    carved_spanning_tree 2 1 (0, 0) (fun _ => 0) (by decide) (by decide) (by decide)
      validDraws_zero 4⟩

/-- C2: in a run from `start` (grid at least 1x1, root in the maze, draws in `[0,1)`), when a
call of `stepOut` reports finish, every cell of the maze holds `'visited'` (so `CELLS` is
`X*Y` times `'visited'`), the current cell is the root and the stack is empty, and the call
changes nothing; a call made while some cell is still `'unvisited'` does not report
finish; and call number `2*X*Y` does report finish. -/
theorem finish_state (X Y : Nat) (root : Cell) (draws : Nat → ℚ) (_hX : 1 ≤ X) (_hY : 1 ≤ Y)
    (hroot : inMaze X Y root) (hd : ValidDraws draws) (n : Nat) :
    ∃ s evs s1 e, run X Y root.1 root.2 draws n = .ok (s, evs) ∧
      tick X Y (draws n) s = .ok (s1, e) ∧
      (e = StepResult.finished →
        s1 = s ∧
        (∀ p, inMaze X Y p → s.CELLS.get (cellIndex Y p) = some Status.visited) ∧
        s.CELLS.items = List.replicate (X * Y) (some Status.visited) ∧
        s.current = root ∧ s.TRACKER.items = [] ∧ s.TRACKER.isEmpty = true) ∧
      ((∃ p, isUnvisited X Y s.CELLS p) → e ≠ StepResult.finished) ∧
      (n + 1 = 2 * (X * Y) → e = StepResult.finished) := by
  obtain ⟨s, evs, hrun, hlen, hc, hph⟩ := run_phase hroot hd n
  rcases hph with ⟨hn, rpath, hr⟩ | ⟨hn, hk⟩
  · obtain ⟨s1, e, ht, hrel, _, _⟩ := running_step (hd n) hc hr
    have hne : e ≠ StepResult.finished := by
      intro he
      rw [he] at ht
      have := (tick_eq_finished_iff.1 ht).2.1
      have hpos : 0 < rpath.length := by
        cases hrp : rpath with
        | nil => have := hr.top; rw [hrp] at this; simp at this
        | cons a l => simp
      simp [Stack.size, hr.stack] at this
      rw [this] at hpos
      simp at hpos
    exact ⟨s, evs, s1, e, hrun, ht, fun he => absurd he hne, fun _ => hne,
      fun h => by omega⟩
  · obtain ⟨ht, _, _, _⟩ := done_step (draws n) hc hk
    refine ⟨s, evs, s, _, hrun, ht, fun _ => ⟨rfl, ?_, ?_, hk.at_root, hk.stack, ?_⟩, ?_,
      fun _ => rfl⟩
    · intro p hp
      exact get_of_isVisited hc.wf (hk.all p hp)
    · exact items_eq_replicate_of_all hc.wf hk.all
    · simp [Stack.isEmpty, hk.stack]
    · rintro ⟨p, hp⟩
      exact absurd (hk.all p (isUnvisited_inMaze hp)) (not_isVisited_of_isUnvisited hp)

/-- Instance of `finish_state` on a small grid, with its hypotheses discharged. -/
theorem finish_state_witness :
    inMaze 2 1 ((0, 0) : Cell) ∧ ValidDraws (fun _ => 0) ∧
    ∃ s evs s1 e, run 2 1 0 0 (fun _ => 0) 3 = .ok (s, evs) ∧
      tick 2 1 0 s = .ok (s1, e) ∧
      (e = StepResult.finished →
        s1 = s ∧
        (∀ p, inMaze 2 1 p → s.CELLS.get (cellIndex 1 p) = some Status.visited) ∧
        s.CELLS.items = List.replicate (2 * 1) (some Status.visited) ∧
        s.current = (0, 0) ∧ s.TRACKER.items = [] ∧ s.TRACKER.isEmpty = true) ∧
      ((∃ p, isUnvisited 2 1 s.CELLS p) → e ≠ StepResult.finished) ∧
      (3 + 1 = 2 * (2 * 1) → e = StepResult.finished) :=
  ⟨by decide, validDraws_zero,
    finish_state 2 1 (0, 0) (fun _ => 0) (by decide) (by decide) (by decide)
      validDraws_zero 3⟩

/-- C3: in a run from `start` (grid at least 1x1, root in the maze, draws in `[0,1)`) there is
a call of `stepOut` that takes the finish branch: the first `2*X*Y - 1` calls succeed without
reporting finish and call number `2*X*Y` reports it. -/
theorem run_reaches_finish (X Y : Nat) (root : Cell) (draws : Nat → ℚ) (hX : 1 ≤ X)
    (hY : 1 ≤ Y) (hroot : inMaze X Y root) (hd : ValidDraws draws) :
    ∃ n s evs, n + 1 = 2 * (X * Y) ∧ run X Y root.1 root.2 draws n = .ok (s, evs) ∧
      StepResult.finished ∉ evs ∧
      tick X Y (draws n) s = .ok (s, StepResult.finished) := by
  have hpos : 0 < X * Y := Nat.mul_pos hX hY
  obtain ⟨s, evs, hrun, hlen, hc, hph⟩ := run_phase hroot hd (2 * (X * Y) - 1)
  have hn : 2 * (X * Y) - 1 + 1 = 2 * (X * Y) := by omega
  rcases hph with ⟨h, _⟩ | ⟨_, hk⟩
  · omega
  · have h0 : 2 * (X * Y) - 1 + 1 - 2 * (X * Y) = 0 := by omega
    rw [h0] at hk
    obtain ⟨ht, _, _, _⟩ := done_step (draws (2 * (X * Y) - 1)) hc hk
    refine ⟨2 * (X * Y) - 1, s, evs, hn, hrun, ?_, ht⟩
    rw [done_finished_mem_iff hk]
    simp

/-- Instance of `run_reaches_finish` on a small grid, with its hypotheses discharged. -/
theorem run_reaches_finish_witness :
    inMaze 2 1 ((0, 0) : Cell) ∧ ValidDraws (fun _ => 0) ∧
    ∃ n s evs, n + 1 = 2 * (2 * 1) ∧ run 2 1 0 0 (fun _ => 0) n = .ok (s, evs) ∧
      StepResult.finished ∉ evs ∧
      tick 2 1 0 s = .ok (s, StepResult.finished) :=
  ⟨by decide, validDraws_zero,
    run_reaches_finish 2 1 (0, 0) (fun _ => 0) (by decide) (by decide) (by decide)
      validDraws_zero⟩

/-- C4: in a run from `start` (root in the maze, draws in `[0,1)`) the root marking of
`start` is applied to an in-maze `'unvisited'` cell, and every call of `stepOut` succeeds and
(1) keeps every `'visited'` entry of `CELLS`, (2) changes an entry only from `'unvisited'` to
`'visited'`, (3) when it carves, applies `updateCurrentCell(to, false)` to a cell `to` that is
in the maze and `'unvisited'` at that moment, (4) when it does not carve, leaves `CELLS` alone
and pushes nothing; the marked cells of the run (the root and the carve targets) are
pairwise distinct. -/
theorem visit_once (X Y : Nat) (root : Cell) (draws : Nat → ℚ)
    (hroot : inMaze X Y root) (hd : ValidDraws draws) (n : Nat) :
    isUnvisited X Y (setupCells X Y CellArray.empty) root ∧
    ∃ s evs s1 e, run X Y root.1 root.2 draws n = .ok (s, evs) ∧
      tick X Y (draws n) s = .ok (s1, e) ∧
      run X Y root.1 root.2 draws (n + 1) = .ok (s1, evs ++ [e]) ∧
      (∀ i, s.CELLS.get i = some Status.visited → s1.CELLS.get i = some Status.visited) ∧
      (∀ i, s1.CELLS.get i ≠ s.CELLS.get i →
        s.CELLS.get i = some Status.unvisited ∧ s1.CELLS.get i = some Status.visited) ∧
      (∀ a b c d, e = StepResult.carved a b c d →
        inMaze X Y (c, d) ∧ s.CELLS.get (cellIndex Y (c, d)) = some Status.unvisited ∧
        s1 = updateCurrentCell Y c d false { s with currentX := c, currentY := d }) ∧
      (e.isCarve = false → s1.CELLS = s.CELLS ∧ s1.TRACKER.size ≤ s.TRACKER.size) ∧
      (discovered root (evs ++ [e])).Nodup := by
  refine ⟨by rw [setupCells_empty]; exact isUnvisited_replicate hroot, ?_⟩
  obtain ⟨s, evs, s1, e, hrun, ht, hrun1, hrel, _, _⟩ := run_step hroot hd n
  obtain ⟨s', evs', hrun', _, hc', _⟩ := run_invariant hroot hd (n + 1)
  have hnd : (discovered root (evs ++ [e])).Nodup := by
    rw [hrun1] at hrun'
    simp only [Except.ok.injEq, Prod.mk.injEq] at hrun'
    rw [hrun'.2]
    exact hc'.seen_nodup
  refine ⟨s, evs, s1, e, hrun, ht, hrun1, ?_⟩
  rcases hrel with ⟨q, hq, hadj, he, hs1⟩ | ⟨q, _, _, _, _, _, he, hs1⟩ |
    ⟨_, _, he, hs1⟩ | ⟨_, _, he, hs1⟩
  · obtain ⟨hqin, hqget⟩ := isUnvisited_iff.1 hq
    refine ⟨?_, ?_, ?_, ?_, hnd⟩
    · intro i hi
      rw [hs1]
      by_cases hiq : i = cellIndex Y q
      · rw [hiq]; exact CellArray.get_set_same _ _ _
      · simp only
        rw [CellArray.get_set_ne _ _ _ _ hiq]; exact hi
    · intro i hi
      rw [hs1] at hi ⊢
      by_cases hiq : i = cellIndex Y q
      · rw [hiq]; exact ⟨hqget, CellArray.get_set_same _ _ _⟩
      · exfalso
        simp only at hi
        rw [CellArray.get_set_ne _ _ _ _ hiq] at hi
        exact hi rfl
    · intro a b c d hcar
      rw [he] at hcar
      simp only [StepResult.carved.injEq] at hcar
      obtain ⟨_, _, rfl, rfl⟩ := hcar
      exact ⟨hqin, hqget, by rw [hs1]; simp [updateCurrentCell, cellIndex]⟩
    · intro h
      rw [he] at h
      simp [StepResult.isCarve] at h
  · refine ⟨?_, ?_, ?_, ?_, hnd⟩
    · intro i hi; rw [hs1]; exact hi
    · intro i hi; rw [hs1] at hi; exact absurd rfl hi
    · intro a b c d hcar; rw [he] at hcar; cases hcar
    · intro _
      rw [hs1]
      exact ⟨rfl, by simp [Stack.size, Stack.pop]⟩
  · refine ⟨?_, ?_, ?_, ?_, hnd⟩
    · intro i hi; rw [hs1]; exact hi
    · intro i hi; rw [hs1] at hi; exact absurd rfl hi
    · intro a b c d hcar; rw [he] at hcar; cases hcar
    · intro _
      rw [hs1]
      exact ⟨rfl, by simp [Stack.size]⟩
  · refine ⟨?_, ?_, ?_, ?_, hnd⟩
    · intro i hi; rw [hs1]; exact hi
    · intro i hi; rw [hs1] at hi; exact absurd rfl hi
    · intro a b c d hcar; rw [he] at hcar; cases hcar
    · intro _
      rw [hs1]
      exact ⟨rfl, le_refl _⟩

/-- Instance of `visit_once` on a small grid, with its hypotheses discharged. -/
theorem visit_once_witness :
    inMaze 2 1 ((0, 0) : Cell) ∧ ValidDraws (fun _ => 0) ∧
    (isUnvisited 2 1 (setupCells 2 1 CellArray.empty) (0, 0) ∧
    ∃ s evs s1 e, run 2 1 0 0 (fun _ => 0) 0 = .ok (s, evs) ∧
      tick 2 1 0 s = .ok (s1, e) ∧
      run 2 1 0 0 (fun _ => 0) (0 + 1) = .ok (s1, evs ++ [e]) ∧
      (∀ i, s.CELLS.get i = some Status.visited → s1.CELLS.get i = some Status.visited) ∧
      (∀ i, s1.CELLS.get i ≠ s.CELLS.get i →
        s.CELLS.get i = some Status.unvisited ∧ s1.CELLS.get i = some Status.visited) ∧
      (∀ a b c d, e = StepResult.carved a b c d →
        inMaze 2 1 (c, d) ∧ s.CELLS.get (cellIndex 1 (c, d)) = some Status.unvisited ∧
        s1 = updateCurrentCell 1 c d false { s with currentX := c, currentY := d }) ∧
      (e.isCarve = false → s1.CELLS = s.CELLS ∧ s1.TRACKER.size ≤ s.TRACKER.size) ∧
      (discovered (0, 0) (evs ++ [e])).Nodup) :=
  ⟨by decide, validDraws_zero, visit_once 2 1 (0, 0) (fun _ => 0) (by decide) validDraws_zero 0⟩

/-- C5: in a run from `start` (root in the maze, draws in `[0,1)`) every call of `stepOut`
succeeds (nothing is thrown); a call that moves (carve or backtrack) goes from the old
current cell to the new one, the two differ by exactly one unit in exactly one axis, and
`findTheWall` returns a wall for them instead of throwing; a call that does not move keeps
the current cell. -/
theorem moves_adjacent (X Y : Nat) (root : Cell) (draws : Nat → ℚ)
    (hroot : inMaze X Y root) (hd : ValidDraws draws) (n : Nat) :
    ∃ s evs s1 e, run X Y root.1 root.2 draws n = .ok (s, evs) ∧
      tick X Y (draws n) s = .ok (s1, e) ∧
      run X Y root.1 root.2 draws (n + 1) = .ok (s1, evs ++ [e]) ∧
      (e = StepResult.carved s.currentX s.currentY s1.currentX s1.currentY ∨
       e = StepResult.backtracked s.currentX s.currentY s1.currentX s1.currentY ∨
       (e = StepResult.popped ∧ s1.current = s.current) ∨
       (e = StepResult.finished ∧ s1.current = s.current)) ∧
      ((e.isCarve = true ∨ e.isBacktrack = true) →
        adjacent s.current s1.current ∧
        (s.currentX - s1.currentX).natAbs + (s.currentY - s1.currentY).natAbs = 1 ∧
        ∃ w, findTheWall s.currentX s.currentY s1.currentX s1.currentY = .ok w) := by
  obtain ⟨s, evs, s1, e, hrun, ht, hrun1, hrel, _, _⟩ := run_step hroot hd n
  refine ⟨s, evs, s1, e, hrun, ht, hrun1, ?_⟩
  rcases hrel with ⟨q, _, hadj, he, hs1⟩ | ⟨q, _, hadj, _, _, _, he, hs1⟩ |
    ⟨_, _, he, hs1⟩ | ⟨_, _, he, hs1⟩
  · subst hs1
    exact ⟨Or.inl he, fun _ => ⟨hadj, hadj, findTheWall_ok_of_adjacent hadj⟩⟩
  · subst hs1
    exact ⟨Or.inr (Or.inl he), fun _ => ⟨hadj, hadj, findTheWall_ok_of_adjacent hadj⟩⟩
  · subst hs1
    refine ⟨Or.inr (Or.inr (Or.inl ⟨he, rfl⟩)), ?_⟩
    intro h
    rw [he] at h
    simp [StepResult.isCarve, StepResult.isBacktrack] at h
  · subst hs1
    refine ⟨Or.inr (Or.inr (Or.inr ⟨he, rfl⟩)), ?_⟩
    intro h
    rw [he] at h
    simp [StepResult.isCarve, StepResult.isBacktrack] at h

/-- Instance of `moves_adjacent` on a small grid, with its hypotheses discharged. -/
theorem moves_adjacent_witness :
    inMaze 2 1 ((0, 0) : Cell) ∧ ValidDraws (fun _ => 0) ∧
    ∃ s evs s1 e, run 2 1 0 0 (fun _ => 0) 0 = .ok (s, evs) ∧
      tick 2 1 0 s = .ok (s1, e) ∧
      run 2 1 0 0 (fun _ => 0) (0 + 1) = .ok (s1, evs ++ [e]) ∧
      (e = StepResult.carved s.currentX s.currentY s1.currentX s1.currentY ∨
       e = StepResult.backtracked s.currentX s.currentY s1.currentX s1.currentY ∨
       (e = StepResult.popped ∧ s1.current = s.current) ∨
       (e = StepResult.finished ∧ s1.current = s.current)) ∧
      ((e.isCarve = true ∨ e.isBacktrack = true) →
        adjacent s.current s1.current ∧
        (s.currentX - s1.currentX).natAbs + (s.currentY - s1.currentY).natAbs = 1 ∧
        ∃ w, findTheWall s.currentX s.currentY s1.currentX s1.currentY = .ok w) :=
  ⟨by decide, validDraws_zero,
    moves_adjacent 2 1 (0, 0) (fun _ => 0) (by decide) validDraws_zero 0⟩

/-- C6, as stated, fails on the 1x1 grid: after the first call (which pops the root entry and
reports `popped`, not finish) the engine is in a reachable state before any finish report,
and its stack is empty, so it has neither the root as bottom entry nor the index of the
current cell as top entry. -/
theorem stack_empty_before_finish :
    run 1 1 0 0 (fun _ => 0) 1 =
      .ok (⟨⟨[some Status.visited], []⟩, ⟨[]⟩, 0, 0⟩, [StepResult.popped]) ∧
    StepResult.finished ∉ [StepResult.popped] ∧
    (⟨[]⟩ : Stack).items.head? ≠ some (cellIndex 1 (0, 0)) ∧
    (⟨[]⟩ : Stack).peek ≠ some (cellIndex 1 (0, 0)) := by
  refine ⟨?_, by decide, by decide, by decide⟩
  have h0 : run 1 1 0 0 (fun _ => 0) 0 = .ok (start 1 1 0 0, []) := rfl
  have ht : tick 1 1 ((fun _ => (0 : ℚ)) 0) (start 1 1 0 0) =
      .ok (⟨⟨[some Status.visited], []⟩, ⟨[]⟩, 0, 0⟩, StepResult.popped) :=
    tick_pop_last 0 (start 1 1 0 0) (by decide) (by decide)
  exact run_succ_of h0 ht

/-- C6 (amended): in every state of a run from `start` (root in the maze, draws in `[0,1)`)
whose stack is non-empty, which is every state before the root entry is popped, the stack
read bottom-to-top is the list of the indices of a path of cells without repetition: it
starts at the root, ends at the current cell (the top entry is `Y*currentX + currentY`),
and consecutive cells are 4-neighbours joined by a carved edge; in the remaining states the
root entry has been popped, the stack is empty and the engine stands on the root. -/
theorem stack_is_path (X Y : Nat) (root : Cell) (draws : Nat → ℚ)
    (hroot : inMaze X Y root) (hd : ValidDraws draws) (n : Nat) :
    ∃ s evs, run X Y root.1 root.2 draws n = .ok (s, evs) ∧
      (StepResult.popped ∉ evs → s.TRACKER.items ≠ []) ∧
      (s.TRACKER.items ≠ [] →
        ∃ path : List Cell, s.TRACKER.items = path.map (cellIndex Y) ∧
          path.head? = some root ∧ path.getLast? = some s.current ∧
          s.TRACKER.items.head? = some (cellIndex Y root) ∧
          s.TRACKER.peek = some ((Y : Int) * s.currentX + s.currentY) ∧
          path.Nodup ∧ (∀ p ∈ path, inMaze X Y p) ∧
          path.Chain' (fun a b => adjacent a b ∧ (a, b) ∈ carves evs)) ∧
      (s.TRACKER.items = [] → StepResult.popped ∈ evs ∧ s.current = root) := by
  obtain ⟨s, evs, hrun, _, hc, hph⟩ := run_invariant hroot hd n
  refine ⟨s, evs, hrun, ?_⟩
  rcases hph with ⟨rpath, hr⟩ | ⟨k, hk⟩
  · have hne : rpath ≠ [] := by
      intro h
      have := hr.top
      rw [h] at this
      simp at this
    have hitems : s.TRACKER.items ≠ [] := by
      rw [hr.stack]
      simpa using hne
    refine ⟨fun _ => hitems, fun _ => ⟨rpath.reverse, ?_, ?_, ?_, ?_, ?_, ?_, ?_, ?_⟩,
      fun h => absurd h hitems⟩
    · rw [hr.stack, List.map_reverse]
    · rw [List.head?_reverse]; exact hr.bottom
    · rw [List.getLast?_reverse]; exact hr.top
    · rw [hr.stack, List.head?_reverse, List.getLast?_map, hr.bottom]; rfl
    · rw [Stack.peek, hr.stack, List.getLast?_reverse, List.head?_map, hr.top]; rfl
    · exact List.nodup_reverse.2 hr.nodup
    · intro p hp
      exact isVisited_inMaze (hr.on_path p (List.mem_reverse.1 hp))
    · rw [List.chain'_reverse]
      exact hr.chain
  · obtain ⟨pre, hpre, _, _⟩ := hk.shape
    have hpop : StepResult.popped ∈ evs := by
      rw [hpre]
      exact List.mem_append_right _ (List.mem_cons_self _ _)
    exact ⟨fun h => absurd hpop h, fun h => absurd hk.stack h, fun _ => ⟨hpop, hk.at_root⟩⟩

/-- Instance of `stack_is_path` on a small grid, with its hypotheses discharged. -/
theorem stack_is_path_witness :
    inMaze 2 1 ((0, 0) : Cell) ∧ ValidDraws (fun _ => 0) ∧
    ∃ s evs, run 2 1 0 0 (fun _ => 0) 1 = .ok (s, evs) ∧
      (StepResult.popped ∉ evs → s.TRACKER.items ≠ []) ∧
      (s.TRACKER.items ≠ [] →
        ∃ path : List Cell, s.TRACKER.items = path.map (cellIndex 1) ∧
          path.head? = some (0, 0) ∧ path.getLast? = some s.current ∧
          s.TRACKER.items.head? = some (cellIndex 1 (0, 0)) ∧
          s.TRACKER.peek = some (((1 : Nat) : Int) * s.currentX + s.currentY) ∧
          path.Nodup ∧ (∀ p ∈ path, inMaze 2 1 p) ∧
          path.Chain' (fun a b => adjacent a b ∧ (a, b) ∈ carves evs)) ∧
      (s.TRACKER.items = [] → StepResult.popped ∈ evs ∧ s.current = (0, 0)) :=
  ⟨by decide, validDraws_zero,
    stack_is_path 2 1 (0, 0) (fun _ => 0) (by decide) validDraws_zero 1⟩

/-- C7: once a call of `stepOut` has reported finish (which changed nothing), any number of
further calls, with any draws, report finish each time and leave the engine (`CELLS`, the
stack and the current position) as it is. -/
theorem finished_idempotent (X Y : Nat) (r : ℚ) (s s1 : Engine)
    (h : tick X Y r s = .ok (s1, StepResult.finished)) (draws : Nat → ℚ) (n : Nat) :
    s1 = s ∧ runFrom X Y s1 draws n = .ok (s1, List.replicate n StepResult.finished) := by
  obtain ⟨hU, hs, rfl⟩ := tick_eq_finished_iff.1 h
  refine ⟨rfl, ?_⟩
  induction n with
  | zero => rfl
  | succ n ih =>
    rw [runFrom_succ, ih]
    simp only [tick_finish (draws n) s1 hU hs]
    rw [List.replicate_succ']

/-- Instance of `finished_idempotent` on a small grid, with its hypotheses discharged. -/
theorem finished_idempotent_witness :
    tick 1 1 0 ⟨⟨[some Status.visited], []⟩, ⟨[]⟩, 0, 0⟩ =
      .ok (⟨⟨[some Status.visited], []⟩, ⟨[]⟩, 0, 0⟩, StepResult.finished) ∧
    ((⟨⟨[some Status.visited], []⟩, ⟨[]⟩, 0, 0⟩ : Engine) =
        ⟨⟨[some Status.visited], []⟩, ⟨[]⟩, 0, 0⟩ ∧
      runFrom 1 1 ⟨⟨[some Status.visited], []⟩, ⟨[]⟩, 0, 0⟩ (fun k => 1 / (k + 2)) 3 =
        .ok (⟨⟨[some Status.visited], []⟩, ⟨[]⟩, 0, 0⟩,
          List.replicate 3 StepResult.finished)) :=
  ⟨tick_finish 0 _ (by decide) (by decide),
    finished_idempotent 1 1 0 _ _ (tick_finish 0 _ (by decide) (by decide))
      (fun k => 1 / (k + 2)) 3⟩

/-- With a single unvisited neighbour every draw in `[0,1)` selects it. -/
theorem tick_carve_single {X Y : Nat} {r : ℚ} (hr : 0 ≤ r ∧ r < 1) (s : Engine) (m : Neighbor)
    (hU : (findValidNeighbor X Y s.CELLS s.currentX s.currentY).unvisited = [m]) :
    tick X Y r s = .ok
      (⟨s.CELLS.set (cellIndex Y (m.x, m.y)) Status.visited,
        s.TRACKER.push (cellIndex Y (m.x, m.y)), m.x, m.y⟩,
       StepResult.carved s.currentX s.currentY m.x m.y) := by
  obtain ⟨n, _, hn, ht⟩ := tick_carve (X := X) (Y := Y) hr s (by rw [hU]; simp)
  rw [hU, List.mem_singleton] at hn
  rw [← hn]
  exact ht

/-- C8, as stated, fails on the 1x1 grid with root `(0,0)`: the current cell has no unvisited
neighbour and the stack holds exactly one entry, yet the first call after `start` pops the
entry and reports `popped`; it does not report finish. -/
theorem first_step_1x1_not_finished :
    (findValidNeighbor 1 1 (start 1 1 0 0).CELLS 0 0).unvisited = [] ∧
    (start 1 1 0 0).TRACKER.size = 1 ∧
    tick 1 1 0 (start 1 1 0 0) =
      .ok (⟨⟨[some Status.visited], []⟩, ⟨[]⟩, 0, 0⟩, StepResult.popped) ∧
    ¬ ∃ s, tick 1 1 0 (start 1 1 0 0) = .ok (s, StepResult.finished) := by
  have ht : tick 1 1 0 (start 1 1 0 0) =
      .ok (⟨⟨[some Status.visited], []⟩, ⟨[]⟩, 0, 0⟩, StepResult.popped) :=
    tick_pop_last 0 (start 1 1 0 0) (by decide) (by decide)
  refine ⟨by decide, by decide, ht, ?_⟩
  rintro ⟨s, hs⟩
  rw [ht] at hs
  simp at hs

/-- C8 (amended): whenever the current cell has no unvisited neighbour and the stack holds
exactly one entry, that call of `stepOut` pops the entry, moves nothing and does not report
finish; the call after it, whatever its draw, reports finish. In particular on a 1x1 grid
with root `(0,0)` the first call after `start` pops the root entry and the second reports
finish. -/
theorem pop_then_finish (X Y : Nat) (r r1 : ℚ) (s : Engine)
    (hU : (findValidNeighbor X Y s.CELLS s.currentX s.currentY).unvisited = [])
    (hsize : s.TRACKER.size = 1) :
    tick X Y r s = .ok (⟨s.CELLS, ⟨[]⟩, s.currentX, s.currentY⟩, StepResult.popped) ∧
    tick X Y r1 ⟨s.CELLS, ⟨[]⟩, s.currentX, s.currentY⟩ =
      .ok (⟨s.CELLS, ⟨[]⟩, s.currentX, s.currentY⟩, StepResult.finished) ∧
    (∀ draws : Nat → ℚ, ∃ s2, run 1 1 0 0 draws 2 =
        .ok (s2, [StepResult.popped, StepResult.finished])) := by
  have h1 := tick_pop_last (X := X) (Y := Y) r s hU hsize
  have h2 : ∀ r1, tick X Y r1 ⟨s.CELLS, ⟨[]⟩, s.currentX, s.currentY⟩ =
      .ok (⟨s.CELLS, ⟨[]⟩, s.currentX, s.currentY⟩, StepResult.finished) :=
    fun r1 => tick_finish r1 _ hU rfl
  refine ⟨h1, h2 r1, ?_⟩
  intro draws
  have h0 : run 1 1 0 0 draws 0 = .ok (start 1 1 0 0, []) := rfl
  have hU1 : (findValidNeighbor 1 1 (start 1 1 0 0).CELLS (start 1 1 0 0).currentX
      (start 1 1 0 0).currentY).unvisited = [] := by decide
  have hr1 := run_succ_of h0 (tick_pop_last (X := 1) (Y := 1) (draws 0) _ hU1 (by decide))
  have hr2 := run_succ_of hr1 (tick_finish (X := 1) (Y := 1) (draws 1) _ hU1 rfl)
  exact ⟨_, hr2⟩

/-- Instance of `pop_then_finish` on a small grid, with its hypotheses discharged. -/
theorem pop_then_finish_witness :
    (findValidNeighbor 1 1 (start 1 1 0 0).CELLS (start 1 1 0 0).currentX
      (start 1 1 0 0).currentY).unvisited = [] ∧
    (start 1 1 0 0).TRACKER.size = 1 ∧
    (tick 1 1 0 (start 1 1 0 0) =
      .ok (⟨(start 1 1 0 0).CELLS, ⟨[]⟩, (start 1 1 0 0).currentX, (start 1 1 0 0).currentY⟩,
        StepResult.popped) ∧
    tick 1 1 0 ⟨(start 1 1 0 0).CELLS, ⟨[]⟩, (start 1 1 0 0).currentX,
        (start 1 1 0 0).currentY⟩ =
      .ok (⟨(start 1 1 0 0).CELLS, ⟨[]⟩, (start 1 1 0 0).currentX, (start 1 1 0 0).currentY⟩,
        StepResult.finished) ∧
    (∀ draws : Nat → ℚ, ∃ s2, run 1 1 0 0 draws 2 =
        .ok (s2, [StepResult.popped, StepResult.finished]))) :=
  ⟨by decide, by decide, pop_then_finish 1 1 0 0 (start 1 1 0 0) (by decide) (by decide)⟩

/-- C10, as stated, fails: on the 1x1 grid after `start` the cell `(0,0)` is already
`'visited'`, yet `updateCurrentCell(0, 0, false)` returns normally with the index pushed a
second time; and for the out-of-bounds position `(0,2)` of a 1x2 grid it returns normally
with `CELLS` extended to key `2` and the index pushed. -/
theorem mark_visited_unchecked :
    isVisited 1 1 (start 1 1 0 0).CELLS (0, 0) ∧
    updateCurrentCell 1 0 0 false (start 1 1 0 0) =
      ⟨⟨[some Status.visited], []⟩, ⟨[0, 0]⟩, 0, 0⟩ ∧
    updateCurrentCell 1 0 0 false (start 1 1 0 0) ≠ start 1 1 0 0 ∧
    ¬ inMaze 1 2 (0, 2) ∧
    updateCurrentCell 2 0 2 false (start 1 2 0 0) =
      ⟨⟨[some Status.visited, some Status.unvisited, some Status.visited], []⟩,
        ⟨[0, 2]⟩, 0, 0⟩ ∧
    updateCurrentCell 2 0 2 false (start 1 2 0 0) ≠ start 1 2 0 0 := by
  refine ⟨by decide, by decide, by decide, by decide, by decide, by decide⟩

/-- C10 (amended): `updateCurrentCell(x, y, false)` checks nothing and never fails: for all
integers `x`, `y` for which `Y`, `x`, `y`, `Y*x` and `Y*x + y` are safe integers (absolute
value below `2^53`, so that the doubles of the source compute the index exactly) and for
every state, it stores `'visited'` under key `Y*x + y` of `CELLS`, leaves the value under
every other key as it was, pushes `Y*x + y` onto the stack and keeps the current position,
also when `(x,y)` is outside the grid or the cell is already `'visited'`. -/
theorem updateCurrentCell_marks (Y : Nat) (x y : Int) (s : Engine)
    (_hY : safeInteger (Y : Int)) (_hx : safeInteger x) (_hy : safeInteger y)
    (_hprod : safeInteger ((Y : Int) * x)) (_hindex : safeInteger ((Y : Int) * x + y)) :
    (updateCurrentCell Y x y false s).CELLS.get ((Y : Int) * x + y) = some Status.visited ∧
    (∀ j, j ≠ (Y : Int) * x + y →
      (updateCurrentCell Y x y false s).CELLS.get j = s.CELLS.get j) ∧
    (updateCurrentCell Y x y false s).TRACKER.items = s.TRACKER.items ++ [(Y : Int) * x + y] ∧
    (updateCurrentCell Y x y false s).currentX = s.currentX ∧
    (updateCurrentCell Y x y false s).currentY = s.currentY := by
  simp only [updateCurrentCell, Bool.not_false, if_true, Stack.push, and_true]
  exact ⟨CellArray.get_set_same _ _ _, fun j hj => CellArray.get_set_ne _ _ _ _ hj⟩

/-- Instance of `updateCurrentCell_marks` at the out-of-bounds position `(0,2)` of the 1x2
grid after `start`. -/
theorem updateCurrentCell_marks_witness :
    safeInteger ((2 : Nat) : Int) ∧ safeInteger 0 ∧ safeInteger 2 ∧
    safeInteger (((2 : Nat) : Int) * 0) ∧ safeInteger (((2 : Nat) : Int) * 0 + 2) ∧
    ((updateCurrentCell 2 0 2 false (start 1 2 0 0)).CELLS.get (((2 : Nat) : Int) * 0 + 2) =
      some Status.visited ∧
    (∀ j, j ≠ ((2 : Nat) : Int) * 0 + 2 →
      (updateCurrentCell 2 0 2 false (start 1 2 0 0)).CELLS.get j =
        (start 1 2 0 0).CELLS.get j) ∧
    (updateCurrentCell 2 0 2 false (start 1 2 0 0)).TRACKER.items =
      (start 1 2 0 0).TRACKER.items ++ [((2 : Nat) : Int) * 0 + 2] ∧
    (updateCurrentCell 2 0 2 false (start 1 2 0 0)).currentX = (start 1 2 0 0).currentX ∧
    (updateCurrentCell 2 0 2 false (start 1 2 0 0)).currentY = (start 1 2 0 0).currentY) :=
  ⟨by decide, by decide, by decide, by decide, by decide,
    updateCurrentCell_marks 2 0 2 (start 1 2 0 0) (by decide) (by decide) (by decide)
      (by decide) (by decide)⟩

/-- The first five calls on the 3x1 grid with root `(0,0)`: two carves, two backtracks and
the pop of the root entry. -/
theorem run_3x1_five {draws : Nat → ℚ} (hd : ValidDraws draws) :
    run 3 1 0 0 draws 5 =
      .ok (⟨⟨[some Status.visited, some Status.visited, some Status.visited], []⟩, ⟨[]⟩, 0, 0⟩,
        [StepResult.carved 0 0 1 0, StepResult.carved 1 0 2 0,
         StepResult.backtracked 2 0 1 0, StepResult.backtracked 1 0 0 0,
         StepResult.popped]) := by
  have h0 : run 3 1 0 0 draws 0 =
      .ok (⟨⟨[some Status.visited, some Status.unvisited, some Status.unvisited], []⟩,
        ⟨[0]⟩, 0, 0⟩, []) := rfl
  have t1 : tick 3 1 (draws 0)
      ⟨⟨[some Status.visited, some Status.unvisited, some Status.unvisited], []⟩, ⟨[0]⟩, 0, 0⟩ =
      .ok (⟨⟨[some Status.visited, some Status.visited, some Status.unvisited], []⟩,
        ⟨[0, 1]⟩, 1, 0⟩, StepResult.carved 0 0 1 0) :=
    tick_carve_single (X := 3) (Y := 1) (hd 0) _ ⟨1, 0, some Status.unvisited⟩ (by decide)
  have h1 := run_succ_of h0 t1
  have t2 : tick 3 1 (draws 1)
      ⟨⟨[some Status.visited, some Status.visited, some Status.unvisited], []⟩,
        ⟨[0, 1]⟩, 1, 0⟩ =
      .ok (⟨⟨[some Status.visited, some Status.visited, some Status.visited], []⟩,
        ⟨[0, 1, 2]⟩, 2, 0⟩, StepResult.carved 1 0 2 0) :=
    tick_carve_single (X := 3) (Y := 1) (hd 1) _ ⟨2, 0, some Status.unvisited⟩ (by decide)
  have h2 := run_succ_of h1 t2
  have t3 : tick 3 1 (draws 2)
      ⟨⟨[some Status.visited, some Status.visited, some Status.visited], []⟩,
        ⟨[0, 1, 2]⟩, 2, 0⟩ =
      .ok (⟨⟨[some Status.visited, some Status.visited, some Status.visited], []⟩,
        ⟨[0, 1]⟩, 1, 0⟩, StepResult.backtracked 2 0 1 0) :=
    tick_backtrack (X := 3) (Y := 1) (draws 2) _ (1, 0) (by decide) (by decide) (by decide)
      (by decide) (by decide)
  have h3 := run_succ_of h2 t3
  have t4 : tick 3 1 (draws 3)
      ⟨⟨[some Status.visited, some Status.visited, some Status.visited], []⟩,
        ⟨[0, 1]⟩, 1, 0⟩ =
      .ok (⟨⟨[some Status.visited, some Status.visited, some Status.visited], []⟩,
        ⟨[0]⟩, 0, 0⟩, StepResult.backtracked 1 0 0 0) :=
    tick_backtrack (X := 3) (Y := 1) (draws 3) _ (0, 0) (by decide) (by decide) (by decide)
      (by decide) (by decide)
  have h4 := run_succ_of h3 t4
  have t5 : tick 3 1 (draws 4)
      ⟨⟨[some Status.visited, some Status.visited, some Status.visited], []⟩,
        ⟨[0]⟩, 0, 0⟩ =
      .ok (⟨⟨[some Status.visited, some Status.visited, some Status.visited], []⟩,
        ⟨[]⟩, 0, 0⟩, StepResult.popped) :=
    tick_pop_last (X := 3) (Y := 1) (draws 4) _ (by decide) (by decide)
  exact run_succ_of h4 t5

/-- C9, as stated, fails at its fifth step: on the 3x1 grid with root `(0,0)` (draws all `0`)
the fifth call pops the root entry and reports `popped`, not finish. -/
theorem scenario_3x1_fifth_step :
    run 3 1 0 0 (fun _ => 0) 5 =
      .ok (⟨⟨[some Status.visited, some Status.visited, some Status.visited], []⟩, ⟨[]⟩, 0, 0⟩,
        [StepResult.carved 0 0 1 0, StepResult.carved 1 0 2 0,
         StepResult.backtracked 2 0 1 0, StepResult.backtracked 1 0 0 0,
         StepResult.popped]) ∧
    [StepResult.carved 0 0 1 0, StepResult.carved 1 0 2 0,
      StepResult.backtracked 2 0 1 0, StepResult.backtracked 1 0 0 0,
      StepResult.popped].getLast? ≠ some StepResult.finished :=
  ⟨run_3x1_five validDraws_zero, by decide⟩

/-- C9 (amended): on the 3x1 grid (`X = 3`, `Y = 1`) with root `(0,0)`, for every sequence of
draws in `[0,1)` the run is exactly: call 1 carves `(0,0) -> (1,0)`; call 2 carves
`(1,0) -> (2,0)`; call 3 backtracks `(2,0) -> (1,0)`; call 4 backtracks `(1,0) -> (0,0)`;
call 5 pops the root entry without moving or reporting; call 6 reports finish. -/
theorem scenario_3x1 (draws : Nat → ℚ) (hd : ValidDraws draws) :
    run 3 1 0 0 draws 6 =
      .ok (⟨⟨[some Status.visited, some Status.visited, some Status.visited], []⟩, ⟨[]⟩, 0, 0⟩,
        [StepResult.carved 0 0 1 0, StepResult.carved 1 0 2 0,
         StepResult.backtracked 2 0 1 0, StepResult.backtracked 1 0 0 0,
         StepResult.popped, StepResult.finished]) :=
  run_succ_of (run_3x1_five hd)
    (tick_finish (X := 3) (Y := 1) (draws 5) _ (by decide) (by decide))

/-- Instance of `scenario_3x1` on a small grid, with its hypotheses discharged. -/
theorem scenario_3x1_witness :
    ValidDraws (fun k => 1 / ((k : ℚ) + 2)) ∧
    run 3 1 0 0 (fun k => 1 / ((k : ℚ) + 2)) 6 =
      .ok (⟨⟨[some Status.visited, some Status.visited, some Status.visited], []⟩, ⟨[]⟩, 0, 0⟩,
        [StepResult.carved 0 0 1 0, StepResult.carved 1 0 2 0,
         StepResult.backtracked 2 0 1 0, StepResult.backtracked 1 0 0 0,
         StepResult.popped, StepResult.finished]) :=
  have h : ValidDraws (fun k => 1 / ((k : ℚ) + 2)) := by
    intro k
    have hk : (0 : ℚ) ≤ (k : ℚ) := Nat.cast_nonneg k
    constructor
    · positivity
    · rw [div_lt_one (by linarith)]
      linarith
  ⟨h, scenario_3x1 _ h⟩

/-! ## Properties of the operations and further properties of a run -/

/-- C11: for all integers `x`, `y` and every grid state whose `CELLS` has length `X*Y` and
holds one of the two strings at every position, `checkValidation(x,y)` returns `null`
exactly when `(x,y)` is outside `[0,X) x [0,Y)`; for a position inside it returns
`'unvisited'` exactly when the stored entry `CELLS[Y*x+y]` is `'unvisited'` and `'visited'`
exactly when it is `'visited'`; the result is exactly one of the three statuses. (The
function only reads `CELLS`: it has no engine state in its result.) -/
theorem checkValidation_classifies (X Y : Nat) (c : CellArray) (x y : Int)
    (hlen : c.items.length = X * Y) (hfull : ∀ o ∈ c.items, o ≠ none) :
    (checkValidation X Y c x y = none ↔ ¬ (0 ≤ x ∧ x < X ∧ 0 ≤ y ∧ y < Y)) ∧
    ((0 ≤ x ∧ x < X ∧ 0 ≤ y ∧ y < Y) →
      (checkValidation X Y c x y = some Status.unvisited ↔
        c.get ((Y : Int) * x + y) = some Status.unvisited) ∧
      (checkValidation X Y c x y = some Status.visited ↔
        c.get ((Y : Int) * x + y) = some Status.visited) ∧
      c.get ((Y : Int) * x + y) = c.items[((Y : Int) * x + y).toNat]?.join) ∧
    ((checkValidation X Y c x y = none ∧ checkValidation X Y c x y ≠ some Status.unvisited ∧
        checkValidation X Y c x y ≠ some Status.visited) ∨
     (checkValidation X Y c x y ≠ none ∧ checkValidation X Y c x y = some Status.unvisited ∧
        checkValidation X Y c x y ≠ some Status.visited) ∨
     (checkValidation X Y c x y ≠ none ∧ checkValidation X Y c x y ≠ some Status.unvisited ∧
        checkValidation X Y c x y = some Status.visited)) := by
  refine ⟨checkValidation_eq_none_iff X Y c x y, ?_, ?_⟩
  · intro hin
    have hp : inMaze X Y (x, y) := hin
    have h0 := cellIndex_nonneg hp
    have h1 := cellIndex_lt hp
    have h2 : (cellIndex Y (x, y)).toNat < c.items.length := by
      rw [hlen]
      have : ((X * Y : Nat) : Int) = (X : Int) * (Y : Int) := by push_cast; rfl
      omega
    have hget := get_eq_getElem h0 h2
    have hne : c.items[(cellIndex Y (x, y)).toNat] ≠ none := hfull _ (List.getElem_mem _)
    have hsome : ∃ v, c.get (cellIndex Y (x, y)) = some v := by
      cases hv : c.items[(cellIndex Y (x, y)).toNat] with
      | none => exact absurd hv hne
      | some v => exact ⟨v, by rw [hget, hv]⟩
    have hjoin : c.get (cellIndex Y (x, y)) = c.items[(cellIndex Y (x, y)).toNat]?.join := by
      rw [hget, List.getElem?_eq_getElem h2]
      rfl
    rw [checkValidation_of_inMaze c hp]
    simp only [cellIndex] at hsome hjoin ⊢
    obtain ⟨v, hv⟩ := hsome
    refine ⟨?_, ?_, hjoin⟩
    · cases v <;> simp [hv]
    · cases v <;> simp [hv]
  · cases h : checkValidation X Y c x y with
    | none => simp
    | some v => cases v <;> simp

/-- Instance of `checkValidation_classifies` on the 2x1 grid after `start`. -/
theorem checkValidation_classifies_witness :
    (start 2 1 0 0).CELLS.items.length = 2 * 1 ∧
    (∀ o ∈ (start 2 1 0 0).CELLS.items, o ≠ none) ∧
    ((checkValidation 2 1 (start 2 1 0 0).CELLS 1 0 = none ↔
        ¬ (0 ≤ (1 : Int) ∧ (1 : Int) < (2 : Nat) ∧ 0 ≤ (0 : Int) ∧ (0 : Int) < (1 : Nat))) ∧
    ((0 ≤ (1 : Int) ∧ (1 : Int) < (2 : Nat) ∧ 0 ≤ (0 : Int) ∧ (0 : Int) < (1 : Nat)) →
      (checkValidation 2 1 (start 2 1 0 0).CELLS 1 0 = some Status.unvisited ↔
        (start 2 1 0 0).CELLS.get (((1 : Nat) : Int) * 1 + 0) = some Status.unvisited) ∧
      (checkValidation 2 1 (start 2 1 0 0).CELLS 1 0 = some Status.visited ↔
        (start 2 1 0 0).CELLS.get (((1 : Nat) : Int) * 1 + 0) = some Status.visited) ∧
      (start 2 1 0 0).CELLS.get (((1 : Nat) : Int) * 1 + 0) =
        (start 2 1 0 0).CELLS.items[(((1 : Nat) : Int) * 1 + 0).toNat]?.join) ∧
    ((checkValidation 2 1 (start 2 1 0 0).CELLS 1 0 = none ∧
        checkValidation 2 1 (start 2 1 0 0).CELLS 1 0 ≠ some Status.unvisited ∧
        checkValidation 2 1 (start 2 1 0 0).CELLS 1 0 ≠ some Status.visited) ∨
     (checkValidation 2 1 (start 2 1 0 0).CELLS 1 0 ≠ none ∧
        checkValidation 2 1 (start 2 1 0 0).CELLS 1 0 = some Status.unvisited ∧
        checkValidation 2 1 (start 2 1 0 0).CELLS 1 0 ≠ some Status.visited) ∨
     (checkValidation 2 1 (start 2 1 0 0).CELLS 1 0 ≠ none ∧
        checkValidation 2 1 (start 2 1 0 0).CELLS 1 0 ≠ some Status.unvisited ∧
        checkValidation 2 1 (start 2 1 0 0).CELLS 1 0 = some Status.visited))) :=
  ⟨by decide, by decide,
    checkValidation_classifies 2 1 (start 2 1 0 0).CELLS 1 0 (by decide) (by decide)⟩

/-- C12: for all integers `x`, `y`, `neighborType(x,y)` returns exactly four records in the
order left, right, up, down, with coordinates `(x-1,y)`, `(x+1,y)`, `(x,y-1)`, `(x,y+1)`, and
the value of each record is `checkValidation` of that record's coordinates. -/
theorem neighborType_records (X Y : Nat) (c : CellArray) (x y : Int) :
    (neighborType X Y c x y).length = 4 ∧
    (neighborType X Y c x y).map (fun n => (n.x, n.y)) =
      [(x - 1, y), (x + 1, y), (x, y - 1), (x, y + 1)] ∧
    (∀ n ∈ neighborType X Y c x y, n.value = checkValidation X Y c n.x n.y) ∧
    neighborType X Y c x y =
      [⟨x - 1, y, checkValidation X Y c (x - 1) y⟩, ⟨x + 1, y, checkValidation X Y c (x + 1) y⟩,
       ⟨x, y - 1, checkValidation X Y c x (y - 1)⟩, ⟨x, y + 1, checkValidation X Y c x (y + 1)⟩] := by
  refine ⟨rfl, rfl, ?_, rfl⟩
  intro n hn
  exact (mem_neighborType.1 hn).1

/-- C13: the linear index `Y*x + y` (the key of `CELLS` read by `checkValidation`, the value
pushed by `updateCurrentCell` and matched by `backTrack`) is a bijection from the in-bounds
coordinates onto `0 .. X*Y-1`: for in-bounds `(x,y)` and `(x',y')`, `0 <= Y*x+y < X*Y`, equal
indices imply equal coordinates, and every integer of `0 .. X*Y-1` is the index of an
in-bounds position. -/
theorem cellIndex_bijection (X Y : Nat) (x y x1 y1 : Int) (s : Engine)
    (hp : inMaze X Y (x, y)) (hq : inMaze X Y (x1, y1)) :
    cellIndex Y (x, y) = (Y : Int) * x + y ∧
    (updateCurrentCell Y x y false s).TRACKER.peek = some ((Y : Int) * x + y) ∧
    0 ≤ (Y : Int) * x + y ∧ (Y : Int) * x + y < (X : Int) * (Y : Int) ∧
    ((Y : Int) * x + y = (Y : Int) * x1 + y1 → x = x1 ∧ y = y1) ∧
    (∀ i : Int, 0 ≤ i → i < (X : Int) * (Y : Int) →
      ∃ a b : Int, inMaze X Y (a, b) ∧ (Y : Int) * a + b = i) := by
  refine ⟨rfl, by simp [updateCurrentCell, Stack.push, Stack.peek], cellIndex_nonneg hp,
    cellIndex_lt hp, ?_, ?_⟩
  · intro h
    have := cellIndex_inj hp hq h
    simpa using this
  · intro i h0 h1
    have hi : i.toNat < X * Y := by
      have : ((X * Y : Nat) : Int) = (X : Int) * (Y : Int) := by push_cast; rfl
      omega
    obtain ⟨p, hpin, hpi⟩ := exists_cell_of_index hi
    refine ⟨p.1, p.2, hpin, ?_⟩
    simp only [cellIndex] at hpi
    rw [hpi]
    omega

/-- Instance of `cellIndex_bijection` on the 3x2 grid. -/
theorem cellIndex_bijection_witness :
    inMaze 3 2 (2, 1) ∧ inMaze 3 2 (1, 0) ∧
    (cellIndex 2 (2, 1) = ((2 : Nat) : Int) * 2 + 1 ∧
    (updateCurrentCell 2 2 1 false (start 3 2 0 0)).TRACKER.peek =
      some (((2 : Nat) : Int) * 2 + 1) ∧
    0 ≤ ((2 : Nat) : Int) * 2 + 1 ∧ ((2 : Nat) : Int) * 2 + 1 < ((3 : Nat) : Int) * ((2 : Nat) : Int) ∧
    (((2 : Nat) : Int) * 2 + 1 = ((2 : Nat) : Int) * 1 + 0 → (2 : Int) = 1 ∧ (1 : Int) = 0) ∧
    (∀ i : Int, 0 ≤ i → i < ((3 : Nat) : Int) * ((2 : Nat) : Int) →
      ∃ a b : Int, inMaze 3 2 (a, b) ∧ ((2 : Nat) : Int) * a + b = i)) :=
  ⟨by decide, by decide,
    cellIndex_bijection 3 2 2 1 1 0 (start 3 2 0 0) (by decide) (by decide)⟩

/-- C14: for every grid at least 1x1 and in-bounds root, the state right after `start`
(`setupCells`, then the root update of `drawingCanvas`) has `CELLS` of length `X*Y`, with
`'visited'` at the root and `'unvisited'` at every other cell, the stack holds exactly one
entry, the index of the root, and the current position is the root. -/
theorem start_state (X Y : Nat) (root : Cell) (_hX : 1 ≤ X) (_hY : 1 ≤ Y)
    (hroot : inMaze X Y root) :
    start X Y root.1 root.2 =
      drawingCanvas Y { initial root.1 root.2 with
        CELLS := setupCells X Y (initial root.1 root.2).CELLS } ∧
    (start X Y root.1 root.2).CELLS.items.length = X * Y ∧
    (start X Y root.1 root.2).CELLS.props = [] ∧
    (∀ o ∈ (start X Y root.1 root.2).CELLS.items, o ≠ none) ∧
    (start X Y root.1 root.2).CELLS.get (cellIndex Y root) = some Status.visited ∧
    isVisited X Y (start X Y root.1 root.2).CELLS root ∧
    (∀ p, inMaze X Y p → p ≠ root →
      (start X Y root.1 root.2).CELLS.get (cellIndex Y p) = some Status.unvisited ∧
      isUnvisited X Y (start X Y root.1 root.2).CELLS p) ∧
    (start X Y root.1 root.2).TRACKER.items = [(Y : Int) * root.1 + root.2] ∧
    (start X Y root.1 root.2).TRACKER.size = 1 ∧
    (start X Y root.1 root.2).currentX = root.1 ∧
    (start X Y root.1 root.2).currentY = root.2 := by
  have hc := start_common hroot
  have hv : isVisited X Y (start X Y root.1 root.2).CELLS root :=
    (isVisited_start_iff hroot root).2 rfl
  refine ⟨rfl, hc.wf.len, hc.wf.props, hc.wf.full, get_of_isVisited hc.wf hv, hv, ?_,
    by rw [start_eq]; rfl, by rw [start_eq]; rfl, by rw [start_eq], by rw [start_eq]⟩
  intro p hp hne
  have hu : isUnvisited X Y (start X Y root.1 root.2).CELLS p := by
    rcases isVisited_or_isUnvisited (start X Y root.1 root.2).CELLS hp with h | h
    · exact absurd ((isVisited_start_iff hroot p).1 h) hne
    · exact h
  exact ⟨(isUnvisited_iff.1 hu).2, hu⟩

/-- Instance of `start_state` on the 2x2 grid with root `(1,0)`. -/
theorem start_state_witness :
    1 ≤ 2 ∧ inMaze 2 2 ((1, 0) : Cell) ∧
    (start 2 2 1 0 =
      drawingCanvas 2 { initial 1 0 with CELLS := setupCells 2 2 (initial 1 0).CELLS } ∧
    (start 2 2 1 0).CELLS.items.length = 2 * 2 ∧
    (start 2 2 1 0).CELLS.props = [] ∧
    (∀ o ∈ (start 2 2 1 0).CELLS.items, o ≠ none) ∧
    (start 2 2 1 0).CELLS.get (cellIndex 2 (1, 0)) = some Status.visited ∧
    isVisited 2 2 (start 2 2 1 0).CELLS (1, 0) ∧
    (∀ p, inMaze 2 2 p → p ≠ (1, 0) →
      (start 2 2 1 0).CELLS.get (cellIndex 2 p) = some Status.unvisited ∧
      isUnvisited 2 2 (start 2 2 1 0).CELLS p) ∧
    (start 2 2 1 0).TRACKER.items = [((2 : Nat) : Int) * 1 + 0] ∧
    (start 2 2 1 0).TRACKER.size = 1 ∧
    (start 2 2 1 0).currentX = 1 ∧
    (start 2 2 1 0).currentY = 0) :=
  ⟨by decide, by decide, start_state 2 2 (1, 0) (by decide) (by decide) (by decide)⟩

/-- C17: for all integers `x`, `y` and every grid state, `findValidNeighbor(x,y)` returns
`visited`, exactly the sub-sequence of `neighborType(x,y)` whose value is `'visited'`, and
`unvisited`, exactly the sub-sequence whose value is `'unvisited'`, each in the order left,
right, up, down; an out-of-bounds (`null`) neighbour is in neither list and an in-bounds
neighbour is in exactly one. -/
theorem findValidNeighbor_partition (X Y : Nat) (c : CellArray) (x y : Int) :
    (findValidNeighbor X Y c x y).visited =
      (neighborType X Y c x y).filter (fun n => decide (n.value = some Status.visited)) ∧
    (findValidNeighbor X Y c x y).unvisited =
      (neighborType X Y c x y).filter (fun n => decide (n.value = some Status.unvisited)) ∧
    (findValidNeighbor X Y c x y).visited.Sublist (neighborType X Y c x y) ∧
    (findValidNeighbor X Y c x y).unvisited.Sublist (neighborType X Y c x y) ∧
    (∀ n ∈ neighborType X Y c x y, (n.value = none ∨ ¬ inMaze X Y (n.x, n.y)) →
      n ∉ (findValidNeighbor X Y c x y).visited ∧
      n ∉ (findValidNeighbor X Y c x y).unvisited) ∧
    (∀ n ∈ neighborType X Y c x y, inMaze X Y (n.x, n.y) →
      (n ∈ (findValidNeighbor X Y c x y).visited ∧
        n ∉ (findValidNeighbor X Y c x y).unvisited) ∨
      (n ∉ (findValidNeighbor X Y c x y).visited ∧
        n ∈ (findValidNeighbor X Y c x y).unvisited)) := by
  have hv := findValidNeighbor_visited X Y c x y
  have hu := findValidNeighbor_unvisited X Y c x y
  refine ⟨hv, hu, by rw [hv]; exact List.filter_sublist _,
    by rw [hu]; exact List.filter_sublist _, ?_, ?_⟩
  · intro n hn hnull
    have hval : n.value = none := by
      rcases hnull with h | h
      · exact h
      · rw [(mem_neighborType.1 hn).1]
        exact (checkValidation_eq_none_iff X Y c n.x n.y).2 h
    rw [hv, hu]
    simp [List.mem_filter, hval]
  · intro n hn hin
    have hval := (mem_neighborType.1 hn).1
    rw [hv, hu]
    simp only [List.mem_filter, hn, true_and, decide_eq_true_eq]
    rcases isVisited_or_isUnvisited c hin with h | h
    · unfold isVisited at h
      simp only at h
      rw [← hval] at h
      left
      simp [h]
    · unfold isUnvisited at h
      simp only at h
      rw [← hval] at h
      right
      simp [h]

/-- C15: in any state reached by a run from `start` (root in the maze, draws in `[0,1)`) in
which the current cell has at least one unvisited neighbour, for every draw `r` in `[0,1)`
`stepOut` takes the carve branch: the chosen record `next` is the member number
`floor(r * length)` of the unvisited list; afterwards `next`, unvisited before, is
`'visited'`, its index is the new top of the stack with the old stack unchanged beneath it
(size + 1), the current position is `next`, and every other key of `CELLS` keeps its
value. -/
theorem carve_branch (X Y : Nat) (root : Cell) (draws : Nat → ℚ) (hroot : inMaze X Y root)
    (hd : ValidDraws draws) (n : Nat) (r : ℚ) (hr : 0 ≤ r ∧ r < 1) :
    ∃ s evs, run X Y root.1 root.2 draws n = .ok (s, evs) ∧
      ((findValidNeighbor X Y s.CELLS s.currentX s.currentY).unvisited ≠ [] →
        ∃ next s1,
          next ∈ (findValidNeighbor X Y s.CELLS s.currentX s.currentY).unvisited ∧
          (findValidNeighbor X Y s.CELLS s.currentX s.currentY).unvisited[
            (Int.floor (r * (((findValidNeighbor X Y s.CELLS s.currentX
              s.currentY).unvisited.length : Nat) : ℚ))).toNat]? = some next ∧
          tick X Y r s = .ok (s1, StepResult.carved s.currentX s.currentY next.x next.y) ∧
          isUnvisited X Y s.CELLS (next.x, next.y) ∧
          isVisited X Y s1.CELLS (next.x, next.y) ∧
          s1.CELLS.get ((Y : Int) * next.x + next.y) = some Status.visited ∧
          s1.TRACKER.items = s.TRACKER.items ++ [(Y : Int) * next.x + next.y] ∧
          s1.TRACKER.peek = some ((Y : Int) * next.x + next.y) ∧
          s1.TRACKER.size = s.TRACKER.size + 1 ∧
          s1.currentX = next.x ∧ s1.currentY = next.y ∧
          (∀ j, j ≠ (Y : Int) * next.x + next.y → s1.CELLS.get j = s.CELLS.get j) ∧
          s1.CELLS.items.length = s.CELLS.items.length) := by
  obtain ⟨s, evs, hrun, _, hc, _⟩ := run_invariant hroot hd n
  refine ⟨s, evs, hrun, ?_⟩
  intro hU
  obtain ⟨next, hget, hmem, ht⟩ := tick_carve (X := X) (Y := Y) hr s hU
  obtain ⟨_, hq, _⟩ := mem_unvisited_iff.1 hmem
  have hqin := isUnvisited_inMaze hq
  have hwf := CellsWF_set hc.wf hqin Status.visited
  refine ⟨next, _, hmem, hget, ht, hq, ?_, ?_, ?_, ?_, ?_, rfl, rfl, ?_, ?_⟩
  · exact (isVisited_set_iff _ hqin _).2 (Or.inl rfl)
  · exact CellArray.get_set_same _ _ _
  · simp [Stack.push, cellIndex]
  · simp [Stack.push, Stack.peek, cellIndex]
  · simp [Stack.push, Stack.size]
  · intro j hj
    exact CellArray.get_set_ne _ _ _ _ hj
  · simp only
    rw [hwf.len, hc.wf.len]

/-- Instance of `carve_branch` on the 2x1 grid, at the state after `start`. -/
theorem carve_branch_witness :
    inMaze 2 1 ((0, 0) : Cell) ∧ ValidDraws (fun _ => 0) ∧ (0 ≤ (1 / 2 : ℚ) ∧ (1 / 2 : ℚ) < 1) ∧
    ∃ s evs, run 2 1 0 0 (fun _ => 0) 0 = .ok (s, evs) ∧
      ((findValidNeighbor 2 1 s.CELLS s.currentX s.currentY).unvisited ≠ [] →
        ∃ next s1,
          next ∈ (findValidNeighbor 2 1 s.CELLS s.currentX s.currentY).unvisited ∧
          (findValidNeighbor 2 1 s.CELLS s.currentX s.currentY).unvisited[
            (Int.floor ((1 / 2 : ℚ) * (((findValidNeighbor 2 1 s.CELLS s.currentX
              s.currentY).unvisited.length : Nat) : ℚ))).toNat]? = some next ∧
          tick 2 1 (1 / 2) s = .ok (s1, StepResult.carved s.currentX s.currentY next.x next.y) ∧
          isUnvisited 2 1 s.CELLS (next.x, next.y) ∧
          isVisited 2 1 s1.CELLS (next.x, next.y) ∧
          s1.CELLS.get (((1 : Nat) : Int) * next.x + next.y) = some Status.visited ∧
          s1.TRACKER.items = s.TRACKER.items ++ [((1 : Nat) : Int) * next.x + next.y] ∧
          s1.TRACKER.peek = some (((1 : Nat) : Int) * next.x + next.y) ∧
          s1.TRACKER.size = s.TRACKER.size + 1 ∧
          s1.currentX = next.x ∧ s1.currentY = next.y ∧
          (∀ j, j ≠ ((1 : Nat) : Int) * next.x + next.y → s1.CELLS.get j = s.CELLS.get j) ∧
          s1.CELLS.items.length = s.CELLS.items.length) :=
  ⟨by decide, validDraws_zero, by norm_num,
    carve_branch 2 1 (0, 0) (fun _ => 0) (by decide) validDraws_zero 0 (1 / 2) (by norm_num)⟩

/-- C16: in any state reached by a run from `start` (root in the maze, draws in `[0,1)`) in
which the current cell has no unvisited neighbour and the stack has more than one entry,
`stepOut` (whatever its draw) pops exactly one entry; exactly one record of the visited
neighbours of the old current cell has its linear index equal to the new stack top; the
current position becomes that neighbour `q`, nothing is pushed and `CELLS` is unchanged, so
the loop of `backTrack` always finds its match. -/
theorem backtrack_branch (X Y : Nat) (root : Cell) (draws : Nat → ℚ)
    (hroot : inMaze X Y root) (hd : ValidDraws draws) (n : Nat) (r : ℚ) :
    ∃ s evs, run X Y root.1 root.2 draws n = .ok (s, evs) ∧
      ((findValidNeighbor X Y s.CELLS s.currentX s.currentY).unvisited = [] →
        1 < s.TRACKER.size →
        ∃ q : Cell, isVisited X Y s.CELLS q ∧ adjacent s.current q ∧
          (⟨q.1, q.2, some Status.visited⟩ : Neighbor) ∈
            (findValidNeighbor X Y s.CELLS s.currentX s.currentY).visited ∧
          s.TRACKER.pop.peek = some ((Y : Int) * q.1 + q.2) ∧
          (findValidNeighbor X Y s.CELLS s.currentX s.currentY).visited.countP
            (fun v => decide (s.TRACKER.pop.peek = some ((Y : Int) * v.x + v.y))) = 1 ∧
          tick X Y r s = .ok (⟨s.CELLS, s.TRACKER.pop, q.1, q.2⟩,
            StepResult.backtracked s.currentX s.currentY q.1 q.2) ∧
          s.TRACKER.pop.items = s.TRACKER.items.dropLast ∧
          s.TRACKER.pop.size + 1 = s.TRACKER.size) := by
  obtain ⟨s, evs, s1, e, hrun, _, _, hrel, _, _⟩ := run_step hroot hd n
  refine ⟨s, evs, hrun, ?_⟩
  intro hU hsize
  have hU' := unvisited_eq_nil_iff.1 hU
  rcases hrel with ⟨q, hq, hadj, _, _⟩ | ⟨q, hq, hadj, _, _, hpeek, _, _⟩ |
    ⟨_, h1, _, _⟩ | ⟨_, h0, _, _⟩
  · exact absurd hq (hU' q hadj)
  · refine ⟨q, hq, hadj, mem_visited_iff.2 ⟨rfl, hq, hadj⟩, hpeek, ?_,
      tick_backtrack r s q hU (by omega) hpeek hq hadj, rfl, ?_⟩
    · rw [hpeek]
      exact countP_visited_match hq hadj
    · simp only [Stack.pop, Stack.size, List.length_dropLast] at hsize ⊢
      omega
  · omega
  · omega

/-- Instance of `backtrack_branch` on the 2x1 grid, at the state after the only carve. -/
theorem backtrack_branch_witness :
    inMaze 2 1 ((0, 0) : Cell) ∧ ValidDraws (fun _ => 0) ∧
    ∃ s evs, run 2 1 0 0 (fun _ => 0) 1 = .ok (s, evs) ∧
      ((findValidNeighbor 2 1 s.CELLS s.currentX s.currentY).unvisited = [] →
        1 < s.TRACKER.size →
        ∃ q : Cell, isVisited 2 1 s.CELLS q ∧ adjacent s.current q ∧
          (⟨q.1, q.2, some Status.visited⟩ : Neighbor) ∈
            (findValidNeighbor 2 1 s.CELLS s.currentX s.currentY).visited ∧
          s.TRACKER.pop.peek = some (((1 : Nat) : Int) * q.1 + q.2) ∧
          (findValidNeighbor 2 1 s.CELLS s.currentX s.currentY).visited.countP
            (fun v => decide (s.TRACKER.pop.peek = some (((1 : Nat) : Int) * v.x + v.y))) = 1 ∧
          tick 2 1 7 s = .ok (⟨s.CELLS, s.TRACKER.pop, q.1, q.2⟩,
            StepResult.backtracked s.currentX s.currentY q.1 q.2) ∧
          s.TRACKER.pop.items = s.TRACKER.items.dropLast ∧
          s.TRACKER.pop.size + 1 = s.TRACKER.size) :=
  ⟨by decide, validDraws_zero,
    backtrack_branch 2 1 (0, 0) (fun _ => 0) (by decide) validDraws_zero 1 7⟩

/-- C18, as stated, fails for the draw `r = 6004799503160661 / 2^53` (the double
`0.6666666666666666`) and a list of three unvisited neighbours: `1/3 <= r < 2/3`, and the
exact index `floor(r*3)` is `1`, yet the source multiplies in doubles, the product
`2 - 2^-53` is rounded to `2`, and index `2` is selected: on the 3x2 grid with root `(1,0)`
the first call carves to `(1,1)`, record number `2` of the list, not to `(2,0)`, record
number `1`. -/
theorem selection_rounds_up :
    isDouble ((6004799503160661 : ℚ) / 9007199254740992) ∧
    (0 : ℚ) ≤ (6004799503160661 : ℚ) / 9007199254740992 ∧
    (6004799503160661 : ℚ) / 9007199254740992 < 1 ∧
    ((1 : Nat) : ℚ) / ((3 : Nat) : ℚ) ≤ (6004799503160661 : ℚ) / 9007199254740992 ∧
    (6004799503160661 : ℚ) / 9007199254740992 < (((1 : Nat) : ℚ) + 1) / ((3 : Nat) : ℚ) ∧
    Int.floor ((6004799503160661 : ℚ) / 9007199254740992 * ((3 : Nat) : ℚ)) = 1 ∧
    Int.floor (roundDouble ((6004799503160661 : ℚ) / 9007199254740992 * ((3 : Nat) : ℚ))) = 2 ∧
    (findValidNeighbor 3 2 (start 3 2 1 0).CELLS 1 0).unvisited =
      [⟨0, 0, some Status.unvisited⟩, ⟨2, 0, some Status.unvisited⟩,
       ⟨1, 1, some Status.unvisited⟩] ∧
    tickDouble 3 2 ((6004799503160661 : ℚ) / 9007199254740992) (start 3 2 1 0) =
      .ok (⟨⟨[some Status.unvisited, some Status.unvisited, some Status.visited,
              some Status.visited, some Status.unvisited, some Status.unvisited], []⟩,
            ⟨[2, 3]⟩, 1, 1⟩,
        StepResult.carved 1 0 1 1) := by
  obtain ⟨hd, hround⟩ := roundDouble_two_thirds
  have hfl : Int.floor (roundDouble ((6004799503160661 : ℚ) / 9007199254740992 *
      ((3 : Nat) : ℚ))) = 2 := by
    rw [hround]
    exact Int.floor_intCast 2
  refine ⟨hd, by norm_num, by norm_num, by norm_num, by norm_num, ?_, hfl, by decide, ?_⟩
  · rw [Int.floor_eq_iff]
    constructor <;> norm_num
  · exact tickDouble_carve_at (X := 3) (Y := 2) _ (start 3 2 1 0) (k := 2)
      (n := ⟨1, 1, some Status.unvisited⟩) hfl (by decide)

/-- C18 (amended): the carve selection `floor(Math.random() * n)` is computed in doubles.
For every length `n` of `1..4` and every double `r` in `[0,1)` the selected index
`floor(fl(r*n))`, where `fl` rounds the exact product to the nearest double, lies in
`0..n-1`; it is `floor(r*n)`, or `floor(r*n) + 1` when `r*n` is at most `2^-52` below
that integer, so `k` is selected whenever `k/n <= r` and `r*n < k + 1 - 2^-52`, and only when
`k - 2^-52 <= r*n < k + 1`; for `n = 1, 2, 4` the product is exact and `k` is selected
exactly when `k/n <= r < (k+1)/n`. In every state whose unvisited list is non-empty (its
length is in `1..4`) `stepOut` carves to the record number `k` of that list exactly when
the index computed in doubles is `k`, whatever the direction of that record. -/
theorem carve_selection_double (X Y : Nat) (s : Engine) (r : ℚ) (hd : isDouble r)
    (hr : 0 ≤ r ∧ r < 1)
    (hU : (findValidNeighbor X Y s.CELLS s.currentX s.currentY).unvisited ≠ []) :
    (∀ n : Nat, 1 ≤ n → n ≤ 4 →
      0 ≤ Int.floor (roundDouble (r * (n : ℚ))) ∧
      Int.floor (roundDouble (r * (n : ℚ))) < (n : Int) ∧
      (Int.floor (roundDouble (r * (n : ℚ))) = Int.floor (r * (n : ℚ)) ∨
        (Int.floor (roundDouble (r * (n : ℚ))) = Int.floor (r * (n : ℚ)) + 1 ∧
          ((Int.floor (r * (n : ℚ)) + 1 : Int) : ℚ) - (2 : ℚ) ^ (-52 : Int) ≤ r * (n : ℚ))) ∧
      (∀ k : Nat, (k : ℚ) / (n : ℚ) ≤ r → r * (n : ℚ) < (k : ℚ) + 1 - (2 : ℚ) ^ (-52 : Int) →
        Int.floor (roundDouble (r * (n : ℚ))) = (k : Int)) ∧
      (∀ k : Nat, Int.floor (roundDouble (r * (n : ℚ))) = (k : Int) →
        (k : ℚ) - (2 : ℚ) ^ (-52 : Int) ≤ r * (n : ℚ) ∧ r * (n : ℚ) < (k : ℚ) + 1) ∧
      (n ≠ 3 → roundDouble (r * (n : ℚ)) = r * (n : ℚ) ∧
        ∀ k : Nat, k < n →
          (Int.floor (roundDouble (r * (n : ℚ))) = (k : Int) ↔
            (k : ℚ) / (n : ℚ) ≤ r ∧ r < ((k : ℚ) + 1) / (n : ℚ)))) ∧
    1 ≤ (findValidNeighbor X Y s.CELLS s.currentX s.currentY).unvisited.length ∧
    (findValidNeighbor X Y s.CELLS s.currentX s.currentY).unvisited.length ≤ 4 ∧
    ∀ (k : Nat) (hk : k < (findValidNeighbor X Y s.CELLS s.currentX s.currentY).unvisited.length),
      (tickDouble X Y r s = .ok
        (⟨s.CELLS.set ((Y : Int) *
              ((findValidNeighbor X Y s.CELLS s.currentX s.currentY).unvisited[k]).x +
              ((findValidNeighbor X Y s.CELLS s.currentX s.currentY).unvisited[k]).y)
            Status.visited,
          s.TRACKER.push ((Y : Int) *
              ((findValidNeighbor X Y s.CELLS s.currentX s.currentY).unvisited[k]).x +
              ((findValidNeighbor X Y s.CELLS s.currentX s.currentY).unvisited[k]).y),
          ((findValidNeighbor X Y s.CELLS s.currentX s.currentY).unvisited[k]).x,
          ((findValidNeighbor X Y s.CELLS s.currentX s.currentY).unvisited[k]).y⟩,
         StepResult.carved s.currentX s.currentY
          ((findValidNeighbor X Y s.CELLS s.currentX s.currentY).unvisited[k]).x
          ((findValidNeighbor X Y s.CELLS s.currentX s.currentY).unvisited[k]).y) ↔
      Int.floor (roundDouble (r *
        ((findValidNeighbor X Y s.CELLS s.currentX s.currentY).unvisited.length : ℚ))) =
        (k : Int)) := by
  set U := (findValidNeighbor X Y s.CELLS s.currentX s.currentY).unvisited with hUdef
  have hlen : 0 < U.length := List.length_pos.2 hU
  obtain ⟨hnd, hle⟩ := unvisited_coords_nodup X Y s.CELLS s.currentX s.currentY
  rw [← hUdef] at hnd hle
  refine ⟨?_, hlen, hle, ?_⟩
  · intro n hn1 hn4
    have hn0 : (0 : ℚ) < (n : ℚ) := by exact_mod_cast hn1
    obtain ⟨h0, h1⟩ := double_index_lt hd hr hn1 hn4
    have hnear := double_index_near hr hn1 hn4
    have hflo := Int.floor_le (r * (n : ℚ))
    have hfhi := Int.lt_floor_add_one (r * (n : ℚ))
    have hpow : (0 : ℚ) < (2 : ℚ) ^ (-52 : Int) := zpow_pos (by norm_num) _
    refine ⟨h0, by omega, hnear, ?_, ?_, ?_⟩
    · intro k hk1 hk2
      have hk1' : (k : ℚ) ≤ r * (n : ℚ) := (div_le_iff₀ hn0).1 hk1
      have hfk : Int.floor (r * (n : ℚ)) = (k : Int) := by
        rw [Int.floor_eq_iff]
        push_cast
        exact ⟨hk1', by linarith⟩
      rcases hnear with h | ⟨_, h⟩
      · rw [h, hfk]
      · exfalso
        rw [hfk] at h
        push_cast at h
        linarith
    · intro k hk
      rcases hnear with h | ⟨h, hb⟩
      · rw [h] at hk
        rw [hk] at hflo hfhi
        push_cast at hflo hfhi
        exact ⟨by linarith, hfhi⟩
      · rw [h] at hk
        rw [hk] at hb
        have hlt : r * (n : ℚ) < ((Int.floor (r * (n : ℚ)) + 1 : Int) : ℚ) := by
          push_cast
          exact hfhi
        rw [hk] at hlt
        push_cast at hb hlt
        exact ⟨hb, by linarith⟩
    · intro hn3
      have hcases : n = 1 ∨ n = 2 ∨ n = 4 := by omega
      have hex := roundDouble_mul_length hd hr.1 hcases
      refine ⟨hex, fun k _ => ?_⟩
      rw [hex]
      exact floor_draw_eq_iff r (by omega) k
  · intro k hk
    obtain ⟨m, hget, ht⟩ := tickDouble_carve (X := X) (Y := Y) hd hr s hU
    rw [← hUdef] at hget
    obtain ⟨h0, h1⟩ := double_index_lt hd hr (n := U.length) hlen hle
    have hm : m = U[(Int.floor (roundDouble (r * ((U.length : Nat) : ℚ)))).toNat] := by
      rw [List.getElem?_eq_getElem h1] at hget
      exact (Option.some.inj hget).symm
    constructor
    · intro h
      rw [ht] at h
      simp only [Except.ok.injEq, Prod.mk.injEq, StepResult.carved.injEq, true_and] at h
      have hrec : U[(Int.floor (roundDouble (r * ((U.length : Nat) : ℚ)))).toNat] = U[k] := by
        apply List.inj_on_of_nodup_map hnd (List.getElem_mem _) (List.getElem_mem _)
        simp only [Prod.mk.injEq]
        rw [← hm]
        exact h.2
      have := (List.Nodup.getElem_inj_iff (List.Nodup.of_map _ hnd)).1 hrec
      omega
    · intro h
      have := tickDouble_carve_at (X := X) (Y := Y) r s (k := k) (n := U[k]) h
        (List.getElem?_eq_getElem hk)
      simpa [cellIndex] using this

/-- Instance of `carve_selection_double` on the 3x2 grid with root `(1,0)`, where the list has
three records, at the draw `6004799503160661 / 2^53`. -/
theorem carve_selection_double_witness :
    isDouble ((6004799503160661 : ℚ) / 9007199254740992) ∧
    ((0 : ℚ) ≤ ((6004799503160661 : ℚ) / 9007199254740992) ∧ ((6004799503160661 : ℚ) / 9007199254740992) < 1) ∧
    (findValidNeighbor 3 2 (start 3 2 1 0).CELLS (start 3 2 1 0).currentX (start 3 2 1 0).currentY).unvisited ≠ [] ∧
    (    (∀ n : Nat, 1 ≤ n → n ≤ 4 →
      0 ≤ Int.floor (roundDouble (((6004799503160661 : ℚ) / 9007199254740992) * (n : ℚ))) ∧
      Int.floor (roundDouble (((6004799503160661 : ℚ) / 9007199254740992) * (n : ℚ))) < (n : Int) ∧
      (Int.floor (roundDouble (((6004799503160661 : ℚ) / 9007199254740992) * (n : ℚ))) = Int.floor (((6004799503160661 : ℚ) / 9007199254740992) * (n : ℚ)) ∨
        (Int.floor (roundDouble (((6004799503160661 : ℚ) / 9007199254740992) * (n : ℚ))) = Int.floor (((6004799503160661 : ℚ) / 9007199254740992) * (n : ℚ)) + 1 ∧
          ((Int.floor (((6004799503160661 : ℚ) / 9007199254740992) * (n : ℚ)) + 1 : Int) : ℚ) - (2 : ℚ) ^ (-52 : Int) ≤ ((6004799503160661 : ℚ) / 9007199254740992) * (n : ℚ))) ∧
      (∀ k : Nat, (k : ℚ) / (n : ℚ) ≤ ((6004799503160661 : ℚ) / 9007199254740992) → ((6004799503160661 : ℚ) / 9007199254740992) * (n : ℚ) < (k : ℚ) + 1 - (2 : ℚ) ^ (-52 : Int) →
        Int.floor (roundDouble (((6004799503160661 : ℚ) / 9007199254740992) * (n : ℚ))) = (k : Int)) ∧
      (∀ k : Nat, Int.floor (roundDouble (((6004799503160661 : ℚ) / 9007199254740992) * (n : ℚ))) = (k : Int) →
        (k : ℚ) - (2 : ℚ) ^ (-52 : Int) ≤ ((6004799503160661 : ℚ) / 9007199254740992) * (n : ℚ) ∧ ((6004799503160661 : ℚ) / 9007199254740992) * (n : ℚ) < (k : ℚ) + 1) ∧
      (n ≠ 3 → roundDouble (((6004799503160661 : ℚ) / 9007199254740992) * (n : ℚ)) = ((6004799503160661 : ℚ) / 9007199254740992) * (n : ℚ) ∧
        ∀ k : Nat, k < n →
          (Int.floor (roundDouble (((6004799503160661 : ℚ) / 9007199254740992) * (n : ℚ))) = (k : Int) ↔
            (k : ℚ) / (n : ℚ) ≤ ((6004799503160661 : ℚ) / 9007199254740992) ∧ ((6004799503160661 : ℚ) / 9007199254740992) < ((k : ℚ) + 1) / (n : ℚ)))) ∧
    1 ≤ (findValidNeighbor 3 2 (start 3 2 1 0).CELLS (start 3 2 1 0).currentX (start 3 2 1 0).currentY).unvisited.length ∧
    (findValidNeighbor 3 2 (start 3 2 1 0).CELLS (start 3 2 1 0).currentX (start 3 2 1 0).currentY).unvisited.length ≤ 4 ∧
    ∀ (k : Nat) (hk : k < (findValidNeighbor 3 2 (start 3 2 1 0).CELLS (start 3 2 1 0).currentX (start 3 2 1 0).currentY).unvisited.length),
      (tickDouble 3 2 ((6004799503160661 : ℚ) / 9007199254740992) (start 3 2 1 0) = .ok
        (⟨(start 3 2 1 0).CELLS.set (((2 : Nat) : Int) *
              ((findValidNeighbor 3 2 (start 3 2 1 0).CELLS (start 3 2 1 0).currentX (start 3 2 1 0).currentY).unvisited[k]).x +
              ((findValidNeighbor 3 2 (start 3 2 1 0).CELLS (start 3 2 1 0).currentX (start 3 2 1 0).currentY).unvisited[k]).y)
            Status.visited,
          (start 3 2 1 0).TRACKER.push (((2 : Nat) : Int) *
              ((findValidNeighbor 3 2 (start 3 2 1 0).CELLS (start 3 2 1 0).currentX (start 3 2 1 0).currentY).unvisited[k]).x +
              ((findValidNeighbor 3 2 (start 3 2 1 0).CELLS (start 3 2 1 0).currentX (start 3 2 1 0).currentY).unvisited[k]).y),
          ((findValidNeighbor 3 2 (start 3 2 1 0).CELLS (start 3 2 1 0).currentX (start 3 2 1 0).currentY).unvisited[k]).x,
          ((findValidNeighbor 3 2 (start 3 2 1 0).CELLS (start 3 2 1 0).currentX (start 3 2 1 0).currentY).unvisited[k]).y⟩,
         StepResult.carved (start 3 2 1 0).currentX (start 3 2 1 0).currentY
          ((findValidNeighbor 3 2 (start 3 2 1 0).CELLS (start 3 2 1 0).currentX (start 3 2 1 0).currentY).unvisited[k]).x
          ((findValidNeighbor 3 2 (start 3 2 1 0).CELLS (start 3 2 1 0).currentX (start 3 2 1 0).currentY).unvisited[k]).y) ↔
      Int.floor (roundDouble (((6004799503160661 : ℚ) / 9007199254740992) *
        ((findValidNeighbor 3 2 (start 3 2 1 0).CELLS (start 3 2 1 0).currentX (start 3 2 1 0).currentY).unvisited.length : ℚ))) =
        (k : Int))) :=
  ⟨roundDouble_two_thirds.1, by norm_num, by decide,
    carve_selection_double 3 2 (start 3 2 1 0) ((6004799503160661 : ℚ) / 9007199254740992) roundDouble_two_thirds.1 (by norm_num) (by decide)⟩

/-- C20: in every state reached by a run from `start` (root in the maze, draws in `[0,1)`)
every entry of the stack is the index of an in-bounds cell that is `'visited'`, and every
`'visited'` cell whose index is not on the stack has no `'unvisited'` in-bounds neighbour:
all its in-bounds neighbours are `'visited'`. -/
theorem stack_visited_frontier (X Y : Nat) (root : Cell) (draws : Nat → ℚ)
    (hroot : inMaze X Y root) (hd : ValidDraws draws) (n : Nat) :
    ∃ s evs, run X Y root.1 root.2 draws n = .ok (s, evs) ∧
      (∀ i ∈ s.TRACKER.items, ∃ p : Cell, inMaze X Y p ∧ (Y : Int) * p.1 + p.2 = i ∧
        isVisited X Y s.CELLS p ∧ s.CELLS.get i = some Status.visited) ∧
      (∀ p, isVisited X Y s.CELLS p → (Y : Int) * p.1 + p.2 ∉ s.TRACKER.items →
        ∀ q, adjacent p q → ¬ isUnvisited X Y s.CELLS q ∧
          (inMaze X Y q → isVisited X Y s.CELLS q ∧
            s.CELLS.get ((Y : Int) * q.1 + q.2) = some Status.visited)) := by
  obtain ⟨s, evs, hrun, _, hc, hph⟩ := run_invariant hroot hd n
  refine ⟨s, evs, hrun, ?_⟩
  have hvis : ∀ q, inMaze X Y q → ¬ isUnvisited X Y s.CELLS q →
      isVisited X Y s.CELLS q ∧ s.CELLS.get ((Y : Int) * q.1 + q.2) = some Status.visited := by
    intro q hq hnu
    rcases isVisited_or_isUnvisited s.CELLS hq with h | h
    · exact ⟨h, get_of_isVisited hc.wf h⟩
    · exact absurd h hnu
  rcases hph with ⟨rpath, hr⟩ | ⟨k, hk⟩
  · constructor
    · intro i hi
      rw [hr.stack, List.mem_reverse, List.mem_map] at hi
      obtain ⟨p, hp, hpi⟩ := hi
      have hv := hr.on_path p hp
      refine ⟨p, isVisited_inMaze hv, hpi, hv, ?_⟩
      rw [← hpi]
      exact get_of_isVisited hc.wf hv
    · intro p hp hnot q hadj
      have hnp : p ∉ rpath := by
        intro h
        apply hnot
        rw [hr.stack, List.mem_reverse, List.mem_map]
        exact ⟨p, h, rfl⟩
      have hnu := hr.closed p hp hnp q hadj
      exact ⟨hnu, fun hq => hvis q hq hnu⟩
  · constructor
    · intro i hi
      rw [hk.stack] at hi
      simp at hi
    · intro p _ _ q _
      have hnu : ¬ isUnvisited X Y s.CELLS q := fun h =>
        not_isVisited_of_isUnvisited h (hk.all q (isUnvisited_inMaze h))
      exact ⟨hnu, fun hq => hvis q hq hnu⟩

/-- Instance of `stack_visited_frontier` on the 2x1 grid, after two callbacks. -/
theorem stack_visited_frontier_witness :
    inMaze 2 1 ((0, 0) : Cell) ∧ ValidDraws (fun _ => 0) ∧
    ∃ s evs, run 2 1 0 0 (fun _ => 0) 2 = .ok (s, evs) ∧
      (∀ i ∈ s.TRACKER.items, ∃ p : Cell, inMaze 2 1 p ∧ ((1 : Nat) : Int) * p.1 + p.2 = i ∧
        isVisited 2 1 s.CELLS p ∧ s.CELLS.get i = some Status.visited) ∧
      (∀ p, isVisited 2 1 s.CELLS p → ((1 : Nat) : Int) * p.1 + p.2 ∉ s.TRACKER.items →
        ∀ q, adjacent p q → ¬ isUnvisited 2 1 s.CELLS q ∧
          (inMaze 2 1 q → isVisited 2 1 s.CELLS q ∧
            s.CELLS.get (((1 : Nat) : Int) * q.1 + q.2) = some Status.visited)) :=
  ⟨by decide, validDraws_zero,
    stack_visited_frontier 2 1 (0, 0) (fun _ => 0) (by decide) validDraws_zero 2⟩

/-- C19: the length of a run does not depend on the draws. For every grid at least 1x1,
in-bounds root and draws in `[0,1)`, the run from `start` to the finish report is `2*X*Y`
calls of `stepOut`: exactly `X*Y - 1` carve moves and exactly `X*Y - 1` backtrack moves in
some order, then the call that pops the root entry, then the call that reports finish; the
carve moves are pairwise distinct and the backtrack moves are, up to order, the carve moves
reversed (each carved edge is walked once forward and once backward). -/
theorem run_length_fixed (X Y : Nat) (root : Cell) (draws : Nat → ℚ) (_hX : 1 ≤ X)
    (_hY : 1 ≤ Y) (hroot : inMaze X Y root) (hd : ValidDraws draws) :
    ∃ s evs pre, run X Y root.1 root.2 draws (2 * (X * Y)) = .ok (s, evs) ∧
      evs.length = 2 * (X * Y) ∧
      evs = pre ++ [StepResult.popped, StepResult.finished] ∧
      (∀ e ∈ pre, e.isCarve = true ∨ e.isBacktrack = true) ∧
      StepResult.finished ∉ evs.dropLast ∧
      evs.countP StepResult.isCarve = X * Y - 1 ∧
      evs.countP StepResult.isBacktrack = X * Y - 1 ∧
      (carves evs).length = X * Y - 1 ∧
      (backs evs).length = X * Y - 1 ∧
      (carves evs).Nodup ∧
      (backs evs).Perm ((carves evs).map Prod.swap) := by
  obtain ⟨s, evs, hrun, hlen, hc, hph⟩ := run_traversal hroot hd (2 * (X * Y))
  rcases hph with ⟨rpath, hr, _⟩ | ⟨k, hk, hperm⟩
  · have := running_length_le hc hr
    omega
  · have hk1 : k = 1 := by
      have := done_length_eq hc hk
      omega
    subst hk1
    obtain ⟨pre, hpre, hmoves, hcount⟩ := hk.shape
    have hcarves := done_carves_length hc hk
    have hnd : (carves evs).Nodup :=
      List.Nodup.of_map _ (List.nodup_cons.1 hc.seen_nodup).2
    have hbl : (backs evs).length = (carves evs).length := by
      have := hperm.length_eq
      simpa using this.symm
    have hperm2 : (backs evs).Perm ((carves evs).map Prod.swap) := by
      have := (hperm.map Prod.swap).symm
      simpa [List.map_map] using this
    have hfin : StepResult.finished ∉ evs.dropLast := by
      rw [hpre]
      have : pre ++ StepResult.popped :: List.replicate 1 StepResult.finished =
          (pre ++ [StepResult.popped]) ++ [StepResult.finished] := by simp
      rw [this, List.dropLast_concat]
      intro h
      rcases List.mem_append.1 h with h | h
      · exact (not_finished_mem_of_moves hmoves).1 h
      · simp at h
    refine ⟨s, evs, pre, hrun, hlen, by rw [hpre]; rfl, hmoves, hfin, ?_, ?_, ?_, ?_, hnd,
      hperm2⟩
    · rw [← carves_length]; omega
    · rw [← backs_length]; omega
    · omega
    · omega

/-- Instance of `run_length_fixed` on the 2x1 grid. -/
theorem run_length_fixed_witness :
    1 ≤ 2 ∧ 1 ≤ 1 ∧ inMaze 2 1 ((0, 0) : Cell) ∧ ValidDraws (fun _ => 0) ∧
    ∃ s evs pre, run 2 1 0 0 (fun _ => 0) (2 * (2 * 1)) = .ok (s, evs) ∧
      evs.length = 2 * (2 * 1) ∧
      evs = pre ++ [StepResult.popped, StepResult.finished] ∧
      (∀ e ∈ pre, e.isCarve = true ∨ e.isBacktrack = true) ∧
      StepResult.finished ∉ evs.dropLast ∧
      evs.countP StepResult.isCarve = 2 * 1 - 1 ∧
      evs.countP StepResult.isBacktrack = 2 * 1 - 1 ∧
      (carves evs).length = 2 * 1 - 1 ∧
      (backs evs).length = 2 * 1 - 1 ∧
      (carves evs).Nodup ∧
      (backs evs).Perm ((carves evs).map Prod.swap) :=
  ⟨by decide, by decide, by decide, validDraws_zero,
    run_length_fixed 2 1 (0, 0) (fun _ => 0) (by decide) (by decide) (by decide)
      validDraws_zero⟩

end RandomMaze
